import Mathlib

/-!
# lsx: box rendering, text measurement, sorting and inline expansion

A shallow embedding of `src/main.c`.

Conventions of the embedding.

* A byte is a `Nat`; a `char *` is the list of the bytes it points at.  The
  C string it holds is the part in front of the first NUL (`cstr`); the end of
  the list reads as the terminating NUL.
* `stdout` is the list of bytes written; every printing function returns the
  bytes it appends.
* `int` is `Int`; no quantity of the program comes near the 32-bit range.
* The C library is not part of the repository.  `mbrtowc` is modelled for the
  two kinds of locale the program distinguishes (a UTF-8 codeset, and the
  single-byte C/POSIX codeset); `wcwidth` is a field of the locale.  `strcmp`
  is modelled up to the magnitude of its result.  `qsort` is modelled by an
  insertion sort, and `qsort_result` says what any implementation has to
  return; the theorems about the sorted order cover every such result.
* The file system is a pair of functions, `readdir` and `lstat`.
* A local buffer (`row`, `tmp`, `owner`, ...) is represented by the string it
  holds; `snprintf` and `strncat` cut what they write to the size of the buffer.
* `getopt_long` is represented by the values it returns, each with its
  `optarg`, and by the arguments left at `optind`; `main` gives the exit status
  and the bytes written to `stdout`.
-/

namespace Lsx

/-! ## C strings -/

/-- The C string stored at `s`: the bytes in front of the first NUL. -/
def cstr : List Nat → List Nat
  | [] => []
  | b :: rest => if b = 0 then [] else b :: cstr rest

/-- `strlen`. -/
def strlen (s : List Nat) : Nat := (cstr s).length

/-- `fputs(s, stdout)` and `printf("%s", s)`: the bytes of the C string. -/
def fputs (s : List Nat) : List Nat := cstr s

/-! ## The locale: `mbrtowc` and `wcwidth` -/

/-- What `mbrtowc` returns: `(size_t)-2`, `(size_t)-1`, or the number `n` of
bytes that make up the wide character `wc` (`n = 0` for the NUL). -/
inductive MbResult
  | incomplete
  | invalid
  | ok (wc : Nat) (n : Nat)
deriving DecidableEq, Repr

/-- A UTF-8 continuation byte. -/
def is_cont (b : Nat) : Bool := 0x80 ≤ b && b ≤ 0xBF

/-- `mbrtowc(&wc, s, MB_CUR_MAX, &st)` from the initial state in a UTF-8
locale.  A sequence cut short by the terminating NUL is invalid (the NUL is
not a continuation byte), so `(size_t)-2` does not occur. -/
def utf8_mbrtowc : List Nat → MbResult
  | [] => .ok 0 0
  | b0 :: rest =>
    if b0 = 0 then .ok 0 0
    else if b0 < 0x80 then .ok b0 1
    else if 0xC2 ≤ b0 ∧ b0 ≤ 0xDF then
      match rest with
      | b1 :: _ =>
        if is_cont b1 then .ok ((b0 - 0xC0) * 64 + (b1 - 0x80)) 2 else .invalid
      | [] => .invalid
    else if 0xE0 ≤ b0 ∧ b0 ≤ 0xEF then
      match rest with
      | b1 :: b2 :: _ =>
        if is_cont b1 ∧ is_cont b2 ∧ (b0 = 0xE0 → 0xA0 ≤ b1) ∧ (b0 = 0xED → b1 ≤ 0x9F) then
          .ok ((b0 - 0xE0) * 4096 + (b1 - 0x80) * 64 + (b2 - 0x80)) 3
        else .invalid
      | _ => .invalid
    else if 0xF0 ≤ b0 ∧ b0 ≤ 0xF4 then
      match rest with
      | b1 :: b2 :: b3 :: _ =>
        if is_cont b1 ∧ is_cont b2 ∧ is_cont b3 ∧ (b0 = 0xF0 → 0x90 ≤ b1)
            ∧ (b0 = 0xF4 → b1 ≤ 0x8F) then
          .ok ((b0 - 0xF0) * 262144 + (b1 - 0x80) * 4096 + (b2 - 0x80) * 64 + (b3 - 0x80)) 4
        else .invalid
      | _ => .invalid
    else .invalid

/-- `mbrtowc` in the single-byte C/POSIX locale: the ASCII bytes are
characters, the others are rejected. -/
def posix_mbrtowc : List Nat → MbResult
  | [] => .ok 0 0
  | b0 :: _ => if b0 = 0 then .ok 0 0 else if b0 < 0x80 then .ok b0 1 else .invalid

/-- The `LC_CTYPE` locale of the process: whether its codeset is UTF-8, and
its `wcwidth` table. -/
structure Locale where
  utf8 : Bool
  wcwidth : Nat → Int

/-- The `mbrtowc` of a locale. -/
def Locale.mbrtowc (L : Locale) (s : List Nat) : MbResult :=
  if L.utf8 then utf8_mbrtowc s else posix_mbrtowc s

/-- A coarse `wcwidth` table: 0 for NUL and the combining diacritics, -1 for
the control characters, 2 for the East Asian wide blocks, 1 otherwise. -/
def wcwidth_model (c : Nat) : Int :=
  if c = 0 then 0
  else if c < 0x20 ∨ (0x7F ≤ c ∧ c < 0xA0) then -1
  else if 0x300 ≤ c ∧ c ≤ 0x36F then 0
  else if (0x1100 ≤ c ∧ c ≤ 0x115F) ∨ (0x2E80 ≤ c ∧ c ≤ 0xA4CF) ∨ (0xAC00 ≤ c ∧ c ≤ 0xD7A3)
      ∨ (0xF900 ≤ c ∧ c ≤ 0xFAFF) ∨ (0xFE30 ≤ c ∧ c ≤ 0xFE6F) ∨ (0xFF00 ≤ c ∧ c ≤ 0xFF60)
      ∨ (0xFFE0 ≤ c ∧ c ≤ 0xFFE6) then 2
  else 1

/-- A UTF-8 locale with the coarse width table. -/
def utf8_locale : Locale := { utf8 := true, wcwidth := wcwidth_model }

/-- The C/POSIX locale with the coarse width table. -/
def posix_locale : Locale := { utf8 := false, wcwidth := wcwidth_model }

/-- Printable ASCII and the box-drawing block take one column each. -/
def Locale.single_width (L : Locale) : Prop :=
  (∀ c, 0x20 ≤ c → c ≤ 0x7E → L.wcwidth c = 1) ∧
  (∀ c, 0x2500 ≤ c → c ≤ 0x257F → L.wcwidth c = 1)

/-! ## `visible_len_ansi` -/

/-- A CSI final byte, `'@'` to `'~'`. -/
def is_final (b : Nat) : Bool := 0x40 ≤ b && b ≤ 0x7E

/-- The inner loop of the escape branch,
`while (s[i] && !(s[i] >= '@' && s[i] <= '~')) i++; if (s[i]) i++;`:
what is left to scan after the escape sequence. -/
def skip_csi : List Nat → List Nat
  | [] => []
  | b :: rest =>
    if b = 0 then b :: rest
    else if is_final b then rest
    else skip_csi rest

/-- One iteration of the `while (s[i])` loop of `visible_len_ansi` on the
bytes from `s + i` on: `none` when the loop ends (NUL reached, or `mbrtowc`
returned 0), else what is left to scan and the columns added. -/
def scan_step (L : Locale) (s : List Nat) : Option (List Nat × Int) :=
  match s with
  | [] => none
  | b :: rest =>
    if b = 0 then none
    else if b = 0x1B ∧ rest.head? = some 0x5B then some (skip_csi rest.tail, 0)
    else
      match L.mbrtowc s with
      | .incomplete => some (rest, 1)
      | .invalid => some (rest, 1)
      | .ok wc n =>
        if n = 0 then none
        else some (s.drop n, if L.wcwidth wc < 0 then 1 else L.wcwidth wc)

/-- The `while (s[i])` loop of `visible_len_ansi`, at most `fuel` iterations. -/
def visible_len_loop (L : Locale) : Nat → List Nat → Int → Int
  | 0, _, cols => cols
  | fuel + 1, s, cols =>
    match scan_step L s with
    | none => cols
    | some (rest, w) => visible_len_loop L fuel rest (cols + w)

/-- The loop run from `cols` columns to the end of `s`.  Every iteration
consumes a byte, so `s.length` iterations reach the NUL
(`visible_len_loop_fuel`). -/
def visible_len_from (L : Locale) (s : List Nat) (cols : Int) : Int :=
  visible_len_loop L s.length s cols

/-- `visible_len_ansi(s)`. -/
def visible_len_ansi (L : Locale) (s : List Nat) : Int :=
  visible_len_from L s 0

/-- Some byte of `s` is a CSI final byte. -/
def has_final (s : List Nat) : Bool := s.any is_final

/-- Every `ESC '['` in `s` is followed, later in `s`, by a CSI final byte. -/
def csi_closed : List Nat → Bool
  | [] => true
  | b :: rest =>
    (!(b = 0x1B && rest.head? = some 0x5B) || has_final rest.tail) && csi_closed rest

/-- No escape sequence of the C string `s` is left without its final byte:
every `ESC '['` of the string is followed, later in the string, by a byte in
`'@'`..`'~'`. -/
def csi_terminated (s : List Nat) : Bool := csi_closed (cstr s)

/-- The C string `G` is measured as one column wherever it stands. -/
def one_column (L : Locale) (G : List Nat) : Prop :=
  ∀ (rest : List Nat) (c : Int),
    visible_len_from L (fputs G ++ rest) c = visible_len_from L rest (c + 1)

/-! ## Colours and glyphs -/

/-- `COLOR_RESET`, `"\033[0m"`. -/
def COLOR_RESET : List Nat := [0x1B, 0x5B, 0x30, 0x6D]
/-- `COLOR_WHITE`, `"\033[97m"`. -/
def COLOR_WHITE : List Nat := [0x1B, 0x5B, 0x39, 0x37, 0x6D]
/-- `COLOR_BOLD`, `"\033[1m"`. -/
def COLOR_BOLD : List Nat := [0x1B, 0x5B, 0x31, 0x6D]
/-- `COLOR_BG_CYAN`, `"\033[46;30m"`. -/
def COLOR_BG_CYAN : List Nat := [0x1B, 0x5B, 0x34, 0x36, 0x3B, 0x33, 0x30, 0x6D]

/-- The eight border glyphs `GLYPH_H` .. `GLYPH_RJ`. -/
structure Glyphs where
  H : List Nat
  V : List Nat
  TL : List Nat
  TR : List Nat
  BL : List Nat
  BR : List Nat
  LJ : List Nat
  RJ : List Nat

/-- The `U8_*` glyphs, the initial value of the table. -/
def U8 : Glyphs :=
  { H := [0xE2, 0x94, 0x80], V := [0xE2, 0x94, 0x82],
    TL := [0xE2, 0x94, 0x8C], TR := [0xE2, 0x94, 0x90],
    BL := [0xE2, 0x94, 0x94], BR := [0xE2, 0x94, 0x98],
    LJ := [0xE2, 0x94, 0x9C], RJ := [0xE2, 0x94, 0xA4] }

/-- The `A_*` glyphs: `-`, `|` and `+`. -/
def ASCII : Glyphs :=
  { H := [0x2D], V := [0x7C], TL := [0x2B], TR := [0x2B],
    BL := [0x2B], BR := [0x2B], LJ := [0x2B], RJ := [0x2B] }

/-- `strstr(hay, needle) != NULL` on the bytes of two C strings. -/
def strstr_found (needle : List Nat) : List Nat → Bool
  | [] => needle.isPrefixOf []
  | b :: rest => needle.isPrefixOf (b :: rest) || strstr_found needle rest

/-- `strstr(lc, "UTF-8") != NULL`. -/
def names_utf8 (lc : List Nat) : Bool :=
  strstr_found [0x55, 0x54, 0x46, 0x2D, 0x38] (cstr lc)

/-- The value `init_glyphs` leaves in `g_use_utf8`, from the name of the
`LC_CTYPE` locale (`setlocale(LC_CTYPE, NULL)`) and `getenv("LSX_ASCII")`. -/
def init_glyphs (lc : Option (List Nat)) (force : Option (List Nat)) : Bool :=
  let g_use_utf8 := true
  let g_use_utf8 :=
    match force with
    | some f => if cstr f ≠ [] then false else g_use_utf8
    | none => g_use_utf8
  match lc with
  | none => false
  | some name => if names_utf8 name then g_use_utf8 else false

/-- The glyph table after `init_glyphs`. -/
def glyphs (g_use_utf8 : Bool) : Glyphs := if g_use_utf8 then U8 else ASCII

/-! ## Box rendering -/

/-- `for (int i = 0; i < n; i++) fputs(s, stdout);` run `n` times. -/
def repeat_out (s : List Nat) : Nat → List Nat
  | 0 => []
  | n + 1 => fputs s ++ repeat_out s n

/-- `print_repeat(s, n)`. -/
def print_repeat (s : List Nat) (n : Int) : List Nat := repeat_out s n.toNat

/-- `for (int i = 0; i < padding; i++) putchar(' ');`. -/
def put_spaces (padding : Int) : List Nat := List.replicate padding.toNat 0x20

/-- `print_row_prefix()`: the left border and one space. -/
def print_row_prefix (g : Glyphs) : List Nat :=
  fputs COLOR_WHITE ++ fputs g.V ++ fputs COLOR_RESET ++ [0x20]

/-- `print_row_content(width, content)`. -/
def print_row_content (L : Locale) (g : Glyphs) (width : Int) (content : List Nat) :
    List Nat :=
  let inner := width - 2
  let inner := if inner < 1 then 1 else inner
  let vis := visible_len_ansi L content
  let padding := inner - (1 + vis)
  let padding := if padding < 0 then 0 else padding
  ( print_row_prefix g) ++ fputs content ++ put_spaces padding
    ++ (fputs COLOR_WHITE ++ fputs g.V ++ fputs COLOR_RESET ++ [0x0A])

/-- `print_border_top(width)`. -/
def print_border_top (g : Glyphs) (width : Int) : List Nat :=
  (fputs COLOR_WHITE ++ fputs g.TL) ++ print_repeat g.H (width - 2)
    ++ (fputs g.TR ++ fputs COLOR_RESET ++ [0x0A])

/-- `print_border_mid(width)`. -/
def print_border_mid (g : Glyphs) (width : Int) : List Nat :=
  (fputs COLOR_WHITE ++ fputs g.LJ) ++ print_repeat g.H (width - 2)
    ++ (fputs g.RJ ++ fputs COLOR_RESET ++ [0x0A])

/-- `print_border_bottom(width)`. -/
def print_border_bottom (g : Glyphs) (width : Int) : List Nat :=
  (fputs COLOR_WHITE ++ fputs g.BL) ++ print_repeat g.H (width - 2)
    ++ (fputs g.BR ++ fputs COLOR_RESET ++ [0x0A])

/-- `print_row_suffix(width, used_visible_cols)`. -/
def print_row_suffix (g : Glyphs) (width : Int) (used_visible_cols : Int) : List Nat :=
  let inner := width - 2
  let padding := inner - used_visible_cols
  let padding := if padding < 0 then 0 else padding
  put_spaces padding ++ (fputs COLOR_WHITE ++ fputs g.V ++ fputs COLOR_RESET ++ [0x0A])

/-- The title row of `draw_header`: the two `printf` calls and
`print_row_suffix(width, title_visible)`. -/
def draw_header_title (g : Glyphs) (cwd : List Nat) (width : Int) : List Nat :=
  let title_visible : Int := 1 + (strlen [0x6C, 0x73, 0x78, 0x20] : Int) + (strlen cwd : Int)
  (fputs COLOR_WHITE ++ fputs g.V ++ fputs COLOR_RESET ++ [0x20])
    ++ (fputs COLOR_BG_CYAN ++ fputs COLOR_BOLD ++ [0x6C, 0x73, 0x78] ++ fputs COLOR_RESET
        ++ [0x20] ++ fputs cwd)
    ++ print_row_suffix g width title_visible

/-- `draw_header(list, width)`, with `cwd` standing for `list->cwd`. -/
def draw_header (g : Glyphs) (cwd : List Nat) (width : Int) : List Nat :=
  print_border_top g width ++ draw_header_title g cwd width ++ print_border_mid g width

/-! ## Options, entries and snapshots -/

/-- The `Options` struct; the flags are 0 or 1 in the program. -/
structure Options where
  show_hidden : Bool := false
  long_format : Bool := false
  human_readable : Bool := false
  omit_group : Bool := false
  add_slash : Bool := false
  show_inode : Bool := false
  recursive : Bool := false
  reverse : Bool := false
  sort_by_ext : Bool := false
  sort_by_time : Bool := false
  numeric_ids : Bool := false
  comma_separated : Bool := false
  quote_names : Bool := false
  pattern : Option (List Nat) := none
  depth : Int := 0

/-- The `FileItem` struct. -/
structure FileItem where
  name : List Nat
  full_path : List Nat
  mode : Nat
  size : Int
  mtime : Int
  uid : Nat
  gid : Nat
  inode : Nat
  is_dir : Bool
  is_hidden : Bool
deriving DecidableEq, Repr

/-- The `FileList` struct; `count` is the length of `items`. -/
structure FileList where
  items : List FileItem
  cwd : List Nat

/-! ## Sorting -/

/-- Byte-wise lexicographic comparison, as -1, 0 or 1. -/
def bytes_cmp : List Nat → List Nat → Int
  | [], [] => 0
  | [], _ :: _ => -1
  | _ :: _, [] => 1
  | a :: as, b :: bs => if a < b then -1 else if b < a then 1 else bytes_cmp as bs

/-- `strcmp(a, b)`, up to the magnitude of a non-zero result. -/
def strcmp (a b : List Nat) : Int := bytes_cmp (cstr a) (cstr b)

/-- The last occurrence of `c` in the bytes `s`: what starts there. -/
def strrchr_bytes (c : Nat) : List Nat → Option (List Nat)
  | [] => none
  | b :: rest =>
    match strrchr_bytes c rest with
    | some r => some r
    | none => if b = c then some (b :: rest) else none

/-- `strrchr(s, c)` for a `c` other than NUL: `none` is `NULL`. -/
def strrchr (s : List Nat) (c : Nat) : Option (List Nat) := strrchr_bytes c (cstr s)

/-- `compare_by_name`. -/
def compare_by_name (o : Options) (fa fb : FileItem) : Int :=
  let cmp := strcmp fa.name fb.name
  if o.reverse then -cmp else cmp

/-- The `ext_a` of `compare_by_ext`: `strrchr(name, '.')`, and `""` for `NULL`. -/
def ext_of (name : List Nat) : List Nat :=
  match strrchr name 0x2E with
  | some e => e
  | none => []

/-- `compare_by_ext`. -/
def compare_by_ext (o : Options) (fa fb : FileItem) : Int :=
  let ext_a := ext_of fa.name
  let ext_b := ext_of fb.name
  let cmp := strcmp ext_a ext_b
  let cmp := if cmp = 0 then strcmp fa.name fb.name else cmp
  if o.reverse then -cmp else cmp

/-- `compare_by_time`. -/
def compare_by_time (o : Options) (fa fb : FileItem) : Int :=
  if fa.mtime < fb.mtime then (if o.reverse then -1 else 1)
  else if fa.mtime > fb.mtime then (if o.reverse then 1 else -1)
  else 0

/-- What `qsort` asks of its result: the same elements, each one before those
the comparison does not put in front of it. -/
def qsort_result (cmp : FileItem → FileItem → Int) (input out : List FileItem) : Prop :=
  out.Perm input ∧ out.Pairwise (fun a b => cmp a b ≤ 0)

/-- `qsort(items, count, sizeof(FileItem), cmp)`.  The C library leaves the
algorithm open; the model is an insertion sort. -/
def qsort (cmp : FileItem → FileItem → Int) (items : List FileItem) : List FileItem :=
  items.insertionSort (fun a b => cmp a b ≤ 0)

/-- The comparison function `sort_list` hands to `qsort`. -/
def active_compare (o : Options) : FileItem → FileItem → Int :=
  if o.sort_by_time then compare_by_time o
  else if o.sort_by_ext then compare_by_ext o
  else compare_by_name o

/-- `sort_list`. -/
def sort_list (o : Options) (list : FileList) : FileList :=
  if o.sort_by_time then { list with items := qsort (compare_by_time o) list.items }
  else if o.sort_by_ext then { list with items := qsort (compare_by_ext o) list.items }
  else { list with items := qsort (compare_by_name o) list.items }

/-- The extension as the specification words it: what follows the last `.` of
the name, and the empty string when the name has no `.`. -/
def spec_ext (name : List Nat) : List Nat :=
  match strrchr name 0x2E with
  | some e => e.tail
  | none => []

/-- An entry with the given name and modification time, everything else zero. -/
def plain_file (name : List Nat) (mtime : Int) : FileItem :=
  { name := name, full_path := name, mode := 0, size := 0, mtime := mtime, uid := 0, gid := 0,
    inode := 0, is_dir := false, is_hidden := false }

/-- The order of the pairs (extension, name) under `strcmp`, with the
extension `compare_by_ext` takes: `a` is not after `b`. -/
def ext_name_le (a b : FileItem) : Prop :=
  strcmp (ext_of a.name) (ext_of b.name) < 0
    ∨ (strcmp (ext_of a.name) (ext_of b.name) = 0 ∧ strcmp a.name b.name ≤ 0)

/-- The order of the pairs (extension, name) with the extension as the
specification words it (`spec_ext`): `a` is not after `b`. -/
def spec_ext_name_le (a b : FileItem) : Prop :=
  strcmp (spec_ext a.name) (spec_ext b.name) < 0
    ∨ (strcmp (spec_ext a.name) (spec_ext b.name) = 0 ∧ strcmp a.name b.name ≤ 0)

instance spec_ext_name_le_decidable : DecidableRel spec_ext_name_le := fun a b => by
  unfold spec_ext_name_le
  infer_instance

instance ext_name_le_decidable : DecidableRel ext_name_le := fun a b => by
  unfold ext_name_le
  infer_instance

/-! ## The file system and `load_directory` -/

/-- `MAX_PATH`. -/
def MAX_PATH : Nat := 4096
/-- `MAX_ITEMS`. -/
def MAX_ITEMS : Nat := 2048

/-- The fields of `struct stat` the program reads. -/
structure Stat where
  st_mode : Nat
  st_size : Int
  st_mtime : Int
  st_uid : Nat
  st_gid : Nat
  st_ino : Nat

/-- The file system as the program sees it: `readdir` gives the `d_name`s of
a directory that `opendir` can open, in the order they are returned (`none`
when `opendir` fails), and `lstat` the metadata of a path (`none` when it
fails).  Nothing is asked of it: it need not be a finite tree. -/
structure FileSystem where
  readdir : List Nat → Option (List (List Nat))
  lstat : List Nat → Option Stat

/-- `S_ISDIR(mode)`. -/
def S_ISDIR (mode : Nat) : Bool := mode &&& 0xF000 = 0x4000

/-- `matches_pattern(name, pattern)`. -/
def matches_pattern (name : List Nat) (pattern : Option (List Nat)) : Bool :=
  match pattern with
  | none => true
  | some pat =>
    if (cstr pat).head? = some 0x2A ∧ (cstr pat).tail.head? = some 0x2E then
      match strrchr name 0x2E with
      | some ext => strcmp ext (cstr pat).tail = 0
      | none => false
    else true

/-- The `FileItem` that one pass of the loop of `load_directory` fills in for
the entry `d_name`, or `none` when the pass ends in `continue`. -/
def load_item (fs : FileSystem) (o : Options) (path d_name : List Nat) : Option FileItem :=
  if !o.show_hidden && (cstr d_name).head? = some 0x2E then none
  else if !matches_pattern d_name o.pattern then none
  else
    let full := cstr path ++ 0x2F :: cstr d_name
    if full.length ≥ MAX_PATH then none
    else
      let hidden : Bool := (cstr d_name).head? = some 0x2E
      match fs.lstat full with
      | some st =>
        some { name := (cstr d_name).take 255, full_path := full, mode := st.st_mode,
               size := st.st_size, mtime := st.st_mtime, uid := st.st_uid, gid := st.st_gid,
               inode := st.st_ino, is_dir := S_ISDIR st.st_mode, is_hidden := hidden }
      | none =>
        some { name := (cstr d_name).take 255, full_path := full, mode := 0, size := 0,
               mtime := 0, uid := 0, gid := 0, inode := 0, is_dir := false,
               is_hidden := hidden }

/-- The `while ((entry = readdir(dir)) != NULL && list->count < MAX_ITEMS)`
loop of `load_directory`, from `count` items on: the items it adds. -/
def load_entries (fs : FileSystem) (o : Options) (path : List Nat) :
    List (List Nat) → Nat → List FileItem
  | [], _ => []
  | d_name :: rest, count =>
    if count ≥ MAX_ITEMS then []
    else
      match load_item fs o path d_name with
      | none => load_entries fs o path rest count
      | some item => item :: load_entries fs o path rest (count + 1)

/-- `load_directory(list, path)`: `none` for the return value -1. -/
def load_directory (fs : FileSystem) (o : Options) (path : List Nat) : Option FileList :=
  match fs.readdir path with
  | none => none
  | some entries =>
    some { items := load_entries fs o path entries 0, cwd := (cstr path).take (MAX_PATH - 1) }

/-! ## Inline expansion -/

/-- One row emitted by `emit_directory_children_inline`: the nesting level and
the `is_last` flag its indentation is made from, and the entry shown. -/
structure Row where
  level : Int
  is_last : Bool
  child : FileItem
deriving DecidableEq, Repr

/-- The `for (int i = 0; i < list->count; i++)` loop of
`emit_directory_children_inline` from index `i` on, over the items from there
on; `recurse` is the recursive call at `level + 1`.  The result is `none`
when a recursive call has not returned. -/
def emit_loop (recurse : List Nat → Option (List Row)) (level : Int) (count : Nat) :
    Nat → List FileItem → Option (List Row)
  | _, [] => some []
  | i, child :: rest =>
    if strcmp child.name [0x2E] = 0 ∨ strcmp child.name [0x2E, 0x2E] = 0 then
      emit_loop recurse level count (i + 1) rest
    else
      let is_last : Bool := (i : Int) = (count : Int) - 1
      match (if child.is_dir then recurse child.full_path else some []) with
      | none => none
      | some below =>
        match emit_loop recurse level count (i + 1) rest with
        | none => none
        | some after => some ({ level := level, is_last := is_last, child := child }
            :: (below ++ after))

/-- `emit_directory_children_inline(dir_path, level, width)` with at most
`fuel` nested calls: the rows emitted, in order, or `none` when the nesting
would go beyond `fuel`.  (`calloc` is taken to succeed.) -/
def emit_fuel (fs : FileSystem) (o : Options) : Nat → List Nat → Int → Option (List Row)
  | 0, _, _ => none
  | fuel + 1, dir_path, level =>
    if o.depth ≤ 0 then some []
    else if level > o.depth then some []
    else
      match load_directory fs o dir_path with
      | none => some []
      | some list =>
        let list := sort_list o list
        emit_loop (fun p => emit_fuel fs o fuel p (level + 1)) level list.items.length 0
          list.items

/-- `emit_directory_children_inline(dir_path, level, width)`: the calls nest
from `level` to `opts.depth + 1` at most. -/
def emit_directory_children_inline (fs : FileSystem) (o : Options) (dir_path : List Nat)
    (level : Int) : Option (List Row) :=
  emit_fuel fs o ((o.depth + 1 - level).toNat + 1) dir_path level

/-- A file system with one directory, `d`, that holds `.`, `..`, itself again
as `d` (a loop), and the regular file `f`. -/
def loop_fs : FileSystem :=
  { readdir := fun p =>
      if p.getLast? = some 0x64 then some [[0x2E], [0x2E, 0x2E], [0x64], [0x66]] else none,
    lstat := fun p =>
      if p.getLast? = some 0x64 ∨ p.getLast? = some 0x2E then
        some { st_mode := 0x41ED, st_size := 0, st_mtime := 0, st_uid := 0, st_gid := 0,
               st_ino := 1 }
      else
        some { st_mode := 0x81A4, st_size := 0, st_mtime := 0, st_uid := 0, st_gid := 0,
               st_ino := 2 } }

/-! ## Indentation of the inline rows -/

/-- The `seg` of `make_indent_prefix`: two spaces in either glyph set. -/
def indent_seg (g_use_utf8 : Bool) : List Nat :=
  if g_use_utf8 then [0x20, 0x20] else [0x20, 0x20]

/-- The `branch` of `make_indent_prefix`: two spaces, the closing branch
(`is_last`) or the continuing one, a horizontal stroke and a space; box-drawing
characters in the UTF-8 set, a backquote or a bar and a minus sign in the ASCII
set. -/
def indent_branch (g_use_utf8 : Bool) (is_last : Bool) : List Nat :=
  if g_use_utf8 then
    (if is_last then [0x20, 0x20, 0xE2, 0x94, 0x94, 0xE2, 0x94, 0x80, 0x20]
     else [0x20, 0x20, 0xE2, 0x94, 0x9C, 0xE2, 0x94, 0x80, 0x20])
  else
    (if is_last then [0x20, 0x20, 0x60, 0x2D, 0x20] else [0x20, 0x20, 0x7C, 0x2D, 0x20])

/-- The `for (int i = 0; i < level - 1; i++)` loop of `make_indent_prefix`
with `n` iterations to go: `used` and the string in `out` when it ends. -/
def indent_fill (g_use_utf8 : Bool) (outsz : Nat) : Nat → Nat → List Nat → Nat × List Nat
  | 0, used, out => (used, out)
  | n + 1, used, out =>
    let seg := indent_seg g_use_utf8
    let seglen := strlen seg
    if used + seglen + 1 ≥ outsz then (used, out)
    else indent_fill g_use_utf8 outsz n (used + seglen) (out.take used ++ cstr seg)

/-- `make_indent_prefix(out, outsz, level, is_last)`: the string left in `out`. -/
def make_indent_prefix (g_use_utf8 : Bool) (outsz : Nat) (level : Int) (is_last : Bool) :
    List Nat :=
  if level ≤ 0 then []
  else
    let filled := indent_fill g_use_utf8 outsz (level - 1).toNat 0 []
    let used := filled.1
    let out := filled.2
    let branch := indent_branch g_use_utf8 is_last
    let blen := strlen branch
    if used + blen + 1 < outsz then out.take used ++ cstr branch else out

/-- A file system with one directory, `d`, that holds `.`, `..` and the
regular file `a`. -/
def dots_fs : FileSystem :=
  { readdir := fun p =>
      if p = [0x64] then some [[0x2E], [0x2E, 0x2E], [0x61]] else none,
    lstat := fun p =>
      if p.getLast? = some 0x61 then
        some { st_mode := 0x81A4, st_size := 0, st_mtime := 0, st_uid := 0, st_gid := 0,
               st_ino := 2 }
      else
        some { st_mode := 0x41ED, st_size := 0, st_mtime := 0, st_uid := 0, st_gid := 0,
               st_ino := 1 } }

/-! ## Formatting -/

/-- `COLOR_CYAN`, `"\033[36m"`. -/
def COLOR_CYAN : List Nat := [0x1B, 0x5B, 0x33, 0x36, 0x6D]
/-- `COLOR_GREEN`, `"\033[32m"`. -/
def COLOR_GREEN : List Nat := [0x1B, 0x5B, 0x33, 0x32, 0x6D]
/-- `COLOR_YELLOW`, `"\033[33m"`. -/
def COLOR_YELLOW : List Nat := [0x1B, 0x5B, 0x33, 0x33, 0x6D]
/-- `COLOR_MAGENTA`, `"\033[35m"`. -/
def COLOR_MAGENTA : List Nat := [0x1B, 0x5B, 0x33, 0x35, 0x6D]
/-- `COLOR_RED`, `"\033[31m"`. -/
def COLOR_RED : List Nat := [0x1B, 0x5B, 0x33, 0x31, 0x6D]
/-- `COLOR_GRAY`, `"\033[37m"`. -/
def COLOR_GRAY : List Nat := [0x1B, 0x5B, 0x33, 0x37, 0x6D]
/-- `COLOR_DIM`, `"\033[2m"`. -/
def COLOR_DIM : List Nat := [0x1B, 0x5B, 0x32, 0x6D]

/-- What `snprintf(buf, size, ...)` leaves in `buf` when the formatted text
is `text`: at most `size - 1` bytes of it.  A local buffer is represented by
the string it holds. -/
def snprintf (size : Nat) (text : List Nat) : List Nat := text.take (size - 1)

/-- `strncat(dst, src, n)` on the strings two local buffers hold. -/
def strncat (dst src : List Nat) (n : Nat) : List Nat := dst ++ src.take n

/-- `strncat(row, tmp, sizeof(row) - strlen(row) - 1)` for the `char row[8192]`
of the two row formatters. -/
def row_cat (row tmp : List Nat) : List Nat := strncat row tmp (8192 - row.length - 1)

/-- `snprintf(row + strlen(row), sizeof(row) - strlen(row), ...)` with the
formatted text `text`. -/
def row_printf (row text : List Nat) : List Nat := row ++ snprintf (8192 - row.length) text

/-- The digits of `n` in front of `acc`, most significant first; `fuel` bounds
the number of digits. -/
def dec_loop : Nat → Nat → List Nat → List Nat
  | 0, _, acc => acc
  | fuel + 1, n, acc =>
    if n < 10 then (0x30 + n) :: acc
    else dec_loop fuel (n / 10) ((0x30 + n % 10) :: acc)

/-- `%u` and `%llu`: the decimal digits of `n`. -/
def fmt_u (n : Nat) : List Nat := dec_loop (n + 1) n []

/-- `%d` and `%lld`. -/
def fmt_d (n : Int) : List Nat := if n < 0 then 0x2D :: fmt_u n.natAbs else fmt_u n.toNat

/-- `%-Ns` and `%-Nu`: left-justified in a field of at least `w` bytes. -/
def pad_right (w : Nat) (s : List Nat) : List Nat := s ++ List.replicate (w - s.length) 0x20

/-- `%Ns`: right-justified in a field of at least `w` bytes. -/
def pad_left (w : Nat) (s : List Nat) : List Nat := List.replicate (w - s.length) 0x20 ++ s

/-- `%.1f` of the quotient `num / den`: the integer digits, the decimal point
`dp` of the `LC_NUMERIC` locale (`main` calls `setlocale(LC_ALL, "")`, so it
need not be `.` and may take several bytes), and one decimal, rounded to
nearest, a tie to the even digit.  This is what `printf` prints for the
`double` computed by the program as long as `num < 2^53` and `den` is a power
of two, when the conversion and the division are exact. -/
def fmt_f1 (dp : List Nat) (num den : Nat) : List Nat :=
  let t := num * 10 / den
  let r := num * 10 % den
  let t := if 2 * r > den then t + 1 else if 2 * r = den ∧ t % 2 = 1 then t + 1 else t
  fmt_u (t / 10) ++ cstr dp ++ [0x30 + t % 10]

/-- `format_size(size, str, len)`: the string left in `str`; `dp` is the
decimal point of the locale. -/
def format_size (o : Options) (dp : List Nat) (size : Int) (len : Nat) : List Nat :=
  if o.human_readable then
    if size < 1024 then snprintf len (fmt_d size ++ [0x42])
    else if size < 1024 * 1024 then snprintf len (fmt_f1 dp size.toNat 1024 ++ [0x4B])
    else if size < 1024 * 1024 * 1024 then
      snprintf len (fmt_f1 dp size.toNat (1024 * 1024) ++ [0x4D])
    else snprintf len (fmt_f1 dp size.toNat (1024 * 1024 * 1024) ++ [0x47])
  else snprintf len (fmt_d size)

/-- What the row formatters take from the system besides the file system: the
locale (`LC_CTYPE`), the decimal point of the `LC_NUMERIC` locale
(`localeconv()->decimal_point`), the password and group databases, the clock,
and the text `strftime(str, len, "%b %d %H:%M", localtime(&t))` leaves in `str`
(`none` when `localtime` returns `NULL`). -/
structure Env where
  locale : Locale
  decimal_point : List Nat
  getpwuid : Nat → Option (List Nat)
  getgrgid : Nat → Option (List Nat)
  now : Int
  strftime : Int → Option (List Nat)

/-- `format_time(t, str, len)`: the string left in `str`. -/
def format_time (env : Env) (t : Int) (len : Nat) : List Nat :=
  match env.strftime t with
  | none => snprintf len [0x3F, 0x3F, 0x3F, 0x20, 0x3F, 0x3F, 0x20, 0x3F, 0x3F, 0x3A, 0x3F, 0x3F]
  | some text => (cstr text).take (len - 1)

/-- `S_ISLNK(mode)`. -/
def S_ISLNK (mode : Nat) : Bool := mode &&& 0xF000 = 0xA000

/-- `S_IXUSR`. -/
def S_IXUSR : Nat := 0x40

/-- The `icon` and `name_col` both row formatters choose for an entry. -/
def icon_and_color (item : FileItem) : Nat × List Nat :=
  if item.is_dir then (0x44, COLOR_CYAN ++ COLOR_BOLD)
  else if S_ISLNK item.mode then (0x40, COLOR_MAGENTA ++ COLOR_BOLD)
  else if item.mode &&& S_IXUSR ≠ 0 then (0x2A, COLOR_GREEN ++ COLOR_BOLD)
  else if item.is_hidden then (0x2E, COLOR_DIM ++ COLOR_MAGENTA)
  else (0x2D, COLOR_RESET)

/-- The start of both row formatters: `row[0] = '\0'` and, for a non-empty
`prefix`, the dimmed prefix. -/
def row_start (pfx : List Nat) : List Nat :=
  if cstr pfx ≠ [] then row_printf [] (COLOR_DIM ++ COLOR_GRAY ++ cstr pfx ++ COLOR_RESET)
  else []

/-- The string `print_item_simple_line` builds in `row`. -/
def simple_row (o : Options) (item : FileItem) (pfx : List Nat) : List Nat :=
  let icon := (icon_and_color item).1
  let name_col := (icon_and_color item).2
  let row := row_start pfx
  let row := row_printf row (COLOR_WHITE ++ [icon] ++ COLOR_RESET ++ [0x20])
  let row :=
    if o.quote_names then
      row_printf row (name_col ++ [0x22] ++ cstr item.name ++ [0x22] ++ COLOR_RESET)
    else row_printf row (name_col ++ cstr item.name ++ COLOR_RESET)
  if o.add_slash ∧ item.is_dir then
    row_printf row (COLOR_DIM ++ COLOR_GRAY ++ [0x2F] ++ COLOR_RESET)
  else row

/-- `print_item_simple_line(item, width, prefix, _)`. -/
def print_item_simple_line (L : Locale) (g : Glyphs) (o : Options) (item : FileItem)
    (width : Int) (pfx : List Nat) : List Nat :=
  print_row_content L g width (simple_row o item pfx)

/-- The permission bits `bits[0..8]`. -/
def perm_bits : List Nat := [0x100, 0x80, 0x40, 0x20, 0x10, 0x8, 0x4, 0x2, 0x1]

/-- The `one` of pass `i` of the permission loop of `print_item_long_line`:
the coloured letter of `bits[i]`. -/
def perm_one (mode : Nat) (i : Nat) : List Nat :=
  let ch : Nat :=
    if mode &&& perm_bits.getD i 0 ≠ 0 then
      (if i % 3 = 0 then 0x72 else if i % 3 = 1 then 0x77 else 0x78)
    else 0x2D
  let c : List Nat :=
    if ch = 0x72 then COLOR_GREEN
    else if ch = 0x77 then COLOR_YELLOW
    else if ch = 0x78 then COLOR_RED ++ COLOR_BOLD
    else COLOR_DIM ++ COLOR_GRAY
  snprintf 32 (c ++ [ch] ++ COLOR_RESET)

/-- The `perm` of `print_item_long_line`: the coloured type letter. -/
def perm_type (mode : Nat) : List Nat :=
  let t : Nat := if S_ISDIR mode then 0x64 else if S_ISLNK mode then 0x6C else 0x2D
  let tcol : List Nat :=
    if S_ISDIR mode then COLOR_CYAN ++ COLOR_BOLD
    else if S_ISLNK mode then COLOR_MAGENTA ++ COLOR_BOLD
    else COLOR_DIM ++ COLOR_GRAY
  snprintf 128 (tcol ++ [t] ++ COLOR_RESET)

/-- The `owner` buffer (`char owner[9]`) of `print_item_long_line`. -/
def owner_text (env : Env) (uid : Nat) : List Nat :=
  match env.getpwuid uid with
  | some pw_name => snprintf 9 ((cstr pw_name).take 8)
  | none => snprintf 9 (fmt_u uid)

/-- The `group` buffer (`char group[9]`) of `print_item_long_line`. -/
def group_text (env : Env) (gid : Nat) : List Nat :=
  match env.getgrgid gid with
  | some gr_name => snprintf 9 ((cstr gr_name).take 8)
  | none => snprintf 9 (fmt_u gid)

/-- The `size_str` and `size_col` of `print_item_long_line`. -/
def size_text_and_color (env : Env) (o : Options) (item : FileItem) :
    List Nat × List Nat :=
  if item.is_dir then (snprintf 32 [0x3C, 0x44, 0x49, 0x52, 0x3E], COLOR_CYAN ++ COLOR_BOLD)
  else
    (format_size o env.decimal_point item.size 32,
      if item.size ≥ 1024 * 1024 * 1024 then COLOR_RED ++ COLOR_BOLD
      else if item.size ≥ 1024 * 1024 * 50 then COLOR_YELLOW ++ COLOR_BOLD
      else COLOR_GREEN)

/-- The string in `row` when `print_item_long_line` reaches its
`icon + name` block: prefix, inode, permissions, owner, group, size and time. -/
def long_row_fields (env : Env) (o : Options) (item : FileItem) (pfx : List Nat) : List Nat :=
  let row := row_start pfx
  let row :=
    if o.show_inode then
      row_cat row (snprintf 64 (COLOR_MAGENTA ++ pad_right 8 (fmt_u item.inode)
        ++ COLOR_RESET ++ [0x20]))
    else row
  let row := row_cat row (perm_type item.mode)
  let row := (List.range 9).foldl (fun r i => row_cat r (perm_one item.mode i)) row
  let row := row_cat row [0x20]
  let row :=
    if o.numeric_ids then
      let row := row_cat row (snprintf 128 (COLOR_CYAN ++ pad_right 8 (fmt_u item.uid)
        ++ COLOR_RESET ++ [0x20]))
      if !o.omit_group then
        row_cat row (snprintf 128 (COLOR_CYAN ++ pad_right 8 (fmt_u item.gid)
          ++ COLOR_RESET ++ [0x20]))
      else row
    else
      let row := row_cat row (snprintf 128 (COLOR_CYAN ++ pad_right 8 (owner_text env item.uid)
        ++ COLOR_RESET ++ [0x20]))
      if !o.omit_group then
        row_cat row (snprintf 128 (COLOR_CYAN ++ pad_right 8 (group_text env item.gid)
          ++ COLOR_RESET ++ [0x20]))
      else row
  let row := row_cat row (snprintf 128 ((size_text_and_color env o item).2
    ++ pad_left 10 (size_text_and_color env o item).1 ++ COLOR_RESET ++ [0x20, 0x20]))
  let tcol : List Nat :=
    if env.now - item.mtime < 60 * 60 * 24 * 2 then COLOR_GREEN ++ COLOR_BOLD
    else COLOR_DIM ++ COLOR_GRAY
  row_cat row (snprintf 128 (tcol ++ pad_right 12 (format_time env item.mtime 32)
    ++ COLOR_RESET ++ [0x20, 0x20]))

/-- The string `print_item_long_line` builds in `row`: the fields and the
`icon + name` block. -/
def long_row (env : Env) (o : Options) (item : FileItem) (pfx : List Nat) : List Nat :=
  let row := long_row_fields env o item pfx
  let icon := (icon_and_color item).1
  let name_col := (icon_and_color item).2
  let row := row_cat row (snprintf 512 (COLOR_WHITE ++ [icon] ++ COLOR_RESET ++ [0x20]
    ++ name_col ++ (if o.quote_names then [0x22] else []) ++ cstr item.name))
  let row := if o.quote_names then row_cat row [0x22] else row
  if o.add_slash ∧ item.is_dir then
    row_cat (row_cat row (COLOR_DIM ++ COLOR_GRAY ++ [0x2F])) COLOR_RESET
  else row_cat row COLOR_RESET

/-- `print_item_long_line(item, width, prefix, _)`. -/
def print_item_long_line (env : Env) (g : Glyphs) (o : Options) (item : FileItem)
    (width : Int) (pfx : List Nat) : List Nat :=
  print_row_content env.locale g width (long_row env o item pfx)

/-- What `draw_long_header_row` prints between the left border and the
`NAME` cell, and the value of `used` there. -/
def long_header_fields (o : Options) : List Nat × Int :=
  let yb := COLOR_YELLOW ++ COLOR_BOLD
  let out : List Nat := []
  let used : Int := 1
  let (out, used) :=
    if o.show_inode then
      (out ++ yb ++ pad_right 8 [0x49, 0x4E, 0x4F, 0x44, 0x45] ++ COLOR_RESET ++ [0x20], used + 9)
    else (out, used)
  let (out, used) :=
    (out ++ yb ++ pad_right 10 [0x50, 0x45, 0x52, 0x4D, 0x53] ++ COLOR_RESET ++ [0x20], used + 11)
  let (out, used) :=
    if o.numeric_ids then
      let (out, used) :=
        (out ++ yb ++ pad_right 8 [0x55, 0x49, 0x44] ++ COLOR_RESET ++ [0x20], used + 9)
      if !o.omit_group then
        (out ++ yb ++ pad_right 8 [0x47, 0x49, 0x44] ++ COLOR_RESET ++ [0x20], used + 9)
      else (out, used)
    else
      let (out, used) :=
        (out ++ yb ++ pad_right 8 [0x4F, 0x57, 0x4E, 0x45, 0x52] ++ COLOR_RESET ++ [0x20],
          used + 9)
      if !o.omit_group then
        (out ++ yb ++ pad_right 8 [0x47, 0x52, 0x4F, 0x55, 0x50] ++ COLOR_RESET ++ [0x20],
          used + 9)
      else (out, used)
  (out ++ yb ++ pad_left 10 [0x53, 0x49, 0x5A, 0x45] ++ COLOR_RESET ++ [0x20, 0x20]
    ++ yb ++ pad_right 12 [0x4D, 0x4F, 0x44, 0x49, 0x46, 0x49, 0x45, 0x44] ++ COLOR_RESET
    ++ [0x20, 0x20], used)

/-- `draw_long_header_row(width)`. -/
def draw_long_header_row (g : Glyphs) (o : Options) (width : Int) : List Nat :=
  let fields := long_header_fields o
  let used := fields.2 + (10 + 2 + 12 + 2 + 4)
  ( print_row_prefix g) ++ fields.1
    ++ (COLOR_YELLOW ++ COLOR_BOLD ++ [0x4E, 0x41, 0x4D, 0x45] ++ COLOR_RESET)
    ++ print_row_suffix g width used ++ print_border_mid g width

/-- An environment for the examples: a UTF-8 locale with the decimal point
`.`, user 0 is `root`, no other user or group is known, the clock reads 1000000
and every time prints as `Jan 01 00:00`. -/
def example_env : Env :=
  { locale := utf8_locale,
    decimal_point := [0x2E],
    getpwuid := fun uid => if uid = 0 then some [0x72, 0x6F, 0x6F, 0x74] else none,
    getgrgid := fun _ => none,
    now := 1000000,
    strftime := fun _ =>
      some [0x4A, 0x61, 0x6E, 0x20, 0x30, 0x31, 0x20, 0x30, 0x30, 0x3A, 0x30, 0x30] }

/-- The string `piece` adds `w` columns to the count wherever it stands. -/
def adds_columns (L : Locale) (piece : List Nat) (w : Int) : Prop :=
  ∀ (rest : List Nat) (c : Int),
    visible_len_from L (piece ++ rest) c = visible_len_from L rest (c + w)

/-- The strings `print_item_long_line` appends to `row` with `strncat` up to
its `icon + name` block, in order. -/
def long_field_pieces (env : Env) (o : Options) (item : FileItem) : List (List Nat) :=
  (if o.show_inode then
      [snprintf 64 (COLOR_MAGENTA ++ pad_right 8 (fmt_u item.inode) ++ COLOR_RESET ++ [0x20])]
    else [])
  ++ [perm_type item.mode]
  ++ (List.range 9).map (perm_one item.mode)
  ++ [[0x20]]
  ++ (if o.numeric_ids then
        [snprintf 128 (COLOR_CYAN ++ pad_right 8 (fmt_u item.uid) ++ COLOR_RESET ++ [0x20])]
        ++ (if !o.omit_group then
              [snprintf 128 (COLOR_CYAN ++ pad_right 8 (fmt_u item.gid) ++ COLOR_RESET
                ++ [0x20])]
            else [])
      else
        [snprintf 128 (COLOR_CYAN ++ pad_right 8 (owner_text env item.uid) ++ COLOR_RESET
          ++ [0x20])]
        ++ (if !o.omit_group then
              [snprintf 128 (COLOR_CYAN ++ pad_right 8 (group_text env item.gid) ++ COLOR_RESET
                ++ [0x20])]
            else []))
  ++ [snprintf 128 ((size_text_and_color env o item).2
        ++ pad_left 10 (size_text_and_color env o item).1 ++ COLOR_RESET ++ [0x20, 0x20])]
  ++ [snprintf 128 ((if env.now - item.mtime < 60 * 60 * 24 * 2 then COLOR_GREEN ++ COLOR_BOLD
          else COLOR_DIM ++ COLOR_GRAY)
        ++ pad_right 12 (format_time env item.mtime 32) ++ COLOR_RESET ++ [0x20, 0x20])]

/-- A byte of printable ASCII. -/
def printable (b : Nat) : Prop := 0x20 ≤ b ∧ b ≤ 0x7E

/-- The fields of the entry fit their columns: an inode (when shown) and
numeric ids (with `-n`) of at most 8 digits, owner and group names whose first
8 bytes are printable ASCII, a size of at most 10 digits (with `-h`: a size
below 2^53 and a decimal point of the locale that is at most one byte of
printable ASCII), and a time text of at most 12 bytes of printable ASCII. -/
def fields_fit (env : Env) (o : Options) (item : FileItem) : Prop :=
  (o.show_inode = true → item.inode < 10 ^ 8)
  ∧ (o.numeric_ids = true → item.uid < 10 ^ 8 ∧ (o.omit_group = false → item.gid < 10 ^ 8))
  ∧ (o.numeric_ids = false →
      (∀ pw_name, env.getpwuid item.uid = some pw_name →
        ∀ b ∈ (cstr pw_name).take 8, printable b)
      ∧ (o.omit_group = false → ∀ gr_name, env.getgrgid item.gid = some gr_name →
        ∀ b ∈ (cstr gr_name).take 8, printable b))
  ∧ (item.is_dir = false →
      0 ≤ item.size
      ∧ (if o.human_readable then
          item.size < 2 ^ 53 ∧ (cstr env.decimal_point).length ≤ 1
            ∧ ∀ b ∈ cstr env.decimal_point, printable b
        else item.size < 10 ^ 10))
  ∧ (∀ text, env.strftime item.mtime = some text →
      (cstr text).length ≤ 12 ∧ ∀ b ∈ cstr text, printable b)

/-- The width of the long-format fields in front of the `icon + name` block:
inode (9, when shown), permissions (11), owner (9), group (9, unless omitted),
size (12) and time (14). -/
def long_fields_width (o : Options) : Int :=
  (if o.show_inode then 9 else 0) + 11 + 9 + (if o.omit_group then 0 else 9) + 12 + 14

/-! ## The whole run -/

/-- `isspace` in the C locale. -/
def isspace (b : Nat) : Bool := b = 0x20 || (0x09 ≤ b && b ≤ 0x0D)

/-- The leading blanks of a string removed. -/
def skip_space : List Nat → List Nat
  | [] => []
  | b :: rest => if isspace b then skip_space rest else b :: rest

/-- The value of the leading decimal digits of a string, on top of `acc`. -/
def parse_digits : List Nat → Nat → Nat
  | [], acc => acc
  | b :: rest, acc =>
    if 0x30 ≤ b ∧ b ≤ 0x39 then parse_digits rest (10 * acc + (b - 0x30)) else acc

/-- `LONG_MAX` of a 64-bit `long`. -/
def LONG_MAX : Int := 9223372036854775807
/-- `LONG_MIN` of a 64-bit `long`. -/
def LONG_MIN : Int := -9223372036854775808

/-- The conversion `(int)v` of a `long` to the 32-bit `int`: the low 32 bits,
in two's complement. -/
def to_int (v : Int) : Int := (v + 2147483648) % 4294967296 - 2147483648

/-- `strtol(s, &end, 10)`: blanks, an optional sign, digits; `none` when no
digit is read (`end == s`).  A value outside the range of `long` comes back
as `LONG_MIN` or `LONG_MAX`. -/
def strtol (s : List Nat) : Option Int :=
  match skip_space (cstr s) with
  | [] => none
  | b :: rest =>
    let body := if b = 0x2D ∨ b = 0x2B then rest else b :: rest
    match body with
    | [] => none
    | d :: _ =>
      if 0x30 ≤ d ∧ d ≤ 0x39 then
        let v : Int := if b = 0x2D then -(parse_digits body 0 : Int) else (parse_digits body 0 : Int)
        some (if v < LONG_MIN then LONG_MIN else if v > LONG_MAX then LONG_MAX else v)
      else none

/-- `atoi(s)`, that is `(int) strtol(s, NULL, 10)`: the number `strtol` reads
(0 when it reads none), converted to `int`. -/
def atoi (s : List Nat) : Int :=
  match strtol s with
  | some v => to_int v
  | none => to_int 0

/-- `clamp_int`. -/
def clamp_int (v lo hi : Int) : Int :=
  if v < lo then lo else if v > hi then hi else v

/-- The system a run sees: the row formatters' environment, the file system,
the name of the `LC_CTYPE` locale, the variables `LSX_ASCII` and `COLUMNS`,
what `getcwd` returns, the value of `term_width_from_fd` for the descriptors 0,
1 and 2, and for `/dev/tty` when it can be opened. -/
structure Sys where
  env : Env
  fs : FileSystem
  lc_ctype : Option (List Nat)
  lsx_ascii : Option (List Nat)
  columns : Option (List Nat)
  getcwd : Option (List Nat)
  term_width_from_fd : Nat → Int
  dev_tty : Option Int

/-- `get_term_width()`.  The value of `COLUMNS` is tested as the `long` that
`strtol` returns and then converted to `int` for `clamp_int`. -/
def get_term_width (sys : Sys) : Int :=
  let w := sys.term_width_from_fd 1
  if w ≠ 0 then clamp_int w 20 1000
  else
    let from_env : Option Int :=
      match sys.columns with
      | some cols =>
        if cstr cols ≠ [] then
          match strtol cols with
          | some v => if v > 0 then some v else none
          | none => none
        else none
      | none => none
    match from_env with
    | some v => clamp_int (to_int v) 20 1000
    | none =>
      let w := sys.term_width_from_fd 0
      if w ≠ 0 then clamp_int w 20 1000
      else
        let w := sys.term_width_from_fd 2
        if w ≠ 0 then clamp_int w 20 1000
        else
          match sys.dev_tty with
          | some w => if w ≠ 0 then clamp_int w 20 1000 else 80
          | none => 80

/-- `load_single_file(list, path)`: `none` for the return value -1. -/
def load_single_file (fs : FileSystem) (path : List Nat) : Option FileList :=
  match fs.lstat (cstr path) with
  | none => none
  | some st =>
    let base : List Nat :=
      match strrchr path 0x2F with
      | some at_slash => at_slash.tail
      | none => cstr path
    some
      { items :=
          [{ name := snprintf 256 base, full_path := snprintf MAX_PATH (cstr path),
             mode := st.st_mode, size := st.st_size, mtime := st.st_mtime, uid := st.st_uid,
             gid := st.st_gid, inode := st.st_ino, is_dir := S_ISDIR st.st_mode,
             is_hidden := base.head? = some 0x2E }],
        cwd := snprintf MAX_PATH (cstr path) }

/-- The comma mode of `draw_single_box_listing`: the loop over the items from
index `i` on. -/
def comma_items (o : Options) (count : Nat) : Nat → List FileItem → List Nat
  | _, [] => []
  | i, item :: rest =>
    let color : List Nat :=
      if item.is_dir then COLOR_CYAN
      else if item.mode &&& S_IXUSR ≠ 0 then COLOR_GREEN
      else if S_ISLNK item.mode then COLOR_MAGENTA
      else COLOR_RESET
    color
      ++ (if o.quote_names then [0x22] ++ cstr item.name ++ [0x22] else cstr item.name)
      ++ COLOR_RESET
      ++ (if (i : Int) < (count : Int) - 1 then [0x2C, 0x20] else [])
      ++ comma_items o count (i + 1) rest

/-- What one row of the trace of `emit_directory_children_inline` prints: the
row formatter of the active format, with the prefix of the row's level. -/
def render_row (env : Env) (g_use_utf8 : Bool) (o : Options) (width : Int) (r : Row) :
    List Nat :=
  let pfx := make_indent_prefix g_use_utf8 256 r.level r.is_last
  if o.long_format then print_item_long_line env (glyphs g_use_utf8) o r.child width pfx
  else print_item_simple_line env.locale (glyphs g_use_utf8) o r.child width pfx

/-- What `emit_directory_children_inline(dir_path, level, width)` prints: its
rows, rendered in order.  (The rows are always there: the nesting never
exceeds the fuel, see the theorems on inline expansion.) -/
def emit_output (sys : Sys) (g_use_utf8 : Bool) (o : Options) (width : Int)
    (dir_path : List Nat) (level : Int) : List Nat :=
  match emit_directory_children_inline sys.fs o dir_path level with
  | some rows => (rows.map (render_row sys.env g_use_utf8 o width)).flatten
  | none => []

/-- The loops over the top-level items of `draw_single_box_listing`: the row
of each item and, below a directory, its inline children. -/
def top_rows (sys : Sys) (g_use_utf8 : Bool) (o : Options) (width : Int) :
    List FileItem → List Nat
  | [] => []
  | item :: rest =>
    (if o.long_format then print_item_long_line sys.env (glyphs g_use_utf8) o item width []
     else print_item_simple_line sys.env.locale (glyphs g_use_utf8) o item width [])
    ++ (if o.depth > 0 ∧ item.is_dir = true ∧ strcmp item.name [0x2E] ≠ 0
          ∧ strcmp item.name [0x2E, 0x2E] ≠ 0 then
          emit_output sys g_use_utf8 o width item.full_path 1
        else [])
    ++ top_rows sys g_use_utf8 o width rest

/-- `draw_single_box_listing(target_path)`: what it prints.  (`calloc` is
taken to succeed.) -/
def draw_single_box_listing (sys : Sys) (g_use_utf8 : Bool) (o : Options)
    (target_path : List Nat) : List Nat :=
  let width := get_term_width sys
  let loaded : Option FileList :=
    match load_directory sys.fs o target_path with
    | some list => some list
    | none => load_single_file sys.fs target_path
  match loaded with
  | none => []
  | some list =>
    let list := sort_list o list
    let g := glyphs g_use_utf8
    if o.comma_separated then comma_items o list.items.length 0 list.items ++ [0x0A]
    else
      draw_header g list.cwd width
        ++ (if o.long_format then draw_long_header_row g o width else [])
        ++ top_rows sys g_use_utf8 o width list.items
        ++ print_border_bottom g width
        ++ (COLOR_DIM ++ COLOR_GRAY ++ [0x20, 0x20] ++ fmt_d list.items.length
            ++ [0x20, 0x69, 0x74, 0x65, 0x6D, 0x73, 0x20, 0x74, 0x6F, 0x74, 0x61, 0x6C]
            ++ COLOR_RESET ++ [0x0A])

/-- The `switch (opt)` of `main` for one value `getopt_long` returns, with its
`optarg`: the options after it, or `none` for `return 1`. -/
def apply_option (o : Options) (opt : Nat) (optarg : List Nat) : Option Options :=
  if opt = 0x61 then some { o with show_hidden := true }
  else if opt = 0x6C then some { o with long_format := true }
  else if opt = 0x68 then some { o with human_readable := true }
  else if opt = 0x67 then some { o with omit_group := true }
  else if opt = 0x46 then some { o with add_slash := true }
  else if opt = 0x69 then some { o with show_inode := true }
  else if opt = 0x52 then some { o with recursive := true }
  else if opt = 0x72 then some { o with reverse := true }
  else if opt = 0x58 then some { o with sort_by_ext := true }
  else if opt = 0x74 then some { o with sort_by_time := true }
  else if opt = 0x6E then some { o with numeric_ids := true }
  else if opt = 0x6D then some { o with comma_separated := true }
  else if opt = 0x51 then some { o with quote_names := true }
  else if opt = 0x44 then
    let d := atoi optarg
    if d < 0 then none else some { o with depth := d }
  else none

/-- The `while ((opt = getopt_long(...)) != -1)` loop of `main` over the
values `getopt_long` returns, each with its `optarg`: the options set, or
`none` when the loop ends in `return 1`. -/
def parse_options : Options → List (Nat × List Nat) → Option Options
  | o, [] => some o
  | o, (opt, optarg) :: rest =>
    match apply_option o opt optarg with
    | none => none
    | some o2 => parse_options o2 rest

/-- `main`: the exit status and what is written to `stdout`, from the values
`getopt_long` returns and the arguments left at `optind`.  The messages on
`stderr` are left out. -/
def main (sys : Sys) (opts : List (Nat × List Nat)) (positional : List (List Nat)) :
    Int × List Nat :=
  let g_use_utf8 := init_glyphs sys.lc_ctype sys.lsx_ascii
  match parse_options {} opts with
  | none => (1, [])
  | some o =>
    let o := if o.recursive ∧ o.depth = 0 then { o with depth := 999 } else o
    match positional with
    | target :: _ =>
      if 0x2A ∈ cstr target then
        (0, draw_single_box_listing sys g_use_utf8 { o with pattern := some (cstr target) }
          [0x2E])
      else (0, draw_single_box_listing sys g_use_utf8 o target)
    | [] =>
      match sys.getcwd with
      | none => (1, [])
      | some cwd => (0, draw_single_box_listing sys g_use_utf8 o (snprintf MAX_PATH (cstr cwd)))

/-- A system for the examples: the environment `example_env`, the file system
`dots_fs` (one directory, `d`; every other path can be `lstat`-ed but not
opened), an 80-column terminal on `stdout`, and the locale name `C.UTF-8`. -/
def example_sys : Sys :=
  { env := example_env, fs := dots_fs,
    lc_ctype := some [0x43, 0x2E, 0x55, 0x54, 0x46, 0x2D, 0x38],
    lsx_ascii := none, columns := none, getcwd := some [0x64],
    term_width_from_fd := fun fd => if fd = 1 then 80 else 0, dev_tty := none }

/-- The system `example_sys` with a file system in which nothing can be
opened or `lstat`-ed. -/
def empty_sys : Sys :=
  { example_sys with fs := { readdir := fun _ => none, lstat := fun _ => none } }

/-! ## Theorems -/

/-! ### Facts about the scan -/

theorem cstr_no_nul (s : List Nat) : 0 ∉ cstr s := by
  induction s with
  | nil => simp [cstr]
  | cons b rest ih =>
    unfold cstr
    split
    · simp
    · intro h
      rcases List.mem_cons.mp h with h | h
      · omega
      · exact ih h

theorem cstr_of_no_nul (s : List Nat) (h : 0 ∉ s) : cstr s = s := by
  induction s with
  | nil => rfl
  | cons b rest ih =>
    have hb : b ≠ 0 := fun e => h (by simp [e])
    have hr : 0 ∉ rest := fun e => h (List.mem_cons_of_mem _ e)
    simp [cstr, hb, ih hr]

theorem cstr_split (s : List Nat) : s = cstr s ∨ ∃ junk, s = cstr s ++ 0 :: junk := by
  induction s with
  | nil => left; rfl
  | cons b rest ih =>
    by_cases hb : b = 0
    · right; exact ⟨rest, by simp [cstr, hb]⟩
    · rcases ih with h | ⟨junk, h⟩
      · left; simp only [cstr, hb, if_false]; rw [← h]
      · right; refine ⟨junk, ?_⟩; simp only [cstr, hb, if_false, List.cons_append]; rw [← h]

theorem skip_csi_length (s : List Nat) : (skip_csi s).length ≤ s.length := by
  induction s with
  | nil => simp [skip_csi]
  | cons b rest ih =>
    unfold skip_csi
    split
    · simp
    · split
      · simp
      · simp; omega

theorem utf8_mbrtowc_ok_le (s : List Nat) (wc n : Nat) (h : utf8_mbrtowc s = .ok wc n) :
    n ≤ s.length := by
  rcases s with _ | ⟨b0, _ | ⟨b1, _ | ⟨b2, _ | ⟨b3, r⟩⟩⟩⟩ <;>
    simp only [utf8_mbrtowc] at h <;>
    (try split_ifs at h) <;>
    (try simp only [MbResult.ok.injEq, reduceCtorEq] at h) <;>
    simp only [List.length_cons, List.length_nil] <;>
    omega

theorem posix_mbrtowc_ok_le (s : List Nat) (wc n : Nat) (h : posix_mbrtowc s = .ok wc n) :
    n ≤ s.length := by
  unfold posix_mbrtowc at h
  split at h
  · cases h; simp
  · split_ifs at h
    · cases h; simp
    · cases h; simp

theorem mbrtowc_ok_le (L : Locale) (s : List Nat) (wc n : Nat) (h : L.mbrtowc s = .ok wc n) :
    n ≤ s.length := by
  unfold Locale.mbrtowc at h
  split at h
  · exact utf8_mbrtowc_ok_le s wc n h
  · exact posix_mbrtowc_ok_le s wc n h

/-- Every iteration of the scan consumes at least one byte. -/
theorem scan_step_length (L : Locale) (s rest : List Nat) (w : Int)
    (h : scan_step L s = some (rest, w)) : rest.length < s.length := by
  unfold scan_step at h
  split at h
  · cases h
  · rename_i b tl
    split_ifs at h with h0 hesc
    · cases h
      have := skip_csi_length tl.tail
      have : tl.tail.length ≤ tl.length := by simp
      simp; omega
    · split at h
      · cases h; simp
      · cases h; simp
      · rename_i wc n hmb
        have hle := mbrtowc_ok_le L _ wc n hmb
        split_ifs at h with hn
        all_goals
          cases h
          simp only [List.length_drop, List.length_cons] at hle ⊢
          omega

/-- Fuel beyond the length of the string does not change the result: the
loop has reached the NUL by then. -/
theorem visible_len_loop_fuel (L : Locale) :
    ∀ (f : Nat) (s : List Nat) (c : Int), s.length ≤ f →
      visible_len_loop L f s c = visible_len_loop L s.length s c := by
  intro f
  induction f using Nat.strong_induction_on with
  | _ f ih =>
    intro s c hlen
    cases f with
    | zero =>
      have : s.length = 0 := by omega
      rw [this]
    | succ f =>
      cases hs : s.length with
      | zero =>
        have : s = [] := List.length_eq_zero.mp hs
        subst this
        simp [visible_len_loop, scan_step]
      | succ m =>
        simp only [visible_len_loop]
        cases hstep : scan_step L s with
        | none => rfl
        | some p =>
          obtain ⟨rest, w⟩ := p
          have hr := scan_step_length L s rest w hstep
          simp only
          rw [ih f (Nat.lt_succ_self f) rest (c + w) (by omega),
            ih m (by omega) rest (c + w) (by omega)]

/-- The loop, unfolded by one iteration. -/
theorem visible_len_loop_step (L : Locale) (s : List Nat) (c : Int) :
    visible_len_loop L s.length s c =
      match scan_step L s with
      | none => c
      | some (rest, w) => visible_len_loop L rest.length rest (c + w) := by
  cases hs : s.length with
  | zero =>
    have : s = [] := List.length_eq_zero.mp hs
    subst this
    simp [visible_len_loop, scan_step]
  | succ m =>
    simp only [visible_len_loop]
    cases hstep : scan_step L s with
    | none => rfl
    | some p =>
      obtain ⟨rest, w⟩ := p
      have hr := scan_step_length L s rest w hstep
      simp only
      exact visible_len_loop_fuel L m rest (c + w) (by omega)

/-- The column count is accumulated on top of the starting value. -/
theorem visible_len_loop_acc (L : Locale) :
    ∀ (f : Nat) (s : List Nat) (c : Int),
      visible_len_loop L f s c = c + visible_len_loop L f s 0 := by
  intro f
  induction f with
  | zero => intro s c; simp [visible_len_loop]
  | succ f ih =>
    intro s c
    simp only [visible_len_loop]
    cases hstep : scan_step L s with
    | none => simp
    | some p =>
      obtain ⟨rest, w⟩ := p
      simp only
      rw [ih rest (c + w), ih rest (0 + w)]
      ring

theorem utf8_mbrtowc_append (a t : List Nat) (ha : a ≠ [])
    (ht : ∀ b ∈ t.head?, b < 0x80) : utf8_mbrtowc (a ++ t) = utf8_mbrtowc a := by
  rcases a with _ | ⟨b0, _ | ⟨b1, _ | ⟨b2, _ | ⟨b3, r⟩⟩⟩⟩
  · exact absurd rfl ha
  all_goals
    rcases t with _ | ⟨c0, _ | ⟨c1, _ | ⟨c2, u⟩⟩⟩
    · simp
    all_goals
      have hc0 : c0 < 0x80 := ht c0 (by simp)
      have hnc : is_cont c0 = false := by
        simp only [is_cont, Bool.and_eq_false_imp, decide_eq_true_eq, decide_eq_false_iff_not]
        omega
      simp [utf8_mbrtowc, hnc]

theorem posix_mbrtowc_append (a t : List Nat) (ha : a ≠ []) :
    posix_mbrtowc (a ++ t) = posix_mbrtowc a := by
  rcases a with _ | ⟨b0, r⟩
  · exact absurd rfl ha
  · simp [posix_mbrtowc]

/-- What `mbrtowc` returns at a byte of a string does not change when the
string is followed by an ASCII byte. -/
theorem mbrtowc_append (L : Locale) (a t : List Nat) (ha : a ≠ [])
    (ht : ∀ b ∈ t.head?, b < 0x80) : L.mbrtowc (a ++ t) = L.mbrtowc a := by
  unfold Locale.mbrtowc
  split
  · exact utf8_mbrtowc_append a t ha ht
  · exact posix_mbrtowc_append a t ha

theorem mbrtowc_ok_pos (L : Locale) (b : Nat) (rest : List Nat) (wc n : Nat) (hb : b ≠ 0)
    (h : L.mbrtowc (b :: rest) = .ok wc n) : n ≠ 0 := by
  unfold Locale.mbrtowc at h
  split at h
  · rcases rest with _ | ⟨b1, _ | ⟨b2, _ | ⟨b3, r⟩⟩⟩ <;>
      simp only [utf8_mbrtowc] at h <;>
      (try split_ifs at h) <;>
      (try simp only [MbResult.ok.injEq, reduceCtorEq] at h) <;>
      omega
  · simp only [posix_mbrtowc] at h
    split_ifs at h <;>
      (try simp only [MbResult.ok.injEq, reduceCtorEq] at h) <;>
      omega

theorem csi_closed_tail (b : Nat) (rest : List Nat) (h : csi_closed (b :: rest) = true) :
    csi_closed rest = true := by
  simp only [csi_closed, Bool.and_eq_true] at h
  exact h.2

theorem csi_closed_drop (n : Nat) : ∀ (a : List Nat), csi_closed a = true →
    csi_closed (a.drop n) = true := by
  induction n with
  | zero => intro a h; simpa using h
  | succ n ih =>
    intro a h
    cases a with
    | nil => simp [csi_closed]
    | cons b rest => simpa using ih rest (csi_closed_tail b rest h)

theorem csi_closed_skip : ∀ (a : List Nat), csi_closed a = true →
    csi_closed (skip_csi a) = true := by
  intro a
  induction a with
  | nil => intro h; simpa [skip_csi] using h
  | cons b rest ih =>
    intro h
    unfold skip_csi
    split_ifs
    · exact h
    · exact csi_closed_tail b rest h
    · exact ih (csi_closed_tail b rest h)

theorem skip_csi_no_nul : ∀ (a : List Nat), 0 ∉ a → 0 ∉ skip_csi a := by
  intro a
  induction a with
  | nil => intro h; simp [skip_csi]
  | cons b rest ih =>
    intro h
    have hr : 0 ∉ rest := fun e => h (List.mem_cons_of_mem _ e)
    unfold skip_csi
    split_ifs
    · exact h
    · exact hr
    · exact ih hr

/-- An escape sequence that has its final byte ends at the same place
whatever follows the string. -/
theorem skip_csi_append (t : List Nat) : ∀ (a : List Nat), 0 ∉ a → has_final a = true →
    skip_csi (a ++ t) = skip_csi a ++ t := by
  intro a
  induction a with
  | nil => intro _ h; simp [has_final] at h
  | cons b rest ih =>
    intro h0 hf
    have hb : b ≠ 0 := fun e => h0 (by simp [e])
    have hr : 0 ∉ rest := fun e => h0 (List.mem_cons_of_mem _ e)
    simp only [List.cons_append, skip_csi, hb, if_false]
    by_cases hfb : is_final b = true
    · simp [hfb]
    · simp only [hfb, if_false]
      apply ih hr
      simp only [has_final, List.any_cons, Bool.or_eq_true] at hf
      rcases hf with hf | hf
      · exact absurd hf hfb
      · simpa [has_final] using hf

/-- One iteration of the scan inside a string with no NUL and no
unterminated escape sequence is not affected by what follows the string, as
long as that starts with an ASCII byte other than `'['`. -/
theorem scan_step_append (L : Locale) (a t : List Nat) (ha : a ≠ []) (h0 : 0 ∉ a)
    (hc : csi_closed a = true) (ht : ∀ b ∈ t.head?, b < 0x80 ∧ b ≠ 0x5B) :
    ∃ r w, scan_step L a = some (r, w) ∧ scan_step L (a ++ t) = some (r ++ t, w) ∧
      0 ∉ r ∧ csi_closed r = true := by
  rcases a with _ | ⟨b, rest⟩
  · exact absurd rfl ha
  have hb : b ≠ 0 := fun e => h0 (by simp [e])
  have hr : 0 ∉ rest := fun e => h0 (List.mem_cons_of_mem _ e)
  by_cases hesc : b = 0x1B ∧ rest.head? = some 0x5B
  · obtain ⟨hb1, hhead⟩ := hesc
    rcases rest with _ | ⟨b1, rest2⟩
    · simp at hhead
    simp only [List.head?_cons, Option.some.injEq] at hhead
    subst hb1 hhead
    have hr2 : 0 ∉ rest2 := fun e => hr (List.mem_cons_of_mem _ e)
    have hfin : has_final rest2 = true := by
      simp only [csi_closed, Bool.and_eq_true] at hc
      simpa using hc.1
    refine ⟨skip_csi rest2, 0, ?_, ?_, skip_csi_no_nul rest2 hr2, ?_⟩
    · simp [scan_step]
    · simp [scan_step, skip_csi_append t rest2 hr2 hfin]
    · exact csi_closed_skip rest2 (csi_closed_tail _ _ (csi_closed_tail _ _ hc))
  · have hesc2 : ¬ (b = 0x1B ∧ (rest ++ t).head? = some 0x5B) := by
      rintro ⟨hb1, hh⟩
      rcases rest with _ | ⟨b1, rest2⟩
      · simp only [List.nil_append] at hh
        exact (ht 0x5B (by simp [hh])).2 rfl
      · exact hesc ⟨hb1, by simpa using hh⟩
    have hloc : L.mbrtowc (b :: rest ++ t) = L.mbrtowc (b :: rest) :=
      mbrtowc_append L (b :: rest) t (by simp) (fun x hx => (ht x hx).1)
    have hstepa : scan_step L (b :: rest ++ t) =
        match L.mbrtowc (b :: rest) with
        | .incomplete => some (rest ++ t, 1)
        | .invalid => some (rest ++ t, 1)
        | .ok wc n =>
          if n = 0 then none
          else some ((b :: rest ++ t).drop n, if L.wcwidth wc < 0 then 1 else L.wcwidth wc) := by
      rw [← hloc]
      simp only [List.cons_append, scan_step, hb, if_false, hesc2]
    have hstep : scan_step L (b :: rest) =
        match L.mbrtowc (b :: rest) with
        | .incomplete => some (rest, 1)
        | .invalid => some (rest, 1)
        | .ok wc n =>
          if n = 0 then none
          else some ((b :: rest).drop n, if L.wcwidth wc < 0 then 1 else L.wcwidth wc) := by
      simp only [scan_step, hb, if_false, hesc]
    rw [hstepa, hstep]
    cases hmb : L.mbrtowc (b :: rest) with
    | incomplete => exact ⟨rest, 1, rfl, rfl, hr, csi_closed_tail b rest hc⟩
    | invalid => exact ⟨rest, 1, rfl, rfl, hr, csi_closed_tail b rest hc⟩
    | ok wc n =>
      have hn : n ≠ 0 := mbrtowc_ok_pos L b rest wc n hb hmb
      have hle : n ≤ (b :: rest).length := mbrtowc_ok_le L _ wc n hmb
      refine ⟨(b :: rest).drop n, if L.wcwidth wc < 0 then 1 else L.wcwidth wc, ?_, ?_, ?_, ?_⟩
      · simp [hn]
      · simp only [hn, if_false]
        rw [List.drop_append_of_le_length hle]
      · exact fun e => h0 (List.mem_of_mem_drop e)
      · exact csi_closed_drop n _ hc

theorem visible_len_loop_nul (L : Locale) (f : Nat) (junk : List Nat) (c : Int) :
    visible_len_loop L f (0 :: junk) c = c := by
  cases f <;> simp [visible_len_loop, scan_step]

theorem visible_len_loop_nil (L : Locale) (f : Nat) (c : Int) :
    visible_len_loop L f [] c = c := by
  cases f <;> simp [visible_len_loop, scan_step]

/-- The scan of `a ++ t` is the scan of `a` followed by the scan of `t`, when
`a` has no NUL and no unterminated escape sequence and `t` starts with an ASCII
byte other than `'['`. -/
theorem visible_len_loop_append (L : Locale) (t : List Nat)
    (ht : ∀ b ∈ t.head?, b < 0x80 ∧ b ≠ 0x5B) :
    ∀ (n : Nat) (a : List Nat) (c : Int), a.length ≤ n → 0 ∉ a → csi_closed a = true →
      visible_len_loop L (a ++ t).length (a ++ t) c =
        visible_len_loop L t.length t (visible_len_loop L a.length a c) := by
  intro n
  induction n with
  | zero =>
    intro a c hlen _ _
    have : a = [] := List.length_eq_zero.mp (by omega)
    subst this
    simp [visible_len_loop]
  | succ n ih =>
    intro a c hlen h0 hc
    by_cases ha : a = []
    · subst ha
      simp [visible_len_loop]
    · obtain ⟨r, w, h1, h2, hr0, hrc⟩ := scan_step_append L a t ha h0 hc ht
      have hrl := scan_step_length L a r w h1
      rw [visible_len_loop_step L (a ++ t), visible_len_loop_step L a, h1, h2]
      exact ih r (c + w) (by omega) hr0 hrc

theorem visible_len_ansi_append (L : Locale) (a t : List Nat) (h0 : 0 ∉ a)
    (hc : csi_closed a = true) (ht : ∀ b ∈ t.head?, b < 0x80 ∧ b ≠ 0x5B) :
    visible_len_ansi L (a ++ t) = visible_len_ansi L a + visible_len_ansi L t := by
  unfold visible_len_ansi visible_len_from
  rw [visible_len_loop_append L t ht a.length a 0 (le_refl _) h0 hc,
    visible_len_loop_acc L t.length t]

/-- The scan stops at the NUL: a string with no unterminated escape sequence
measures as the bytes in front of its NUL. -/
theorem visible_len_ansi_cstr (L : Locale) (s : List Nat) (h : csi_terminated s = true) :
    visible_len_ansi L (cstr s) = visible_len_ansi L s := by
  rcases cstr_split s with he | ⟨junk, he⟩
  · rw [← he]
  · have := visible_len_ansi_append L (cstr s) (0 :: junk) (cstr_no_nul s) h
      (by intro b hb; simp at hb; subst hb; omega)
    rw [← he] at this
    rw [this]
    simp [visible_len_ansi, visible_len_from, visible_len_loop, scan_step]

theorem visible_len_from_step (L : Locale) (s : List Nat) (c : Int) :
    visible_len_from L s c =
      match scan_step L s with
      | none => c
      | some (rest, w) => visible_len_from L rest (c + w) :=
  visible_len_loop_step L s c

theorem visible_len_from_nil (L : Locale) (c : Int) : visible_len_from L [] c = c := by
  simp [visible_len_from, visible_len_loop]

theorem visible_len_from_acc (L : Locale) (s : List Nat) (c : Int) :
    visible_len_from L s c = c + visible_len_ansi L s :=
  visible_len_loop_acc L s.length s c

theorem visible_len_from_append (L : Locale) (a t : List Nat) (c : Int) (h0 : 0 ∉ a)
    (hc : csi_closed a = true) (ht : ∀ b ∈ t.head?, b < 0x80 ∧ b ≠ 0x5B) :
    visible_len_from L (a ++ t) c = visible_len_from L t (visible_len_from L a c) :=
  visible_len_loop_append L t ht a.length a c (le_refl _) h0 hc

theorem skip_csi_params (params : List Nat) (fin : Nat) (rest : List Nat)
    (hp : ∀ b ∈ params, b ≠ 0 ∧ is_final b = false) (hfin : is_final fin = true) :
    skip_csi (params ++ fin :: rest) = rest := by
  induction params with
  | nil =>
    have : fin ≠ 0 := by
      intro e; subst e; simp [is_final] at hfin
    simp [skip_csi, this, hfin]
  | cons b ps ih =>
    have hb := hp b (by simp)
    simp only [List.cons_append, skip_csi, hb.1, hb.2, if_false, Bool.false_eq_true]
    exact ih (fun x hx => hp x (List.mem_cons_of_mem _ hx))

/-- A complete escape sequence `ESC [ params final` adds no column. -/
theorem visible_len_from_csi (L : Locale) (params : List Nat) (fin : Nat) (rest : List Nat)
    (c : Int) (hp : ∀ b ∈ params, b ≠ 0 ∧ is_final b = false) (hfin : is_final fin = true) :
    visible_len_from L (0x1B :: 0x5B :: (params ++ fin :: rest)) c =
      visible_len_from L rest c := by
  rw [visible_len_from_step]
  simp [scan_step, skip_csi_params params fin rest hp hfin]

theorem visible_len_from_white (L : Locale) (rest : List Nat) (c : Int) :
    visible_len_from L (COLOR_WHITE ++ rest) c = visible_len_from L rest c :=
  visible_len_from_csi L [0x39, 0x37] 0x6D rest c (by decide) (by decide)

theorem visible_len_from_reset (L : Locale) (rest : List Nat) (c : Int) :
    visible_len_from L (COLOR_RESET ++ rest) c = visible_len_from L rest c :=
  visible_len_from_csi L [0x30] 0x6D rest c (by decide) (by decide)

/-- A printable ASCII byte adds one column. -/
theorem visible_len_from_ascii (L : Locale) (hL : L.single_width) (b : Nat) (rest : List Nat)
    (c : Int) (h1 : 0x20 ≤ b) (h2 : b ≤ 0x7E) :
    visible_len_from L (b :: rest) c = visible_len_from L rest (c + 1) := by
  rw [visible_len_from_step]
  have hb0 : b ≠ 0 := by omega
  have hb1 : b ≠ 0x1B := by omega
  have hb2 : b < 0x80 := by omega
  have hmb : L.mbrtowc (b :: rest) = .ok b 1 := by
    unfold Locale.mbrtowc
    split <;> simp [utf8_mbrtowc, posix_mbrtowc, hb0, hb2]
  simp [scan_step, hb0, hb1, hmb, hL.1 b h1 h2]

/-- A box-drawing character `E2 94 xx` adds one column in a UTF-8 locale. -/
theorem visible_len_from_box (L : Locale) (hL : L.single_width) (hu : L.utf8 = true)
    (b2 : Nat) (rest : List Nat) (c : Int) (h1 : 0x80 ≤ b2) (h2 : b2 ≤ 0xBF) :
    visible_len_from L (0xE2 :: 0x94 :: b2 :: rest) c = visible_len_from L rest (c + 1) := by
  rw [visible_len_from_step]
  have hmb : L.mbrtowc (0xE2 :: 0x94 :: b2 :: rest) = .ok (0x2500 + (b2 - 0x80)) 3 := by
    unfold Locale.mbrtowc
    simp only [hu, if_true, utf8_mbrtowc]
    have : is_cont b2 = true := by simp [is_cont, h1, h2]
    simp [is_cont, this]
    omega
  have hw : L.wcwidth (0x2500 + (b2 - 0x80)) = 1 := hL.2 _ (by omega) (by omega)
  simp [scan_step, hmb, hw]

theorem visible_len_from_spaces (L : Locale) (hL : L.single_width) (n : Nat)
    (rest : List Nat) (c : Int) :
    visible_len_from L (List.replicate n 0x20 ++ rest) c = visible_len_from L rest (c + n) := by
  induction n generalizing c with
  | zero => simp
  | succ n ih =>
    rw [List.replicate_succ, List.cons_append,
      visible_len_from_ascii L hL 0x20 _ c (by decide) (by decide), ih]
    push_cast
    ring_nf

theorem fputs_white : fputs COLOR_WHITE = COLOR_WHITE := by decide

theorem fputs_reset : fputs COLOR_RESET = COLOR_RESET := by decide

/-- Each glyph of the table is measured as one column: the box-drawing
characters in a UTF-8 locale, the ASCII ones in every locale. -/
theorem glyph_one_column (L : Locale) (hL : L.single_width) (g_use_utf8 : Bool)
    (hu : g_use_utf8 = true → L.utf8 = true) (G : List Nat)
    (hG : G ∈ [(glyphs g_use_utf8).H, (glyphs g_use_utf8).V, (glyphs g_use_utf8).TL,
      (glyphs g_use_utf8).TR, (glyphs g_use_utf8).BL, (glyphs g_use_utf8).BR,
      (glyphs g_use_utf8).LJ, (glyphs g_use_utf8).RJ]) : one_column L G := by
  intro rest c
  cases g_use_utf8 with
  | false =>
    simp only [glyphs, ASCII, Bool.false_eq_true, if_false, List.mem_cons, List.mem_singleton,
      List.mem_nil_iff, or_false] at hG
    rcases hG with rfl | rfl | rfl | rfl | rfl | rfl | rfl | rfl <;>
      exact visible_len_from_ascii L hL _ rest c (by decide) (by decide)
  | true =>
    have hu1 := hu rfl
    simp only [glyphs, U8, if_true, List.mem_cons, List.mem_singleton,
      List.mem_nil_iff, or_false] at hG
    rcases hG with rfl | rfl | rfl | rfl | rfl | rfl | rfl | rfl <;>
      exact visible_len_from_box L hL hu1 _ rest c (by decide) (by decide)

theorem visible_len_from_repeat (L : Locale) (G : List Nat) (hG : one_column L G) (n : Nat)
    (rest : List Nat) (c : Int) :
    visible_len_from L (repeat_out G n ++ rest) c = visible_len_from L rest (c + n) := by
  induction n generalizing c with
  | zero => simp [repeat_out]
  | succ n ih =>
    rw [repeat_out, List.append_assoc, hG, ih]
    push_cast
    ring_nf

/-- A border line `WHITE l h..h r RESET` with `n` horizontal glyphs is
`n + 2` columns wide. -/
theorem border_line_width (L : Locale) (l h r : List Nat) (hl : one_column L l)
    (hh : one_column L h) (hr : one_column L r) (n : Int) (hn : 0 ≤ n) :
    visible_len_ansi L (((fputs COLOR_WHITE ++ fputs l) ++ print_repeat h n
      ++ (fputs r ++ fputs COLOR_RESET ++ [0x0A])).dropLast) = n + 2 := by
  have e : ((fputs COLOR_WHITE ++ fputs l) ++ print_repeat h n
      ++ (fputs r ++ fputs COLOR_RESET ++ [0x0A])) =
      (COLOR_WHITE ++ (fputs l ++ (repeat_out h n.toNat ++ (fputs r ++ (COLOR_RESET ++ [])))))
        ++ [0x0A] := by
    simp [fputs_white, fputs_reset, print_repeat]
  rw [e, List.dropLast_concat]
  unfold visible_len_ansi
  rw [visible_len_from_white, hl, visible_len_from_repeat L h hh, hr, visible_len_from_reset,
    visible_len_from_nil]
  have : ((n.toNat : Nat) : Int) = n := Int.toNat_of_nonneg hn
  omega

theorem repeat_out_eq (G : List Nat) (n : Nat) :
    repeat_out G n = (List.replicate n (fputs G)).flatten := by
  induction n with
  | zero => simp [repeat_out]
  | succ n ih => simp [repeat_out, List.replicate_succ, ih]

theorem fputs_glyph (g_use_utf8 : Bool) (G : List Nat)
    (hG : G ∈ [(glyphs g_use_utf8).H, (glyphs g_use_utf8).V, (glyphs g_use_utf8).TL,
      (glyphs g_use_utf8).TR, (glyphs g_use_utf8).BL, (glyphs g_use_utf8).BR,
      (glyphs g_use_utf8).LJ, (glyphs g_use_utf8).RJ]) : fputs G = G := by
  cases g_use_utf8 <;>
    simp only [glyphs, ASCII, U8, Bool.false_eq_true, if_false, if_true, List.mem_cons,
      List.mem_singleton, List.mem_nil_iff, or_false] at hG <;>
    rcases hG with rfl | rfl | rfl | rfl | rfl | rfl | rfl | rfl <;> decide

/-- C5: for every width of at least 3, in the UTF-8 glyph set (UTF-8 locale)
and in the ASCII glyph set (any locale), `print_border_top`,
`print_border_mid` and `print_border_bottom` each emit the colour code, one
corner or junction glyph, `width - 2` horizontal glyphs, one corner or junction
glyph, the reset code and a newline, and the line measures `width` columns
under `visible_len_ansi`. -/
theorem border_lines_have_width (L : Locale) (hL : L.single_width) (g_use_utf8 : Bool)
    (hu : g_use_utf8 = true → L.utf8 = true) (width : Int) (hw : 3 ≤ width) :
    (print_border_top (glyphs g_use_utf8) width =
        COLOR_WHITE ++ (glyphs g_use_utf8).TL
          ++ (List.replicate (width - 2).toNat (glyphs g_use_utf8).H).flatten
          ++ (glyphs g_use_utf8).TR ++ COLOR_RESET ++ [0x0A]
      ∧ visible_len_ansi L (print_border_top (glyphs g_use_utf8) width).dropLast = width)
    ∧ (print_border_mid (glyphs g_use_utf8) width =
        COLOR_WHITE ++ (glyphs g_use_utf8).LJ
          ++ (List.replicate (width - 2).toNat (glyphs g_use_utf8).H).flatten
          ++ (glyphs g_use_utf8).RJ ++ COLOR_RESET ++ [0x0A]
      ∧ visible_len_ansi L (print_border_mid (glyphs g_use_utf8) width).dropLast = width)
    ∧ (print_border_bottom (glyphs g_use_utf8) width =
        COLOR_WHITE ++ (glyphs g_use_utf8).BL
          ++ (List.replicate (width - 2).toNat (glyphs g_use_utf8).H).flatten
          ++ (glyphs g_use_utf8).BR ++ COLOR_RESET ++ [0x0A]
      ∧ visible_len_ansi L (print_border_bottom (glyphs g_use_utf8) width).dropLast = width) := by
  have col := glyph_one_column L hL g_use_utf8 hu
  have fp := fputs_glyph g_use_utf8
  have hn : (0 : Int) ≤ width - 2 := by omega
  refine ⟨⟨?_, ?_⟩, ⟨?_, ?_⟩, ⟨?_, ?_⟩⟩
  · simp [print_border_top, print_repeat, repeat_out_eq, fputs_white, fputs_reset,
      fp _ (by simp : (glyphs g_use_utf8).TL ∈ _), fp _ (by simp : (glyphs g_use_utf8).TR ∈ _),
      fp _ (by simp : (glyphs g_use_utf8).H ∈ _)]
  · have := border_line_width L _ _ _ (col (glyphs g_use_utf8).TL (by simp))
      (col (glyphs g_use_utf8).H (by simp)) (col (glyphs g_use_utf8).TR (by simp)) (width - 2) hn
    unfold print_border_top
    rw [this]; ring
  · simp [print_border_mid, print_repeat, repeat_out_eq, fputs_white, fputs_reset,
      fp _ (by simp : (glyphs g_use_utf8).LJ ∈ _), fp _ (by simp : (glyphs g_use_utf8).RJ ∈ _),
      fp _ (by simp : (glyphs g_use_utf8).H ∈ _)]
  · have := border_line_width L _ _ _ (col (glyphs g_use_utf8).LJ (by simp))
      (col (glyphs g_use_utf8).H (by simp)) (col (glyphs g_use_utf8).RJ (by simp)) (width - 2) hn
    unfold print_border_mid
    rw [this]; ring
  · simp [print_border_bottom, print_repeat, repeat_out_eq, fputs_white, fputs_reset,
      fp _ (by simp : (glyphs g_use_utf8).BL ∈ _), fp _ (by simp : (glyphs g_use_utf8).BR ∈ _),
      fp _ (by simp : (glyphs g_use_utf8).H ∈ _)]
  · have := border_line_width L _ _ _ (col (glyphs g_use_utf8).BL (by simp))
      (col (glyphs g_use_utf8).H (by simp)) (col (glyphs g_use_utf8).BR (by simp)) (width - 2) hn
    unfold print_border_bottom
    rw [this]; ring

theorem wcwidth_model_single : ∀ c, (0x20 ≤ c → c ≤ 0x7E → wcwidth_model c = 1) ∧
    (0x2500 ≤ c → c ≤ 0x257F → wcwidth_model c = 1) := by
  intro c
  constructor
  · intro h1 h2
    unfold wcwidth_model
    rw [if_neg (by omega), if_neg (by omega), if_neg (by omega), if_neg (by omega)]
  · intro h1 h2
    unfold wcwidth_model
    rw [if_neg (by omega), if_neg (by omega), if_neg (by omega), if_neg (by omega)]

theorem utf8_locale_single_width : utf8_locale.single_width :=
  ⟨fun c h1 h2 => (wcwidth_model_single c).1 h1 h2, fun c h1 h2 => (wcwidth_model_single c).2 h1 h2⟩

theorem posix_locale_single_width : posix_locale.single_width :=
  ⟨fun c h1 h2 => (wcwidth_model_single c).1 h1 h2, fun c h1 h2 => (wcwidth_model_single c).2 h1 h2⟩

theorem border_lines_have_width_witness :
    utf8_locale.single_width ∧ (3 : Int) ≤ 20 ∧
    visible_len_ansi utf8_locale (print_border_top (glyphs true) 20).dropLast = 20 ∧
    visible_len_ansi utf8_locale (print_border_mid (glyphs true) 20).dropLast = 20 ∧
    visible_len_ansi utf8_locale (print_border_bottom (glyphs true) 20).dropLast = 20 :=
  have h := border_lines_have_width utf8_locale utf8_locale_single_width true (fun _ => rfl) 20
    (by decide)
  ⟨utf8_locale_single_width, by decide, h.1.2, h.2.1.2, h.2.2.2⟩

theorem visible_len_printable (L : Locale) (hL : L.single_width) :
    ∀ (s : List Nat) (c : Int), (∀ b ∈ s, 0x20 ≤ b ∧ b ≤ 0x7E) →
      visible_len_from L s c = c + s.length := by
  intro s
  induction s with
  | nil => intro c _; simp [visible_len_from_nil]
  | cons b rest ih =>
    intro c h
    have hb := h b (by simp)
    rw [visible_len_from_ascii L hL b rest c hb.1 hb.2,
      ih (c + 1) (fun x hx => h x (List.mem_cons_of_mem _ hx))]
    simp only [List.length_cons]
    push_cast
    ring

/-- C4: a string made only of printable ASCII bytes (0x20..0x7E) measures
exactly its byte length, in every locale whose `wcwidth` gives printable ASCII
one column. -/
theorem printable_ascii_width_is_length (L : Locale) (hL : L.single_width) (s : List Nat)
    (hs : ∀ b ∈ s, 0x20 ≤ b ∧ b ≤ 0x7E) :
    visible_len_ansi L s = (strlen s : Int) ∧ strlen s = s.length := by
  have h0 : 0 ∉ s := fun e => by have := (hs 0 e).1; omega
  have e : strlen s = s.length := by simp [strlen, cstr_of_no_nul s h0]
  refine ⟨?_, e⟩
  rw [e]
  unfold visible_len_ansi
  rw [visible_len_printable L hL s 0 hs]
  simp

theorem printable_ascii_width_is_length_witness :
    utf8_locale.single_width ∧ (∀ b ∈ [0x6C, 0x73, 0x78, 0x20, 0x7E], 0x20 ≤ b ∧ b ≤ 0x7E) ∧
    visible_len_ansi utf8_locale [0x6C, 0x73, 0x78, 0x20, 0x7E] = 5 :=
  ⟨utf8_locale_single_width, by decide,
    (printable_ascii_width_is_length utf8_locale utf8_locale_single_width
      [0x6C, 0x73, 0x78, 0x20, 0x7E] (by decide)).1⟩

/-- C3 as stated fails: the string `ESC [` measures 0 columns, and wrapped in
`ESC [ 3 6 m` and the reset it measures 2, because its unterminated escape
sequence ends at the `[` of the reset and leaves `0m` visible. -/
theorem wrap_changes_width_of_open_escape :
    visible_len_ansi utf8_locale
        (0x1B :: 0x5B :: ([0x33, 0x36] ++ 0x6D :: (fputs [0x1B, 0x5B] ++ COLOR_RESET)))
      ≠ visible_len_ansi utf8_locale [0x1B, 0x5B]
    ∧ visible_len_ansi utf8_locale [0x1B, 0x5B] = 0
    ∧ visible_len_ansi utf8_locale
        (0x1B :: 0x5B :: ([0x33, 0x36] ++ 0x6D :: (fputs [0x1B, 0x5B] ++ COLOR_RESET))) = 2 := by
  decide

/-- C3, amended: for every parameter string of digits and semicolons and
every string `s` in which no escape sequence is left unterminated (every
`ESC [` of `s` is followed, later in `s`, by a byte in `@`..`~`), wrapping `s`
in `ESC [ params m` and the reset does not change the measured width. -/
theorem wrap_keeps_width (L : Locale) (params s : List Nat)
    (hp : ∀ b ∈ params, (0x30 ≤ b ∧ b ≤ 0x39) ∨ b = 0x3B)
    (hs : csi_terminated s = true) :
    visible_len_ansi L (0x1B :: 0x5B :: (params ++ 0x6D :: (fputs s ++ COLOR_RESET)))
      = visible_len_ansi L s := by
  have hp2 : ∀ b ∈ params, b ≠ 0 ∧ is_final b = false := by
    intro b hb
    have := hp b hb
    constructor
    · omega
    · simp only [is_final, Bool.and_eq_false_imp, decide_eq_true_eq, decide_eq_false_iff_not]
      omega
  rw [← visible_len_ansi_cstr L s hs]
  unfold visible_len_ansi fputs
  rw [visible_len_from_csi L params 0x6D _ 0 hp2 (by decide),
    visible_len_from_append L (cstr s) COLOR_RESET 0 (cstr_no_nul s) hs (by decide)]
  have : COLOR_RESET = COLOR_RESET ++ [] := by simp
  rw [this, visible_len_from_reset, visible_len_from_nil]

theorem wrap_keeps_width_witness :
    (∀ b ∈ [0x34, 0x36, 0x3B, 0x33, 0x30], (0x30 ≤ b ∧ b ≤ 0x39) ∨ b = 0x3B) ∧
    csi_terminated [0x1B, 0x5B, 0x31, 0x6D, 0xC3, 0xA9] = true ∧
    visible_len_ansi utf8_locale
      (0x1B :: 0x5B :: ([0x34, 0x36, 0x3B, 0x33, 0x30] ++ 0x6D ::
        (fputs [0x1B, 0x5B, 0x31, 0x6D, 0xC3, 0xA9] ++ COLOR_RESET)))
      = visible_len_ansi utf8_locale [0x1B, 0x5B, 0x31, 0x6D, 0xC3, 0xA9] :=
  ⟨by decide, by decide,
    wrap_keeps_width utf8_locale [0x34, 0x36, 0x3B, 0x33, 0x30]
      [0x1B, 0x5B, 0x31, 0x6D, 0xC3, 0xA9] (by decide) (by decide)⟩

/-- C1 as stated fails: the content `ESC [` measures 0 columns, so it
qualifies for width 3, but in the emitted row its unterminated escape sequence
runs into the right border's colour code and the row measures 6 columns. -/
theorem row_width_fails_on_open_escape :
    visible_len_ansi utf8_locale [0x1B, 0x5B] ≤ 3 - 3
    ∧ visible_len_ansi utf8_locale
        (print_row_content utf8_locale (glyphs true) 3 [0x1B, 0x5B]).dropLast = 6
    ∧ visible_len_ansi utf8_locale
        (print_row_content utf8_locale (glyphs true) 3 [0x1B, 0x5B]).dropLast ≠ 3 := by
  decide

theorem padding_head (p : Nat) (rest : List Nat) :
    ∀ b ∈ (List.replicate p 0x20 ++ (COLOR_WHITE ++ rest)).head?, b < 0x80 ∧ b ≠ 0x5B := by
  intro b hb
  cases p with
  | zero =>
    simp only [List.replicate_zero, List.nil_append, COLOR_WHITE, List.cons_append,
      List.head?_cons, Option.mem_def, Option.some.injEq] at hb
    omega
  | succ n =>
    simp only [List.replicate_succ, List.cons_append, List.head?_cons, Option.mem_def,
      Option.some.injEq] at hb
    omega

/-- C1, amended: for every width of at least 3 and every content string that
leaves no escape sequence unterminated (every `ESC [` of the content is
followed, later in the content, by a byte in `@`..`~`) and whose visible width
is at most `width - 3`, `print_row_content` emits the coloured left border, one
space, the content, `(width - 2) - (1 + visible_len_ansi content)` spaces, the
coloured right border and a newline, and the line without the newline measures
exactly `width` columns. -/
theorem row_has_width (L : Locale) (hL : L.single_width) (g_use_utf8 : Bool)
    (hu : g_use_utf8 = true → L.utf8 = true) (width : Int) (content : List Nat)
    (hw : 3 ≤ width) (hc : csi_terminated content = true)
    (hvis : visible_len_ansi L content ≤ width - 3) :
    print_row_content L (glyphs g_use_utf8) width content =
        COLOR_WHITE ++ (glyphs g_use_utf8).V ++ COLOR_RESET ++ [0x20] ++ cstr content
          ++ List.replicate ((width - 2) - (1 + visible_len_ansi L content)).toNat 0x20
          ++ COLOR_WHITE ++ (glyphs g_use_utf8).V ++ COLOR_RESET ++ [0x0A]
    ∧ visible_len_ansi L (print_row_content L (glyphs g_use_utf8) width content).dropLast
        = width := by
  have colV := glyph_one_column L hL g_use_utf8 hu (glyphs g_use_utf8).V (by simp)
  have fpV := fputs_glyph g_use_utf8 (glyphs g_use_utf8).V (by simp)
  have h1 : ¬ (width - 2 < 1) := by omega
  have h2 : ¬ (width - 2 - (1 + visible_len_ansi L content) < 0) := by omega
  have e : print_row_content L (glyphs g_use_utf8) width content =
      (COLOR_WHITE ++ (fputs (glyphs g_use_utf8).V ++ (COLOR_RESET ++ (0x20 :: (cstr content
        ++ (List.replicate ((width - 2) - (1 + visible_len_ansi L content)).toNat 0x20
          ++ (COLOR_WHITE ++ (fputs (glyphs g_use_utf8).V ++ (COLOR_RESET ++ []))))))))) ++
        [0x0A] := by
    have fc : fputs content = cstr content := rfl
    simp [print_row_content, print_row_prefix, put_spaces, fputs_white, fputs_reset, h1, h2,
      fc]
  constructor
  · rw [e, fpV]; simp
  · rw [e, List.dropLast_concat]
    set p := ((width - 2) - (1 + visible_len_ansi L content)).toNat with hp
    have hpp : (p : Int) = (width - 2) - (1 + visible_len_ansi L content) :=
      Int.toNat_of_nonneg (by omega)
    have ht := padding_head p (fputs (glyphs g_use_utf8).V ++ (COLOR_RESET ++ []))
    unfold visible_len_ansi
    rw [visible_len_from_white, colV, visible_len_from_reset,
      visible_len_from_ascii L hL 0x20 _ _ (by decide) (by decide),
      visible_len_from_append L (cstr content) _ _ (cstr_no_nul content) hc ht,
      visible_len_from_spaces L hL, visible_len_from_white, colV, visible_len_from_reset,
      visible_len_from_nil, visible_len_from_acc, visible_len_ansi_cstr L content hc, hpp]
    ring

theorem row_has_width_witness :
    utf8_locale.single_width ∧ (3 : Int) ≤ 12 ∧
    csi_terminated [0x1B, 0x5B, 0x31, 0x6D, 0xC3, 0xA9, 0x1B, 0x5B, 0x30, 0x6D] = true ∧
    visible_len_ansi utf8_locale [0x1B, 0x5B, 0x31, 0x6D, 0xC3, 0xA9, 0x1B, 0x5B, 0x30, 0x6D]
      ≤ 12 - 3 ∧
    visible_len_ansi utf8_locale (print_row_content utf8_locale (glyphs true) 12
      [0x1B, 0x5B, 0x31, 0x6D, 0xC3, 0xA9, 0x1B, 0x5B, 0x30, 0x6D]).dropLast = 12 :=
  ⟨utf8_locale_single_width, by decide, by decide, by decide,
    (row_has_width utf8_locale utf8_locale_single_width true (fun _ => rfl) 12
      [0x1B, 0x5B, 0x31, 0x6D, 0xC3, 0xA9, 0x1B, 0x5B, 0x30, 0x6D]
      (by decide) (by decide) (by decide)).2⟩

/-- The width of the title row of `draw_header`, in general: the row is padded
from the byte length of the path, so it falls short of `width` by the number
of bytes of the path that take no column of their own. -/
theorem draw_header_title_width (L : Locale) (hL : L.single_width) (g_use_utf8 : Bool)
    (hu : g_use_utf8 = true → L.utf8 = true) (width : Int) (cwd : List Nat)
    (hc : csi_terminated cwd = true) (hfit : 1 + 4 + (strlen cwd : Int) ≤ width - 2) :
    visible_len_ansi L (draw_header_title (glyphs g_use_utf8) cwd width).dropLast
      = width - ((strlen cwd : Int) - visible_len_ansi L cwd) := by
  have colV := glyph_one_column L hL g_use_utf8 hu (glyphs g_use_utf8).V (by simp)
  have h4 : strlen [0x6C, 0x73, 0x78, 0x20] = 4 := by decide
  have h2 : ¬ (width - 2 - (1 + 4 + (strlen cwd : Int)) < 0) := by omega
  have fc : fputs cwd = cstr cwd := rfl
  have fb : fputs COLOR_BG_CYAN = COLOR_BG_CYAN := by decide
  have fo : fputs COLOR_BOLD = COLOR_BOLD := by decide
  set p := (width - 2 - (1 + 4 + (strlen cwd : Int))).toNat with hp
  have hpp : (p : Int) = width - 2 - (1 + 4 + (strlen cwd : Int)) :=
    Int.toNat_of_nonneg (by omega)
  have e : draw_header_title (glyphs g_use_utf8) cwd width =
      (COLOR_WHITE ++ (fputs (glyphs g_use_utf8).V ++ (COLOR_RESET ++ (0x20 ::
        (COLOR_BG_CYAN ++ (COLOR_BOLD ++ (0x6C :: 0x73 :: 0x78 :: (COLOR_RESET ++ (0x20 ::
        (cstr cwd ++ (List.replicate p 0x20
          ++ (COLOR_WHITE ++ (fputs (glyphs g_use_utf8).V ++ (COLOR_RESET ++ []))))))))))))))
        ++ [0x0A] := by
    have h3 : ¬ (width - 2 < 5 + (strlen cwd : Int)) := by omega
    simp [draw_header_title, print_row_suffix, put_spaces, fputs_white, fputs_reset, h2, h4,
      fc, fb, fo, hp, h3]
  have ht := padding_head p (fputs (glyphs g_use_utf8).V ++ (COLOR_RESET ++ []))
  have hcyan : ∀ rest c, visible_len_from L (COLOR_BG_CYAN ++ rest) c
      = visible_len_from L rest c := fun rest c =>
    visible_len_from_csi L [0x34, 0x36, 0x3B, 0x33, 0x30] 0x6D rest c (by decide) (by decide)
  have hbold : ∀ rest c, visible_len_from L (COLOR_BOLD ++ rest) c
      = visible_len_from L rest c := fun rest c =>
    visible_len_from_csi L [0x31] 0x6D rest c (by decide) (by decide)
  rw [e, List.dropLast_concat]
  unfold visible_len_ansi
  rw [visible_len_from_white, colV, visible_len_from_reset,
    visible_len_from_ascii L hL 0x20 _ _ (by decide) (by decide), hcyan, hbold,
    visible_len_from_ascii L hL 0x6C _ _ (by decide) (by decide),
    visible_len_from_ascii L hL 0x73 _ _ (by decide) (by decide),
    visible_len_from_ascii L hL 0x78 _ _ (by decide) (by decide),
    visible_len_from_reset,
    visible_len_from_ascii L hL 0x20 _ _ (by decide) (by decide),
    visible_len_from_append L (cstr cwd) _ _ (cstr_no_nul cwd) hc ht,
    visible_len_from_spaces L hL, visible_len_from_white, colV, visible_len_from_reset,
    visible_len_from_nil, visible_len_from_acc, visible_len_ansi_cstr L cwd hc, hpp]
  unfold visible_len_ansi
  ring

/-- C2, the code at a failing input: in a UTF-8 locale with width 20 and the
listing path `é` (bytes C3 A9), the title content `lsx é` is 5 columns wide,
the top and mid borders are 20 columns wide, and the title row of
`draw_header` is 19 columns wide: `title_visible` counts the two bytes of `é`
(`strlen`) where `print_row_content` would count its one column. -/
theorem draw_header_title_short_on_multibyte_path :
    visible_len_ansi utf8_locale ([0x6C, 0x73, 0x78, 0x20] ++ [0xC3, 0xA9]) = 5
    ∧ visible_len_ansi utf8_locale (print_border_top (glyphs true) 20).dropLast = 20
    ∧ visible_len_ansi utf8_locale (print_border_mid (glyphs true) 20).dropLast = 20
    ∧ visible_len_ansi utf8_locale (draw_header_title (glyphs true) [0xC3, 0xA9] 20).dropLast
        = 19
    ∧ visible_len_ansi utf8_locale
        (print_row_content utf8_locale (glyphs true) 20
          (COLOR_BG_CYAN ++ COLOR_BOLD ++ [0x6C, 0x73, 0x78] ++ COLOR_RESET
            ++ [0x20, 0xC3, 0xA9])).dropLast = 20 := by
  decide

/-! ### Facts about the comparisons -/

theorem bytes_cmp_eq_zero : ∀ (a b : List Nat), bytes_cmp a b = 0 ↔ a = b := by
  intro a
  induction a with
  | nil => intro b; cases b <;> simp [bytes_cmp]
  | cons x xs ih =>
    intro b
    cases b with
    | nil => simp [bytes_cmp]
    | cons y ys =>
      simp only [bytes_cmp, List.cons.injEq]
      rcases Nat.lt_trichotomy x y with h | h | h
      · have h2 : x ≠ y := by omega
        simp [h, h2]
      · subst h
        simpa using ih ys
      · have h2 : ¬ x < y := by omega
        have h3 : x ≠ y := by omega
        simp [h, h2, h3]

theorem bytes_cmp_swap : ∀ (a b : List Nat), bytes_cmp b a = - bytes_cmp a b := by
  intro a
  induction a with
  | nil => intro b; cases b <;> simp [bytes_cmp]
  | cons x xs ih =>
    intro b
    cases b with
    | nil => simp [bytes_cmp]
    | cons y ys =>
      simp only [bytes_cmp]
      rcases Nat.lt_trichotomy x y with h | h | h
      · have h2 : ¬ y < x := by omega
        simp [h, h2]
      · subst h
        simpa using ih ys
      · have h2 : ¬ x < y := by omega
        simp [h, h2]

theorem bytes_cmp_range : ∀ (a b : List Nat),
    bytes_cmp a b = -1 ∨ bytes_cmp a b = 0 ∨ bytes_cmp a b = 1 := by
  intro a
  induction a with
  | nil => intro b; cases b <;> simp [bytes_cmp]
  | cons x xs ih =>
    intro b
    cases b with
    | nil => simp [bytes_cmp]
    | cons y ys =>
      simp only [bytes_cmp]
      split_ifs
      · simp
      · simp
      · exact ih ys

theorem bytes_cmp_trans : ∀ (a b c : List Nat), bytes_cmp a b ≤ 0 → bytes_cmp b c ≤ 0 →
    bytes_cmp a c ≤ 0 := by
  intro a
  induction a with
  | nil => intro b c _ _; cases c <;> simp [bytes_cmp]
  | cons x xs ih =>
    intro b c hab hbc
    cases b with
    | nil => simp [bytes_cmp] at hab
    | cons y ys =>
      cases c with
      | nil => simp [bytes_cmp] at hbc
      | cons z zs =>
        simp only [bytes_cmp] at hab hbc ⊢
        split_ifs at hab hbc ⊢ <;> first
          | omega
          | exact ih ys zs hab hbc

/-- A strict step followed by a weak one is strict. -/
theorem bytes_cmp_lt_of_lt_of_le : ∀ (a b c : List Nat), bytes_cmp a b < 0 →
    bytes_cmp b c ≤ 0 → bytes_cmp a c < 0 := by
  intro a b c hab hbc
  have h := bytes_cmp_trans a b c (le_of_lt hab) hbc
  rcases lt_or_eq_of_le h with h | h
  · exact h
  · have hac := (bytes_cmp_eq_zero a c).mp h
    subst hac
    have := bytes_cmp_swap a b
    omega

theorem bytes_cmp_lt_of_le_of_lt : ∀ (a b c : List Nat), bytes_cmp a b ≤ 0 →
    bytes_cmp b c < 0 → bytes_cmp a c < 0 := by
  intro a b c hab hbc
  have h := bytes_cmp_trans a b c hab (le_of_lt hbc)
  rcases lt_or_eq_of_le h with h | h
  · exact h
  · have hac := (bytes_cmp_eq_zero a c).mp h
    subst hac
    have := bytes_cmp_swap a b
    omega

theorem strcmp_eq_zero (a b : List Nat) : strcmp a b = 0 ↔ cstr a = cstr b :=
  bytes_cmp_eq_zero _ _

theorem strcmp_swap (a b : List Nat) : strcmp b a = - strcmp a b :=
  bytes_cmp_swap _ _

theorem strcmp_trans (a b c : List Nat) : strcmp a b ≤ 0 → strcmp b c ≤ 0 → strcmp a c ≤ 0 :=
  bytes_cmp_trans _ _ _

theorem qsort_perm (cmp : FileItem → FileItem → Int) (l : List FileItem) :
    (qsort cmp l).Perm l :=
  List.perm_insertionSort _ l

/-- With a total and transitive comparison the model of `qsort` returns a
result that `qsort` may return. -/
theorem qsort_is_result (cmp : FileItem → FileItem → Int)
    (htot : ∀ a b, cmp a b ≤ 0 ∨ cmp b a ≤ 0)
    (htr : ∀ a b c, cmp a b ≤ 0 → cmp b c ≤ 0 → cmp a c ≤ 0) (l : List FileItem) :
    qsort_result cmp l (qsort cmp l) := by
  refine ⟨qsort_perm cmp l, ?_⟩
  haveI : IsTotal FileItem (fun a b => cmp a b ≤ 0) := ⟨htot⟩
  haveI : IsTrans FileItem (fun a b => cmp a b ≤ 0) := ⟨htr⟩
  exact List.sorted_insertionSort (fun a b => cmp a b ≤ 0) l

/-- Entries of a snapshot with pairwise distinct names are told apart by
their names. -/
theorem name_injective (l : List FileItem) (hd : (l.map (fun f => cstr f.name)).Nodup)
    (a b : FileItem) (ha : a ∈ l) (hb : b ∈ l) (h : cstr a.name = cstr b.name) : a = b :=
  List.inj_on_of_nodup_map hd ha hb h

/-- When the comparison is zero only on equal names, a snapshot with pairwise
distinct names has one sorted arrangement. -/
theorem qsort_result_unique (cmp : FileItem → FileItem → Int) (l : List FileItem)
    (hd : (l.map (fun f => cstr f.name)).Nodup)
    (hanti : ∀ a b, cmp a b ≤ 0 → cmp b a ≤ 0 → cstr a.name = cstr b.name)
    (out1 out2 : List FileItem) (h1 : qsort_result cmp l out1)
    (h2 : qsort_result cmp l out2) : out1 = out2 := by
  apply List.Perm.eq_of_sorted _ h1.2 h2.2 (h1.1.trans h2.1.symm)
  intro a b ha hb hab hba
  exact name_injective l hd a b (h1.1.subset ha) (h2.1.subset hb) (hanti a b hab hba)

theorem compare_by_name_le (o : Options) (a b : FileItem) :
    compare_by_name o a b ≤ 0 ↔
      if o.reverse then strcmp b.name a.name ≤ 0 else strcmp a.name b.name ≤ 0 := by
  unfold compare_by_name
  have := strcmp_swap a.name b.name
  cases o.reverse <;> (simp; try omega)

theorem compare_by_name_total (o : Options) (a b : FileItem) :
    compare_by_name o a b ≤ 0 ∨ compare_by_name o b a ≤ 0 := by
  rw [compare_by_name_le, compare_by_name_le]
  have := strcmp_swap a.name b.name
  cases o.reverse <;> (simp; try omega)

theorem compare_by_name_trans (o : Options) (a b c : FileItem) :
    compare_by_name o a b ≤ 0 → compare_by_name o b c ≤ 0 → compare_by_name o a c ≤ 0 := by
  rw [compare_by_name_le, compare_by_name_le, compare_by_name_le]
  cases o.reverse
  · simpa using strcmp_trans a.name b.name c.name
  · simpa using fun h1 h2 => strcmp_trans c.name b.name a.name h2 h1

theorem compare_by_name_anti (o : Options) (a b : FileItem) :
    compare_by_name o a b ≤ 0 → compare_by_name o b a ≤ 0 → cstr a.name = cstr b.name := by
  rw [compare_by_name_le, compare_by_name_le]
  have hs := strcmp_swap a.name b.name
  intro h1 h2
  apply (strcmp_eq_zero a.name b.name).mp
  cases hr : o.reverse <;> (simp [hr] at h1 h2; omega)

/-- C7: for every snapshot with pairwise distinct names, `sort_list` in name
mode (neither `-t` nor `-X`) yields a permutation of the entries in strictly
ascending `strcmp` order of name; with the reverse option set it yields exactly
the reversal of that sequence, so reversing it again gives the ascending
sequence back; and these are the only results `qsort` can return. -/
theorem sort_by_name_ascending_and_reversal (o : Options) (l : FileList)
    (ht : o.sort_by_time = false) (hx : o.sort_by_ext = false)
    (hd : (l.items.map (fun f => cstr f.name)).Nodup) :
    (sort_list { o with reverse := false } l).items.Perm l.items
    ∧ (sort_list { o with reverse := false } l).items.Pairwise
        (fun a b => strcmp a.name b.name < 0)
    ∧ (sort_list { o with reverse := true } l).items
        = (sort_list { o with reverse := false } l).items.reverse
    ∧ (sort_list { o with reverse := true } l).items.reverse
        = (sort_list { o with reverse := false } l).items
    ∧ (∀ out, qsort_result (compare_by_name { o with reverse := false }) l.items out →
        out = (sort_list { o with reverse := false } l).items)
    ∧ (∀ out, qsort_result (compare_by_name { o with reverse := true }) l.items out →
        out = (sort_list { o with reverse := false } l).items.reverse) := by
  have ea : (sort_list { o with reverse := false } l).items
      = qsort (compare_by_name { o with reverse := false }) l.items := by
    simp [sort_list, ht, hx]
  have ed : (sort_list { o with reverse := true } l).items
      = qsort (compare_by_name { o with reverse := true }) l.items := by
    simp [sort_list, ht, hx]
  have ra := qsort_is_result _ (compare_by_name_total { o with reverse := false })
    (compare_by_name_trans { o with reverse := false }) l.items
  have rd := qsort_is_result _ (compare_by_name_total { o with reverse := true })
    (compare_by_name_trans { o with reverse := true }) l.items
  -- the reversal of the ascending result is a result for the reversed comparison
  have rr : qsort_result (compare_by_name { o with reverse := true }) l.items
      (qsort (compare_by_name { o with reverse := false }) l.items).reverse := by
    refine ⟨(List.reverse_perm _).trans ra.1, ?_⟩
    rw [List.pairwise_reverse]
    refine ra.2.imp ?_
    intro a b h
    rw [compare_by_name_le] at h ⊢
    simpa using h
  have uniq_d := qsort_result_unique (compare_by_name { o with reverse := true }) l.items hd
    (compare_by_name_anti _)
  have uniq_a := qsort_result_unique (compare_by_name { o with reverse := false }) l.items hd
    (compare_by_name_anti _)
  have hdesc : qsort (compare_by_name { o with reverse := true }) l.items
      = (qsort (compare_by_name { o with reverse := false }) l.items).reverse :=
    uniq_d _ _ rd rr
  rw [ea, ed]
  refine ⟨ra.1, ?_, hdesc, ?_, ?_, ?_⟩
  · have hnd : ((qsort (compare_by_name { o with reverse := false }) l.items).map
        (fun f => cstr f.name)).Nodup := (ra.1.map _).nodup_iff.mpr hd
    have hne := List.pairwise_map.mp hnd
    refine (ra.2.and hne).imp ?_
    rintro a b ⟨hle, hne⟩
    rw [compare_by_name_le] at hle
    have hle2 : strcmp a.name b.name ≤ 0 := by simpa using hle
    rcases lt_or_eq_of_le hle2 with h | h
    · exact h
    · exact absurd ((strcmp_eq_zero _ _).mp h) hne
  · rw [hdesc, List.reverse_reverse]
  · intro out h
    exact uniq_a _ _ h ra
  · intro out h
    exact uniq_d _ _ h rr

theorem sort_by_name_ascending_and_reversal_witness :
    (([plain_file [0x62] 0, plain_file [0x61, 0x2E, 0x63] 0, plain_file [0x61] 0].map
      (fun f => cstr f.name)).Nodup)
    ∧ (sort_list { reverse := false }
        { items := [plain_file [0x62] 0, plain_file [0x61, 0x2E, 0x63] 0, plain_file [0x61] 0],
          cwd := [] }).items
        = [plain_file [0x61] 0, plain_file [0x61, 0x2E, 0x63] 0, plain_file [0x62] 0]
    ∧ (sort_list { reverse := true }
        { items := [plain_file [0x62] 0, plain_file [0x61, 0x2E, 0x63] 0, plain_file [0x61] 0],
          cwd := [] }).items
        = (sort_list { reverse := false }
            { items := [plain_file [0x62] 0, plain_file [0x61, 0x2E, 0x63] 0,
                plain_file [0x61] 0],
              cwd := [] }).items.reverse :=
  ⟨by decide, by decide,
    (sort_by_name_ascending_and_reversal {}
      { items := [plain_file [0x62] 0, plain_file [0x61, 0x2E, 0x63] 0, plain_file [0x61] 0],
        cwd := [] } rfl rfl (by decide)).2.2.1⟩

theorem compare_by_time_le (o : Options) (a b : FileItem) :
    compare_by_time o a b ≤ 0 ↔
      if o.reverse then a.mtime ≤ b.mtime else b.mtime ≤ a.mtime := by
  unfold compare_by_time
  cases o.reverse <;> simp <;> split_ifs <;> omega

theorem compare_by_time_total (o : Options) (a b : FileItem) :
    compare_by_time o a b ≤ 0 ∨ compare_by_time o b a ≤ 0 := by
  rw [compare_by_time_le, compare_by_time_le]
  cases o.reverse <;> (simp; try omega)

theorem compare_by_time_trans (o : Options) (a b c : FileItem) :
    compare_by_time o a b ≤ 0 → compare_by_time o b c ≤ 0 → compare_by_time o a c ≤ 0 := by
  rw [compare_by_time_le, compare_by_time_le, compare_by_time_le]
  cases o.reverse <;> (simp; try omega)

/-- C8: in time mode the sorted snapshot is a permutation of the entries with
non-increasing modification times (newer first) when reverse is off and
non-decreasing modification times when reverse is on, and so is every result
`qsort` may return; for every pair of entries `compare_by_time` with reverse
set returns the exact negation of `compare_by_time` with reverse clear. -/
theorem sort_by_time_order (o : Options) (l : FileList) (ht : o.sort_by_time = true) :
    (sort_list o l).items.Perm l.items
    ∧ (o.reverse = false →
        (sort_list o l).items.Pairwise (fun a b => b.mtime ≤ a.mtime))
    ∧ (o.reverse = true →
        (sort_list o l).items.Pairwise (fun a b => a.mtime ≤ b.mtime))
    ∧ (∀ out, qsort_result (compare_by_time o) l.items out →
        (o.reverse = false → out.Pairwise (fun a b => b.mtime ≤ a.mtime))
        ∧ (o.reverse = true → out.Pairwise (fun a b => a.mtime ≤ b.mtime)))
    ∧ (∀ a b, compare_by_time { o with reverse := true } a b
        = - compare_by_time { o with reverse := false } a b) := by
  have e : (sort_list o l).items = qsort (compare_by_time o) l.items := by
    simp [sort_list, ht]
  have r := qsort_is_result _ (compare_by_time_total o) (compare_by_time_trans o) l.items
  have key : ∀ out, qsort_result (compare_by_time o) l.items out →
      (o.reverse = false → out.Pairwise (fun a b => b.mtime ≤ a.mtime))
      ∧ (o.reverse = true → out.Pairwise (fun a b => a.mtime ≤ b.mtime)) := by
    intro out h
    constructor
    · intro hr
      refine h.2.imp ?_
      intro a b hab
      rw [compare_by_time_le, hr] at hab
      simpa using hab
    · intro hr
      refine h.2.imp ?_
      intro a b hab
      rw [compare_by_time_le, hr] at hab
      simpa using hab
  rw [e]
  refine ⟨r.1, (key _ r).1, (key _ r).2, key, ?_⟩
  intro a b
  unfold compare_by_time
  rcases lt_trichotomy a.mtime b.mtime with h | h | h
  · simp [h]
  · simp [h]
  · have h2 : ¬ a.mtime < b.mtime := not_lt.mpr (le_of_lt h)
    simp [h, h2]

theorem sort_by_time_order_witness :
    (sort_list { sort_by_time := true }
      { items := [plain_file [0x61] 5, plain_file [0x62] 9, plain_file [0x63] 7],
        cwd := [] }).items
      = [plain_file [0x62] 9, plain_file [0x63] 7, plain_file [0x61] 5]
    ∧ (sort_list { sort_by_time := true }
      { items := [plain_file [0x61] 5, plain_file [0x62] 9, plain_file [0x63] 7],
        cwd := [] }).items.Pairwise (fun a b => b.mtime ≤ a.mtime) :=
  ⟨by decide,
    (sort_by_time_order { sort_by_time := true }
      { items := [plain_file [0x61] 5, plain_file [0x62] 9, plain_file [0x63] 7],
        cwd := [] } rfl).2.1 rfl⟩

theorem compare_by_ext_le (o : Options) (a b : FileItem) :
    compare_by_ext o a b ≤ 0 ↔ if o.reverse then ext_name_le b a else ext_name_le a b := by
  unfold compare_by_ext ext_name_le
  have h1 := strcmp_swap (ext_of a.name) (ext_of b.name)
  have h2 := strcmp_swap a.name b.name
  cases o.reverse
  · simp only [Bool.false_eq_true, if_false]
    split_ifs with h
    · simp [h]
    · constructor
      · intro h3; left; omega
      · rintro (h3 | h3) <;> omega
  · simp only [if_true]
    split_ifs with h
    · have : strcmp (ext_of b.name) (ext_of a.name) = 0 := by omega
      simp [this]; omega
    · constructor
      · intro h3; left; omega
      · rintro (h3 | h3) <;> omega

theorem compare_by_ext_swap (o : Options) (a b : FileItem) :
    compare_by_ext o b a = - compare_by_ext o a b := by
  unfold compare_by_ext
  have h1 := strcmp_swap (ext_of a.name) (ext_of b.name)
  have h2 := strcmp_swap a.name b.name
  simp only
  split_ifs <;> omega

theorem ext_name_le_total (a b : FileItem) : ext_name_le a b ∨ ext_name_le b a := by
  unfold ext_name_le
  have h1 := strcmp_swap (ext_of a.name) (ext_of b.name)
  have h2 := strcmp_swap a.name b.name
  omega

theorem ext_name_le_trans (a b c : FileItem) :
    ext_name_le a b → ext_name_le b c → ext_name_le a c := by
  unfold ext_name_le
  rintro (h1 | ⟨h1, n1⟩) (h2 | ⟨h2, n2⟩)
  · left; exact bytes_cmp_lt_of_lt_of_le _ _ _ h1 (le_of_lt h2)
  · left; exact bytes_cmp_lt_of_lt_of_le _ _ _ h1 (le_of_eq h2)
  · left; exact bytes_cmp_lt_of_le_of_lt _ _ _ (le_of_eq h1) h2
  · right
    have e1 := (strcmp_eq_zero _ _).mp h1
    have e2 := (strcmp_eq_zero _ _).mp h2
    exact ⟨(strcmp_eq_zero _ _).mpr (e1.trans e2), strcmp_trans _ _ _ n1 n2⟩

theorem compare_by_ext_total (o : Options) (a b : FileItem) :
    compare_by_ext o a b ≤ 0 ∨ compare_by_ext o b a ≤ 0 := by
  rw [compare_by_ext_le, compare_by_ext_le]
  cases o.reverse
  · simpa using ext_name_le_total a b
  · simpa using ext_name_le_total b a

theorem compare_by_ext_trans (o : Options) (a b c : FileItem) :
    compare_by_ext o a b ≤ 0 → compare_by_ext o b c ≤ 0 → compare_by_ext o a c ≤ 0 := by
  rw [compare_by_ext_le, compare_by_ext_le, compare_by_ext_le]
  cases o.reverse
  · simpa using ext_name_le_trans a b c
  · simpa using fun h1 h2 => ext_name_le_trans c b a h2 h1

theorem ext_of_congr (a b : List Nat) (h : cstr a = cstr b) : ext_of a = ext_of b := by
  unfold ext_of strrchr
  rw [h]

/-- The comparison by extension is zero exactly on equal names. -/
theorem compare_by_ext_eq_zero (o : Options) (a b : FileItem) :
    compare_by_ext o a b = 0 ↔ cstr a.name = cstr b.name := by
  constructor
  · intro h
    apply (strcmp_eq_zero _ _).mp
    unfold compare_by_ext at h
    simp only at h
    split_ifs at h <;> omega
  · intro h
    have hn := (strcmp_eq_zero _ _).mpr h
    have he : strcmp (ext_of a.name) (ext_of b.name) = 0 := by
      rw [ext_of_congr _ _ h]
      exact (strcmp_eq_zero _ _).mpr rfl
    unfold compare_by_ext
    simp [he, hn]

theorem compare_by_ext_anti (o : Options) (a b : FileItem) :
    compare_by_ext o a b ≤ 0 → compare_by_ext o b a ≤ 0 → cstr a.name = cstr b.name := by
  intro h1 h2
  have := compare_by_ext_swap o a b
  exact (compare_by_ext_eq_zero o a b).mp (by omega)

theorem strrchr_bytes_suffix (c : Nat) : ∀ (s r : List Nat), strrchr_bytes c s = some r →
    ∃ p, s = p ++ r := by
  intro s
  induction s with
  | nil => intro r h; simp [strrchr_bytes] at h
  | cons b rest ih =>
    intro r h
    unfold strrchr_bytes at h
    split at h
    · rename_i r2 h2
      cases h
      obtain ⟨p, hp⟩ := ih r h2
      exact ⟨b :: p, by rw [hp]; rfl⟩
    · split_ifs at h
      cases h
      exact ⟨[], rfl⟩

theorem ext_of_no_nul (name : List Nat) : cstr (ext_of name) = ext_of name := by
  apply cstr_of_no_nul
  unfold ext_of strrchr
  split
  · rename_i e h
    obtain ⟨p, hp⟩ := strrchr_bytes_suffix _ _ _ h
    intro h0
    exact cstr_no_nul name (by rw [hp]; exact List.mem_append_right _ h0)
  · simp

theorem strcmp_ext_eq_zero (a b : List Nat) :
    strcmp (ext_of a) (ext_of b) = 0 ↔ ext_of a = ext_of b := by
  rw [strcmp_eq_zero, ext_of_no_nul, ext_of_no_nul]

/-- C6 as stated fails: with `-X` the names `a.` and `b` come out as `b`,
`a.`.  After its last `.` the name `a.` has the empty string, the extension of
`b` as well, and `a.` is the smaller name: by the pair (extension, name) of the
claim `a.` comes first.  The code compares from the `.` on, `"."` against `""`. -/
theorem sort_by_ext_keeps_the_dot :
    (sort_list { sort_by_ext := true }
      { items := [plain_file [0x61, 0x2E] 0, plain_file [0x62] 0], cwd := [] }).items
      = [plain_file [0x62] 0, plain_file [0x61, 0x2E] 0]
    ∧ ¬ (sort_list { sort_by_ext := true }
      { items := [plain_file [0x61, 0x2E] 0, plain_file [0x62] 0], cwd := [] }).items.Pairwise
        spec_ext_name_le
    ∧ spec_ext [0x61, 0x2E] = spec_ext [0x62]
    ∧ strcmp [0x61, 0x2E] [0x62] < 0
    ∧ ext_of [0x61, 0x2E] = [0x2E] ∧ ext_of [0x62] = [] := by
  decide

/-- C6, amended: with sort-by-extension the active mode (`-X` without `-t`)
and reverse off, `sort_list` orders every snapshot by the pair (extension,
name) compared byte-wise, where the extension of a name is the substring that
starts at its last `.`, the `.` included (the empty string when the name has no
`.`), and so does every result `qsort` may return; consequently all entries
that share an extension are contiguous and each such group is in ascending
name order. -/
theorem sort_by_ext_order (o : Options) (l : FileList) (ht : o.sort_by_time = false)
    (hx : o.sort_by_ext = true) (hr : o.reverse = false) :
    (sort_list o l).items.Perm l.items
    ∧ (sort_list o l).items.Pairwise ext_name_le
    ∧ (∀ out, qsort_result (compare_by_ext o) l.items out → out.Pairwise ext_name_le)
    ∧ (∀ pre x mid y post, (sort_list o l).items = pre ++ x :: (mid ++ y :: post) →
        ext_of x.name = ext_of y.name →
        (∀ z ∈ mid, ext_of z.name = ext_of x.name) ∧ strcmp x.name y.name ≤ 0) := by
  have e : (sort_list o l).items = qsort (compare_by_ext o) l.items := by
    simp [sort_list, ht, hx]
  have r := qsort_is_result _ (compare_by_ext_total o) (compare_by_ext_trans o) l.items
  have key : ∀ out, qsort_result (compare_by_ext o) l.items out →
      out.Pairwise ext_name_le := by
    intro out h
    refine h.2.imp ?_
    intro a b hab
    rw [compare_by_ext_le, hr] at hab
    simpa using hab
  have hs : (sort_list o l).items.Pairwise ext_name_le := by
    rw [e]
    exact key _ r
  refine ⟨by rw [e]; exact r.1, hs, key, ?_⟩
  intro pre x mid y post hsplit hxy
  rw [hsplit] at hs
  have hs2 := (List.pairwise_append.mp hs).2.1
  rw [List.pairwise_cons] at hs2
  have hxy0 : strcmp (ext_of x.name) (ext_of y.name) = 0 := (strcmp_ext_eq_zero _ _).mpr hxy
  constructor
  · intro z hz
    have hxz : ext_name_le x z := hs2.1 z (List.mem_append_left _ hz)
    have hzy : ext_name_le z y := by
      have := (List.pairwise_append.mp hs2.2).2.2 z hz y (List.mem_cons_self _ _)
      exact this
    rcases hxz with h1 | ⟨h1, _⟩
    · have hzy2 : strcmp (ext_of z.name) (ext_of y.name) ≤ 0 := by
        rcases hzy with h | ⟨h, _⟩
        · exact le_of_lt h
        · exact le_of_eq h
      have := bytes_cmp_lt_of_lt_of_le _ _ _ h1 hzy2
      unfold strcmp at hxy0
      omega
    · exact ((strcmp_ext_eq_zero _ _).mp h1).symm
  · have hxy2 : ext_name_le x y := hs2.1 y (by simp)
    rcases hxy2 with h | ⟨_, h⟩
    · omega
    · exact h

theorem sort_by_ext_order_witness :
    (sort_list { sort_by_ext := true }
      { items := [plain_file [0x7A, 0x2E, 0x6D, 0x64] 0, plain_file [0x61, 0x2E, 0x6D, 0x64] 0,
          plain_file [0x62, 0x2E, 0x74, 0x78, 0x74] 0], cwd := [] }).items
      = [plain_file [0x61, 0x2E, 0x6D, 0x64] 0, plain_file [0x7A, 0x2E, 0x6D, 0x64] 0,
          plain_file [0x62, 0x2E, 0x74, 0x78, 0x74] 0]
    ∧ (sort_list { sort_by_ext := true }
      { items := [plain_file [0x7A, 0x2E, 0x6D, 0x64] 0, plain_file [0x61, 0x2E, 0x6D, 0x64] 0,
          plain_file [0x62, 0x2E, 0x74, 0x78, 0x74] 0], cwd := [] }).items.Pairwise
        ext_name_le :=
  ⟨by decide,
    (sort_by_ext_order { sort_by_ext := true }
      { items := [plain_file [0x7A, 0x2E, 0x6D, 0x64] 0, plain_file [0x61, 0x2E, 0x6D, 0x64] 0,
          plain_file [0x62, 0x2E, 0x74, 0x78, 0x74] 0], cwd := [] } rfl rfl rfl).2.1⟩

/-- C9 as stated fails for time mode: two entries `a` and `b` with the same
modification time compare as 0 although their names differ, and both
arrangements of the two are results `qsort` may return. -/
theorem time_ties_are_not_broken_by_name :
    compare_by_time { sort_by_time := true } (plain_file [0x61] 7) (plain_file [0x62] 7) = 0
    ∧ active_compare { sort_by_time := true } (plain_file [0x61] 7) (plain_file [0x62] 7) = 0
    ∧ cstr (plain_file [0x61] 7).name ≠ cstr (plain_file [0x62] 7).name
    ∧ qsort_result (active_compare { sort_by_time := true })
        [plain_file [0x61] 7, plain_file [0x62] 7] [plain_file [0x61] 7, plain_file [0x62] 7]
    ∧ qsort_result (active_compare { sort_by_time := true })
        [plain_file [0x61] 7, plain_file [0x62] 7] [plain_file [0x62] 7, plain_file [0x61] 7] := by
  unfold qsort_result
  decide

/-- C9, amended: in by-extension mode two entries that tie on the extension
are ordered by the byte-wise comparison of their names, the active comparator
returns 0 only for entries with equal names, and the sorted order of a snapshot
with pairwise distinct names is uniquely determined.  In by-time mode the
comparator returns 0 exactly for entries with equal modification times,
whatever their names. -/
theorem ext_ties_fall_back_to_name (o : Options) (l : FileList)
    (ht : o.sort_by_time = false) (hx : o.sort_by_ext = true)
    (hd : (l.items.map (fun f => cstr f.name)).Nodup) :
    (∀ a b, ext_of a.name = ext_of b.name →
        active_compare o a b
          = if o.reverse then - strcmp a.name b.name else strcmp a.name b.name)
    ∧ (∀ a b, active_compare o a b = 0 ↔ cstr a.name = cstr b.name)
    ∧ (∀ out, qsort_result (active_compare o) l.items out → out = (sort_list o l).items)
    ∧ (∀ (o2 : Options) a b, compare_by_time o2 a b = 0 ↔ a.mtime = b.mtime) := by
  have ea : active_compare o = compare_by_ext o := by
    simp [active_compare, ht, hx]
  have e : (sort_list o l).items = qsort (compare_by_ext o) l.items := by
    simp [sort_list, ht, hx]
  rw [ea, e]
  refine ⟨?_, compare_by_ext_eq_zero o, ?_, ?_⟩
  · intro a b hab
    have h0 : strcmp (ext_of a.name) (ext_of b.name) = 0 := (strcmp_ext_eq_zero _ _).mpr hab
    simp [compare_by_ext, h0]
  · intro out h
    exact qsort_result_unique (compare_by_ext o) l.items hd (compare_by_ext_anti o) _ _ h
      (qsort_is_result _ (compare_by_ext_total o) (compare_by_ext_trans o) l.items)
  · intro o2 a b
    unfold compare_by_time
    rcases lt_trichotomy a.mtime b.mtime with h | h | h
    · have : a.mtime ≠ b.mtime := ne_of_lt h
      cases o2.reverse <;> simp [h, this]
    · simp [h]
    · have h2 : ¬ a.mtime < b.mtime := not_lt.mpr (le_of_lt h)
      have : a.mtime ≠ b.mtime := ne_of_gt h
      cases o2.reverse <;> simp [h, h2, this]

theorem ext_ties_fall_back_to_name_witness :
    (([plain_file [0x7A, 0x2E, 0x63] 1, plain_file [0x61, 0x2E, 0x63] 2].map
      (fun f => cstr f.name)).Nodup)
    ∧ active_compare { sort_by_ext := true } (plain_file [0x7A, 0x2E, 0x63] 1)
        (plain_file [0x61, 0x2E, 0x63] 2) = 1
    ∧ (∀ out, qsort_result (active_compare { sort_by_ext := true })
        [plain_file [0x7A, 0x2E, 0x63] 1, plain_file [0x61, 0x2E, 0x63] 2] out →
        out = (sort_list { sort_by_ext := true }
          { items := [plain_file [0x7A, 0x2E, 0x63] 1, plain_file [0x61, 0x2E, 0x63] 2],
            cwd := [] }).items) :=
  ⟨by decide, by decide,
    (ext_ties_fall_back_to_name { sort_by_ext := true }
      { items := [plain_file [0x7A, 0x2E, 0x63] 1, plain_file [0x61, 0x2E, 0x63] 2],
        cwd := [] } rfl rfl (by decide)).2.2.1⟩

/-! ### Inline expansion -/

/-- The loop over the children returns when every recursive call does, and
its rows are the children's rows at `level` and the rows of the calls. -/
theorem emit_loop_returns (recurse : List Nat → Option (List Row)) (level : Int)
    (count : Nat) (P : Row → Prop) (hP : ∀ r : Row, r.level = level → P r)
    (hrec : ∀ p, ∃ rows, recurse p = some rows ∧ ∀ r ∈ rows, P r) :
    ∀ (items : List FileItem) (i : Nat),
      ∃ rows, emit_loop recurse level count i items = some rows ∧ ∀ r ∈ rows, P r := by
  intro items
  induction items with
  | nil => intro i; exact ⟨[], rfl, by simp⟩
  | cons child rest ih =>
    intro i
    obtain ⟨after, hafter, hPafter⟩ := ih (i + 1)
    unfold emit_loop
    split_ifs with hdot hdir
    · exact ⟨after, hafter, hPafter⟩
    · obtain ⟨below, hbelow, hPbelow⟩ := hrec child.full_path
      refine ⟨Row.mk level (decide ((i : Int) = (count : Int) - 1)) child :: (below ++ after),
        by simp [hbelow, hafter], ?_⟩
      intro r hr
      rcases List.mem_cons.mp hr with h | h
      · exact hP r (by rw [h])
      · rcases List.mem_append.mp h with h | h
        · exact hPbelow r h
        · exact hPafter r h
    · refine ⟨Row.mk level (decide ((i : Int) = (count : Int) - 1)) child :: ([] ++ after),
        by simp [hafter], ?_⟩
      intro r hr
      rcases List.mem_cons.mp hr with h | h
      · exact hP r (by rw [h])
      · exact hPafter r (by simpa using h)

/-- The loop gives the same rows with any recursive call that returns
whenever `recurse` does, with the same rows. -/
theorem emit_loop_mono (rec1 rec2 : List Nat → Option (List Row)) (level : Int) (count : Nat)
    (h : ∀ p rows, rec1 p = some rows → rec2 p = some rows) :
    ∀ (items : List FileItem) (i : Nat) (rows : List Row),
      emit_loop rec1 level count i items = some rows →
      emit_loop rec2 level count i items = some rows := by
  intro items
  induction items with
  | nil => intro i rows hr; simpa [emit_loop] using hr
  | cons child rest ih =>
    intro i rows hr
    unfold emit_loop at hr ⊢
    split_ifs at hr ⊢ with hdot hdir
    · exact ih (i + 1) rows hr
    · cases h1 : rec1 child.full_path with
      | none => simp [h1] at hr
      | some below =>
        cases h2 : emit_loop rec1 level count (i + 1) rest with
        | none => simp [h1, h2] at hr
        | some after =>
          simp only [h1, h2] at hr
          simp only [h _ _ h1, ih (i + 1) after h2]
          exact hr
    · cases h2 : emit_loop rec1 level count (i + 1) rest with
      | none => simp [h2] at hr
      | some after =>
        simp only [h2] at hr
        simp only [ih (i + 1) after h2]
        exact hr

/-- More fuel does not change the rows of a call that has returned. -/
theorem emit_fuel_mono (fs : FileSystem) (o : Options) :
    ∀ (fuel : Nat) (dir_path : List Nat) (level : Int) (rows : List Row),
      emit_fuel fs o fuel dir_path level = some rows →
      emit_fuel fs o (fuel + 1) dir_path level = some rows := by
  intro fuel
  induction fuel with
  | zero => intro p l rows h; simp [emit_fuel] at h
  | succ fuel ih =>
    intro p l rows h
    unfold emit_fuel at h ⊢
    split_ifs at h ⊢ with h1 h2
    · exact h
    · exact h
    · cases hl : load_directory fs o p with
      | none => simpa [hl] using h
      | some list =>
        simp only [hl] at h ⊢
        exact emit_loop_mono _ _ l _ (fun q rs hq => ih q (l + 1) rs hq) _ 0 rows h

theorem emit_fuel_mono_add (fs : FileSystem) (o : Options) (fuel : Nat) (dir_path : List Nat)
    (level : Int) (rows : List Row) (h : emit_fuel fs o fuel dir_path level = some rows) :
    ∀ extra, emit_fuel fs o (fuel + extra) dir_path level = some rows := by
  intro extra
  induction extra with
  | zero => exact h
  | succ n ih => exact emit_fuel_mono fs o (fuel + n) dir_path level rows ih

/-- With fuel for the levels from `level` to `opts.depth + 1` the call
returns, and its rows lie on the levels from `level` to `opts.depth`. -/
theorem emit_fuel_returns (fs : FileSystem) (o : Options) :
    ∀ (fuel : Nat) (dir_path : List Nat) (level : Int),
      (o.depth + 1 - level).toNat + 1 ≤ fuel →
      ∃ rows, emit_fuel fs o fuel dir_path level = some rows ∧
        ∀ r ∈ rows, level ≤ r.level ∧ r.level ≤ o.depth := by
  intro fuel
  induction fuel with
  | zero => intro p l h; omega
  | succ fuel ih =>
    intro p l h
    unfold emit_fuel
    split_ifs with h1 h2
    · exact ⟨[], rfl, by simp⟩
    · exact ⟨[], rfl, by simp⟩
    · cases hl : load_directory fs o p with
      | none => exact ⟨[], rfl, by simp⟩
      | some list =>
        simp only
        have hfuel : (o.depth + 1 - (l + 1)).toNat + 1 ≤ fuel := by omega
        exact emit_loop_returns _ l _ (fun r => l ≤ r.level ∧ r.level ≤ o.depth)
          (fun r hr => by constructor <;> omega)
          (fun q => by
            obtain ⟨rows, hrows, hP⟩ := ih q (l + 1) hfuel
            exact ⟨rows, hrows, fun r hr => ⟨by have := (hP r hr).1; omega, (hP r hr).2⟩⟩)
          _ 0

/-- C10: on every file system (a tree or not), for every starting level and
every configured depth, `emit_directory_children_inline` returns: the calls
nest to `opts.depth + 1` at most, and further fuel leaves the rows as they
are.  Every row it emits is on a nesting level between the starting level and
`opts.depth`, and with depth 0 (or a starting level beyond the depth) it emits
no row. -/
theorem emit_directory_children_inline_bounded (fs : FileSystem) (o : Options)
    (dir_path : List Nat) (level : Int) :
    ∃ rows, emit_directory_children_inline fs o dir_path level = some rows
      ∧ (∀ extra, emit_fuel fs o ((o.depth + 1 - level).toNat + 1 + extra) dir_path level
          = some rows)
      ∧ (∀ r ∈ rows, level ≤ r.level ∧ r.level ≤ o.depth)
      ∧ (o.depth = 0 → rows = [])
      ∧ (o.depth < level → rows = []) := by
  obtain ⟨rows, hrows, hP⟩ := emit_fuel_returns fs o _ dir_path level (le_refl _)
  refine ⟨rows, hrows, emit_fuel_mono_add fs o _ dir_path level rows hrows, hP, ?_, ?_⟩
  · intro hd
    have : emit_fuel fs o ((o.depth + 1 - level).toNat + 1) dir_path level = some [] := by
      simp [emit_fuel, hd]
    rw [this] at hrows
    exact (Option.some.inj hrows).symm
  · intro hd
    have : emit_fuel fs o ((o.depth + 1 - level).toNat + 1) dir_path level = some [] := by
      simp only [emit_fuel]
      split_ifs <;> rfl
    rw [this] at hrows
    exact (Option.some.inj hrows).symm

/-- On a directory that contains itself the expansion stops at the depth: with
depth 2 the rows are the two children on level 1 and, below the directory, the
same two on level 2. -/
theorem emit_on_loop_fs :
    (emit_directory_children_inline loop_fs { depth := 2 } [0x64] 1).map
        (fun rows => rows.map (fun r => (r.level, r.is_last, r.child.name)))
      = some [(1, false, [0x64]), (2, false, [0x64]), (2, true, [0x66]), (1, true, [0x66])]
    ∧ emit_directory_children_inline loop_fs { depth := 0 } [0x64] 1 = some [] := by
  decide

/-! ### Indentation -/

theorem indent_fill_full (g_use_utf8 : Bool) (outsz : Nat) :
    ∀ (n used : Nat) (out : List Nat), out.length = used → used + 2 * n + 1 < outsz ∨ n = 0 →
      indent_fill g_use_utf8 outsz n used out
        = (used + 2 * n, out ++ (List.replicate n (indent_seg g_use_utf8)).flatten) := by
  intro n
  induction n with
  | zero => intro used out _ _; simp [indent_fill]
  | succ n ih =>
    intro used out hlen hfit
    have hseg : strlen (indent_seg g_use_utf8) = 2 := by cases g_use_utf8 <;> decide
    have hcs : cstr (indent_seg g_use_utf8) = indent_seg g_use_utf8 := by
      cases g_use_utf8 <;> decide
    have hfit2 : used + 2 * (n + 1) + 1 < outsz := by
      rcases hfit with h | h
      · exact h
      · omega
    have hno : ¬ (used + 2 + 1 ≥ outsz) := by omega
    simp only [indent_fill, hseg, hno, if_false, hcs]
    have htake : out.take used = out := by rw [← hlen]; exact List.take_length out
    rw [htake, ih (used + 2) (out ++ indent_seg g_use_utf8)
      (by rw [List.length_append, hlen]; cases g_use_utf8 <;> simp [indent_seg])
      (Or.inl (by omega))]
    simp [List.replicate_succ]
    omega

set_option maxRecDepth 8000 in
/-- C11 as stated fails: at level 124 in the UTF-8 glyph set the 256-byte
buffer takes the 123 fillers (246 bytes) and the 9-byte branch marker no longer
passes the guard `used + blen + 1 < outsz`: the prefix is 246 spaces with no
marker at all. -/
theorem make_indent_prefix_drops_marker_at_124 :
    ( make_indent_prefix true 256 124 true) = List.replicate 246 0x20
    ∧ ( make_indent_prefix true 256 124 true)
        ≠ (List.replicate 123 (indent_seg true)).flatten ++ indent_branch true true := by
  decide

/-- C11, amended: for every level from 1 to 123 in the UTF-8 glyph set, and
from 1 to 125 in the ASCII glyph set, and either value of `is_last`, the prefix
that `make_indent_prefix` writes into the caller's 256-byte buffer is exactly
`level - 1` copies of the two-space filler followed by the branch marker, the
closing marker when `is_last` is set and the continuing marker otherwise. -/
theorem make_indent_prefix_shape (g_use_utf8 is_last : Bool) (level : Int) (h1 : 1 ≤ level)
    (h2 : level ≤ (if g_use_utf8 then 123 else 125)) :
    ( make_indent_prefix g_use_utf8 256 level is_last)
      = (List.replicate (level - 1).toNat (indent_seg g_use_utf8)).flatten
          ++ indent_branch g_use_utf8 is_last := by
  have hlev : ¬ level ≤ 0 := by omega
  have hblen : strlen (indent_branch g_use_utf8 is_last) = if g_use_utf8 then 9 else 5 := by
    cases g_use_utf8 <;> cases is_last <;> decide
  have hcs : cstr (indent_branch g_use_utf8 is_last) = indent_branch g_use_utf8 is_last := by
    cases g_use_utf8 <;> cases is_last <;> decide
  have hn : ((level - 1).toNat : Int) = level - 1 := Int.toNat_of_nonneg (by omega)
  have hfill := indent_fill_full g_use_utf8 256 (level - 1).toNat 0 [] rfl
    (Or.inl (by cases g_use_utf8 <;> simp at h2 <;> omega))
  have hlen : ((List.replicate (level - 1).toNat (indent_seg g_use_utf8)).flatten).length
      = 0 + 2 * (level - 1).toNat := by
    cases g_use_utf8 <;> simp [indent_seg, List.length_flatten] <;> ring
  have hfit : 0 + 2 * (level - 1).toNat + strlen (indent_branch g_use_utf8 is_last) + 1 < 256 := by
    rw [hblen]
    cases g_use_utf8 <;> simp at h2 ⊢ <;> omega
  simp only [ make_indent_prefix, hlev, if_false, hfill, List.nil_append, hfit, if_true, hcs]
  rw [← hlen, List.take_length]

theorem make_indent_prefix_shape_witness :
    (1 : Int) ≤ 3 ∧ (3 : Int) ≤ (if true then 123 else 125)
    ∧ ( make_indent_prefix true 256 3 false)
        = [0x20, 0x20, 0x20, 0x20, 0x20, 0x20, 0xE2, 0x94, 0x9C, 0xE2, 0x94, 0x80, 0x20] :=
  ⟨by decide, by decide, make_indent_prefix_shape true false 3 (by decide) (by decide)⟩

/-! ### The last row of a level -/

/-- C15, the code at a failing input: the directory `d` holds `.`, `..` and the
file `a`; with show-hidden, reverse name order and depth 1 the sorted snapshot is
`a`, `..`, `.`, the only row emitted is the one of `a`, at index 0 of 3, and it
carries `is_last = false`, the continuing marker, not the closing one.
Without the reverse option the same row is at index 2 and carries the closing
marker. -/
theorem last_row_keeps_continuing_marker :
    (sort_list { depth := 1, show_hidden := true, reverse := true }
        { items := load_entries dots_fs { depth := 1, show_hidden := true, reverse := true }
            [0x64] [[0x2E], [0x2E, 0x2E], [0x61]] 0, cwd := [] }).items.map (fun f => f.name)
      = [[0x61], [0x2E, 0x2E], [0x2E]]
    ∧ (emit_directory_children_inline dots_fs
          { depth := 1, show_hidden := true, reverse := true } [0x64] 1).map
        (fun rows => rows.map (fun r => (r.level, r.is_last, r.child.name)))
      = some [(1, false, [0x61])]
    ∧ ( make_indent_prefix true 256 1 false) = indent_branch true false
    ∧ (emit_directory_children_inline dots_fs
          { depth := 1, show_hidden := true } [0x64] 1).map
        (fun rows => rows.map (fun r => (r.level, r.is_last, r.child.name)))
      = some [(1, true, [0x61])] := by
  decide

/-! ### The long format -/

theorem snprintf_eq (size : Nat) (text : List Nat) (h : text.length < size) :
    snprintf size text = text := by
  unfold snprintf
  exact List.take_of_length_le (by omega)

theorem snprintf_length_le (size : Nat) (text : List Nat) :
    (snprintf size text).length ≤ size - 1 := by
  unfold snprintf
  simp

theorem foldl_row_cat : ∀ (pieces : List (List Nat)) (row : List Nat),
    row.length + (pieces.map List.length).sum ≤ 8191 →
    pieces.foldl row_cat row = row ++ pieces.flatten := by
  intro pieces
  induction pieces with
  | nil => intro row _; simp
  | cons p ps ih =>
    intro row h
    simp only [List.map_cons, List.sum_cons] at h
    have e : row_cat row p = row ++ p := by
      unfold row_cat strncat
      rw [List.take_of_length_le (by omega)]
    simp only [List.foldl_cons, e]
    rw [ih (row ++ p) (by rw [List.length_append]; omega)]
    simp

theorem sum_length_le (pieces : List (List Nat)) (B : Nat)
    (h : ∀ p ∈ pieces, p.length ≤ B) : (pieces.map List.length).sum ≤ B * pieces.length := by
  induction pieces with
  | nil => simp
  | cons p ps ih =>
    have h1 := h p (by simp)
    have h2 := ih (fun q hq => h q (List.mem_cons_of_mem _ hq))
    simp only [List.map_cons, List.sum_cons, List.length_cons]
    rw [Nat.mul_succ]
    omega

/-- The fields of the long row are the appended strings, one after the other:
the 8192-byte `row` never cuts one short. -/
theorem long_row_fields_eq (env : Env) (o : Options) (item : FileItem) (pfx : List Nat) :
    long_row_fields env o item pfx
      = (long_field_pieces env o item).foldl row_cat (row_start pfx) := by
  unfold long_row_fields long_field_pieces
  cases o.show_inode <;> cases o.numeric_ids <;> cases o.omit_group <;>
    simp [List.range, List.range.loop, List.foldl]

theorem adds_columns_nil (L : Locale) : adds_columns L [] 0 := by
  intro rest c; simp

theorem adds_columns_append (L : Locale) (a b : List Nat) (wa wb : Int)
    (ha : adds_columns L a wa) (hb : adds_columns L b wb) : adds_columns L (a ++ b) (wa + wb) := by
  intro rest c
  rw [List.append_assoc, ha, hb, add_assoc]

theorem adds_columns_total (L : Locale) (s : List Nat) (w : Int) (h : adds_columns L s w) :
    visible_len_ansi L s = w := by
  have := h [] 0
  rw [List.append_nil, visible_len_from_nil, zero_add] at this
  exact this

theorem adds_columns_printable (L : Locale) (hL : L.single_width) (s : List Nat)
    (hs : ∀ b ∈ s, printable b) : adds_columns L s s.length := by
  induction s with
  | nil => exact adds_columns_nil L
  | cons b rest ih =>
    intro tl c
    have hb := hs b (by simp)
    rw [List.cons_append, visible_len_from_ascii L hL b _ c hb.1 hb.2,
      ih (fun x hx => hs x (List.mem_cons_of_mem _ hx))]
    simp only [List.length_cons]
    push_cast
    ring_nf

theorem adds_columns_csi (L : Locale) (params : List Nat) (fin : Nat)
    (hp : ∀ b ∈ params, b ≠ 0 ∧ is_final b = false) (hfin : is_final fin = true) :
    adds_columns L (0x1B :: 0x5B :: (params ++ [fin])) 0 := by
  intro rest c
  have := visible_len_from_csi L params fin rest c hp hfin
  simpa using this

/-- The colour codes the row formatters use add no column. -/
theorem adds_columns_color (L : Locale) (col : List Nat)
    (h : col ∈ [COLOR_RESET, COLOR_CYAN, COLOR_GREEN, COLOR_YELLOW, COLOR_MAGENTA, COLOR_RED,
      COLOR_GRAY, COLOR_DIM, COLOR_BOLD, COLOR_WHITE, COLOR_CYAN ++ COLOR_BOLD,
      COLOR_MAGENTA ++ COLOR_BOLD, COLOR_GREEN ++ COLOR_BOLD, COLOR_DIM ++ COLOR_MAGENTA,
      COLOR_DIM ++ COLOR_GRAY, COLOR_RED ++ COLOR_BOLD, COLOR_YELLOW ++ COLOR_BOLD]) :
    adds_columns L col 0 ∧ col.length ≤ 10 := by
  have single : ∀ p : List Nat, (∀ b ∈ p, b ≠ 0 ∧ is_final b = false) →
      adds_columns L (0x1B :: 0x5B :: (p ++ [0x6D])) 0 :=
    fun p hp => adds_columns_csi L p 0x6D hp (by decide)
  have two : ∀ a b : List Nat, adds_columns L a 0 → adds_columns L b 0 →
      adds_columns L (a ++ b) 0 := fun a b ha hb => by
    simpa using adds_columns_append L a b 0 0 ha hb
  have r := single [0x30] (by decide)
  have cy := single [0x33, 0x36] (by decide)
  have gr := single [0x33, 0x32] (by decide)
  have ye := single [0x33, 0x33] (by decide)
  have ma := single [0x33, 0x35] (by decide)
  have re := single [0x33, 0x31] (by decide)
  have ga := single [0x33, 0x37] (by decide)
  have di := single [0x32] (by decide)
  have bo := single [0x31] (by decide)
  have wh := single [0x39, 0x37] (by decide)
  simp only [List.mem_cons, List.mem_singleton, List.mem_nil_iff, or_false] at h
  rcases h with rfl | rfl | rfl | rfl | rfl | rfl | rfl | rfl | rfl | rfl | rfl | rfl | rfl
    | rfl | rfl | rfl | rfl
  · exact ⟨r, by decide⟩
  · exact ⟨cy, by decide⟩
  · exact ⟨gr, by decide⟩
  · exact ⟨ye, by decide⟩
  · exact ⟨ma, by decide⟩
  · exact ⟨re, by decide⟩
  · exact ⟨ga, by decide⟩
  · exact ⟨di, by decide⟩
  · exact ⟨bo, by decide⟩
  · exact ⟨wh, by decide⟩
  · exact ⟨two _ _ cy bo, by decide⟩
  · exact ⟨two _ _ ma bo, by decide⟩
  · exact ⟨two _ _ gr bo, by decide⟩
  · exact ⟨two _ _ di ma, by decide⟩
  · exact ⟨two _ _ di ga, by decide⟩
  · exact ⟨two _ _ re bo, by decide⟩
  · exact ⟨two _ _ ye bo, by decide⟩

/-- A cell `colour text reset blanks` adds the length of the text and of the
blanks, when the text is printable ASCII. -/
theorem cell_adds (L : Locale) (hL : L.single_width) (col s sp : List Nat)
    (hcol : adds_columns L col 0) (hs : ∀ b ∈ s, printable b) (hsp : ∀ b ∈ sp, printable b) :
    adds_columns L (col ++ s ++ COLOR_RESET ++ sp) ((s.length : Int) + sp.length) := by
  have h1 := adds_columns_append L _ _ _ _ hcol (adds_columns_printable L hL s hs)
  have h2 := adds_columns_append L _ _ _ _ h1 (adds_columns_color L COLOR_RESET (by simp)).1
  have h3 := adds_columns_append L _ _ _ _ h2 (adds_columns_printable L hL sp hsp)
  simpa using h3

/-- The same cell written through `snprintf` into a buffer of at least 32
bytes. -/
theorem cell_snprintf_adds (L : Locale) (hL : L.single_width) (size : Nat) (col s sp : List Nat)
    (hcol : adds_columns L col 0) (hcl : col.length ≤ 10) (hs : ∀ b ∈ s, printable b)
    (hsp : ∀ b ∈ sp, printable b) (hlen : s.length + sp.length ≤ 16) (hsize : 32 ≤ size) :
    adds_columns L (snprintf size (col ++ s ++ COLOR_RESET ++ sp))
      ((s.length : Int) + sp.length) := by
  rw [snprintf_eq]
  · exact cell_adds L hL col s sp hcol hs hsp
  · simp only [List.length_append]
    have : COLOR_RESET.length = 4 := rfl
    omega

theorem dec_loop_digits : ∀ (fuel n : Nat) (acc : List Nat),
    (∀ b ∈ acc, 0x30 ≤ b ∧ b ≤ 0x39) → ∀ b ∈ dec_loop fuel n acc, 0x30 ≤ b ∧ b ≤ 0x39 := by
  intro fuel
  induction fuel with
  | zero => intro n acc h; simpa [dec_loop] using h
  | succ fuel ih =>
    intro n acc h
    unfold dec_loop
    split_ifs with hn
    · intro b hb
      rcases List.mem_cons.mp hb with e | e
      · omega
      · exact h b e
    · apply ih
      intro b hb
      rcases List.mem_cons.mp hb with e | e
      · omega
      · exact h b e

theorem dec_loop_length : ∀ (fuel n k : Nat) (acc : List Nat), 1 ≤ k → n < 10 ^ k →
    (dec_loop fuel n acc).length ≤ acc.length + k := by
  intro fuel
  induction fuel with
  | zero => intro n k acc _ _; simp [dec_loop]
  | succ fuel ih =>
    intro n k acc hk hn
    unfold dec_loop
    split_ifs with h10
    · simp only [List.length_cons]; omega
    · obtain ⟨j, rfl⟩ : ∃ j, k = j + 1 := ⟨k - 1, by omega⟩
      have hj : 1 ≤ j := by
        rcases Nat.eq_zero_or_pos j with h0 | h0
        · subst h0; simp at hn; omega
        · exact h0
      have hdiv : n / 10 < 10 ^ j := by
        rw [Nat.div_lt_iff_lt_mul (by decide)]
        rw [pow_succ] at hn
        exact hn
      have := ih (n / 10) j ((0x30 + n % 10) :: acc) hj hdiv
      simp only [List.length_cons] at this
      omega

/-- With `n + 1` as fuel the loop reaches the last digit: the digits printed
read back as `n`. -/
theorem dec_loop_value : ∀ (fuel n : Nat) (acc : List Nat), n < fuel →
    ∃ ds, dec_loop fuel n acc = ds ++ acc ∧ ds.foldl (fun a b => 10 * a + (b - 0x30)) 0 = n := by
  intro fuel
  induction fuel with
  | zero => intro n acc h; omega
  | succ fuel ih =>
    intro n acc h
    unfold dec_loop
    split_ifs with h10
    · exact ⟨[0x30 + n], rfl, by simp⟩
    · obtain ⟨ds, hds, hv⟩ := ih (n / 10) ((0x30 + n % 10) :: acc) (by omega)
      refine ⟨ds ++ [0x30 + n % 10], by rw [hds]; simp, ?_⟩
      rw [List.foldl_append, hv]
      simp
      omega

theorem fmt_u_value (n : Nat) :
    (fmt_u n).foldl (fun a b => 10 * a + (b - 0x30)) 0 = n := by
  obtain ⟨ds, hds, hv⟩ := dec_loop_value (n + 1) n [] (Nat.lt_succ_self n)
  unfold fmt_u
  rw [hds, List.append_nil, hv]

theorem fmt_u_printable (n : Nat) : ∀ b ∈ fmt_u n, printable b := by
  intro b hb
  have := dec_loop_digits (n + 1) n [] (by simp) b hb
  unfold printable
  omega

theorem fmt_u_length (n k : Nat) (hk : 1 ≤ k) (hn : n < 10 ^ k) : (fmt_u n).length ≤ k := by
  have := dec_loop_length (n + 1) n k [] hk hn
  simpa [fmt_u] using this

theorem pad_right_printable (w : Nat) (s : List Nat) (hs : ∀ b ∈ s, printable b) :
    ∀ b ∈ pad_right w s, printable b := by
  intro b hb
  unfold pad_right at hb
  rcases List.mem_append.mp hb with h | h
  · exact hs b h
  · rw [List.mem_replicate] at h
    rw [h.2]; unfold printable; omega

theorem pad_right_length (w : Nat) (s : List Nat) (hs : s.length ≤ w) :
    (pad_right w s).length = w := by
  unfold pad_right
  simp
  omega

theorem pad_left_printable (w : Nat) (s : List Nat) (hs : ∀ b ∈ s, printable b) :
    ∀ b ∈ pad_left w s, printable b := by
  intro b hb
  unfold pad_left at hb
  rcases List.mem_append.mp hb with h | h
  · rw [List.mem_replicate] at h
    rw [h.2]; unfold printable; omega
  · exact hs b h

theorem pad_left_length (w : Nat) (s : List Nat) (hs : s.length ≤ w) :
    (pad_left w s).length = w := by
  unfold pad_left
  simp
  omega

theorem take_printable (n : Nat) (s : List Nat) (hs : ∀ b ∈ s, printable b) :
    ∀ b ∈ s.take n, printable b :=
  fun b hb => hs b (List.mem_of_mem_take hb)

theorem owner_text_fits (env : Env) (uid : Nat)
    (h : ∀ pw_name, env.getpwuid uid = some pw_name → ∀ b ∈ (cstr pw_name).take 8, printable b) :
    (owner_text env uid).length ≤ 8 ∧ ∀ b ∈ owner_text env uid, printable b := by
  unfold owner_text
  cases hp : env.getpwuid uid with
  | none =>
    refine ⟨by simpa using snprintf_length_le 9 (fmt_u uid), ?_⟩
    exact take_printable _ _ (fmt_u_printable uid)
  | some pw_name =>
    refine ⟨by simpa using snprintf_length_le 9 ((cstr pw_name).take 8), ?_⟩
    exact take_printable _ _ (h pw_name hp)

theorem group_text_fits (env : Env) (gid : Nat)
    (h : ∀ gr_name, env.getgrgid gid = some gr_name → ∀ b ∈ (cstr gr_name).take 8, printable b) :
    (group_text env gid).length ≤ 8 ∧ ∀ b ∈ group_text env gid, printable b := by
  unfold group_text
  cases hp : env.getgrgid gid with
  | none =>
    refine ⟨by simpa using snprintf_length_le 9 (fmt_u gid), ?_⟩
    exact take_printable _ _ (fmt_u_printable gid)
  | some gr_name =>
    refine ⟨by simpa using snprintf_length_le 9 ((cstr gr_name).take 8), ?_⟩
    exact take_printable _ _ (h gr_name hp)

theorem format_time_fits (env : Env) (t : Int)
    (h : ∀ text, env.strftime t = some text →
      (cstr text).length ≤ 12 ∧ ∀ b ∈ cstr text, printable b) :
    (format_time env t 32).length ≤ 12 ∧ ∀ b ∈ format_time env t 32, printable b := by
  unfold format_time
  cases hp : env.strftime t with
  | none => exact ⟨by decide, by unfold printable; decide⟩
  | some text =>
    have := h text hp
    refine ⟨?_, take_printable _ _ this.2⟩
    simp only [List.length_take]
    omega

theorem fmt_f1_fits (dp : List Nat) (num den : Nat) (hq : num * 10 / den < 10 ^ 8 - 1)
    (hdl : (cstr dp).length ≤ 1) (hdp : ∀ b ∈ cstr dp, printable b) :
    (fmt_f1 dp num den).length ≤ 9 ∧ ∀ b ∈ fmt_f1 dp num den, printable b := by
  unfold fmt_f1
  simp only
  generalize ht : (if 2 * (num * 10 % den) > den then num * 10 / den + 1
    else if 2 * (num * 10 % den) = den ∧ num * 10 / den % 2 = 1 then num * 10 / den + 1
    else num * 10 / den) = t
  have hle : t < 10 ^ 8 := by
    rw [← ht]
    split_ifs <;> omega
  have hl := fmt_u_length (t / 10) 7 (by decide) (by omega)
  constructor
  · simp only [List.length_append, List.length_cons, List.length_nil]
    omega
  · intro b hb
    rcases List.mem_append.mp hb with h | h
    · rcases List.mem_append.mp h with h | h
      · exact fmt_u_printable _ b h
      · exact hdp b h
    · simp only [List.mem_singleton] at h
      unfold printable
      omega

theorem format_size_fits (o : Options) (dp : List Nat) (size : Int) (h0 : 0 ≤ size)
    (h : if o.human_readable then
        size < 2 ^ 53 ∧ (cstr dp).length ≤ 1 ∧ ∀ b ∈ cstr dp, printable b
      else size < 10 ^ 10) :
    (format_size o dp size 32).length ≤ 10 ∧
      ∀ b ∈ format_size o dp size 32, printable b := by
  have hnat : ((size.toNat : Nat) : Int) = size := Int.toNat_of_nonneg h0
  have hd : fmt_d size = fmt_u size.toNat := by
    unfold fmt_d
    rw [if_neg (by omega)]
  have letter : ∀ (s : List Nat) (c : Nat), s.length ≤ 9 → (∀ b ∈ s, printable b) →
      printable c → (snprintf 32 (s ++ [c])).length ≤ 10 ∧
        ∀ b ∈ snprintf 32 (s ++ [c]), printable b := by
    intro s c hs hp hc
    rw [snprintf_eq _ _ (by simp; omega)]
    refine ⟨by simp; omega, ?_⟩
    intro b hb
    rcases List.mem_append.mp hb with e | e
    · exact hp b e
    · simp only [List.mem_singleton] at e; rw [e]; exact hc
  unfold format_size
  cases hh : o.human_readable
  · simp only [hh, Bool.false_eq_true, if_false] at h ⊢
    have hl := fmt_u_length size.toNat 10 (by decide) (by omega)
    rw [hd, snprintf_eq _ _ (by omega)]
    exact ⟨hl, fmt_u_printable _⟩
  · simp only [hh, if_true] at h ⊢
    split_ifs with h1 h2 h3
    · rw [hd]
      exact letter _ 0x42 (by have := fmt_u_length size.toNat 4 (by decide) (by omega); omega)
        (fmt_u_printable _) (by unfold printable; omega)
    · have := fmt_f1_fits dp size.toNat 1024 (by omega) h.2.1 h.2.2
      exact letter _ 0x4B this.1 this.2 (by unfold printable; omega)
    · have := fmt_f1_fits dp size.toNat (1024 * 1024) (by omega) h.2.1 h.2.2
      exact letter _ 0x4D this.1 this.2 (by unfold printable; omega)
    · have := fmt_f1_fits dp size.toNat (1024 * 1024 * 1024) (by omega) h.2.1 h.2.2
      exact letter _ 0x47 this.1 this.2 (by unfold printable; omega)

theorem perm_type_adds (L : Locale) (hL : L.single_width) (mode : Nat) :
    adds_columns L (perm_type mode) 1 := by
  unfold perm_type
  simp only
  have key : ∀ (col : List Nat) (t : Nat), adds_columns L col 0 → col.length ≤ 10 →
      printable t → adds_columns L (snprintf 128 (col ++ [t] ++ COLOR_RESET)) 1 := by
    intro col t hc hl ht
    have := cell_snprintf_adds L hL 128 col [t] [] hc hl
      (by intro b hb; simp at hb; rw [hb]; exact ht) (by simp) (by simp) (by omega)
    simpa using this
  split_ifs
  · exact key _ _ (adds_columns_color L _ (by simp)).1 (by decide) (by unfold printable; omega)
  · exact key _ _ (adds_columns_color L _ (by simp)).1 (by decide) (by unfold printable; omega)
  · exact key _ _ (adds_columns_color L _ (by simp)).1 (by decide) (by unfold printable; omega)

theorem perm_one_adds (L : Locale) (hL : L.single_width) (mode i : Nat) :
    adds_columns L (perm_one mode i) 1 := by
  unfold perm_one
  simp only
  have key : ∀ (col : List Nat) (t : Nat), adds_columns L col 0 → col.length ≤ 10 →
      printable t → adds_columns L (snprintf 32 (col ++ [t] ++ COLOR_RESET)) 1 := by
    intro col t hc hl ht
    have := cell_snprintf_adds L hL 32 col [t] [] hc hl
      (by intro b hb; simp at hb; rw [hb]; exact ht) (by simp) (by simp) (by omega)
    simpa using this
  generalize hch : (if mode &&& perm_bits.getD i 0 ≠ 0 then
      (if i % 3 = 0 then 0x72 else if i % 3 = 1 then 0x77 else 0x78) else 0x2D) = ch
  have hp : printable ch := by
    rw [← hch]; unfold printable; split_ifs <;> omega
  split_ifs
  · exact key _ _ (adds_columns_color L _ (by simp)).1 (by decide) hp
  · exact key _ _ (adds_columns_color L _ (by simp)).1 (by decide) hp
  · exact key _ _ (adds_columns_color L _ (by simp)).1 (by decide) hp
  · exact key _ _ (adds_columns_color L _ (by simp)).1 (by decide) hp

theorem perm_ones_adds (L : Locale) (hL : L.single_width) (mode : Nat) (l : List Nat) :
    adds_columns L (l.map (perm_one mode)).flatten l.length := by
  induction l with
  | nil => exact adds_columns_nil L
  | cons i rest ih =>
    have := adds_columns_append L _ _ _ _ (perm_one_adds L hL mode i) ih
    simp only [List.map_cons, List.flatten_cons, List.length_cons]
    push_cast
    rw [add_comm]
    exact this

/-- A cell of 8 characters and a blank, as the inode, owner and group cells. -/
theorem cell8_adds (L : Locale) (hL : L.single_width) (size : Nat) (hsize : 32 ≤ size)
    (col s : List Nat) (hcol : col ∈ [COLOR_MAGENTA, COLOR_CYAN]) (hlen : s.length ≤ 8)
    (hs : ∀ b ∈ s, printable b) :
    adds_columns L (snprintf size (col ++ pad_right 8 s ++ COLOR_RESET ++ [0x20])) 9 := by
  have hc : adds_columns L col 0 ∧ col.length ≤ 10 := by
    simp only [List.mem_cons, List.mem_singleton, List.mem_nil_iff, or_false] at hcol
    rcases hcol with rfl | rfl
    · exact adds_columns_color L _ (by simp)
    · exact adds_columns_color L _ (by simp)
  have := cell_snprintf_adds L hL size col (pad_right 8 s) [0x20] hc.1 hc.2
    (pad_right_printable 8 s hs) (by intro b hb; simp at hb; rw [hb]; unfold printable; omega)
    (by rw [pad_right_length 8 s hlen]; simp) hsize
  rw [pad_right_length 8 s hlen] at this
  simpa using this

theorem size_cell_adds (L : Locale) (hL : L.single_width) (env : Env) (o : Options)
    (item : FileItem)
    (h : item.is_dir = false →
      0 ≤ item.size
      ∧ (if o.human_readable then
          item.size < 2 ^ 53 ∧ (cstr env.decimal_point).length ≤ 1
            ∧ ∀ b ∈ cstr env.decimal_point, printable b
        else item.size < 10 ^ 10)) :
    adds_columns L (snprintf 128 ((size_text_and_color env o item).2
      ++ pad_left 10 (size_text_and_color env o item).1 ++ COLOR_RESET ++ [0x20, 0x20])) 12 := by
  have key : ∀ (col s : List Nat), adds_columns L col 0 ∧ col.length ≤ 10 → s.length ≤ 10 →
      (∀ b ∈ s, printable b) →
      adds_columns L (snprintf 128 (col ++ pad_left 10 s ++ COLOR_RESET ++ [0x20, 0x20])) 12 := by
    intro col s hc hlen hs
    have := cell_snprintf_adds L hL 128 col (pad_left 10 s) [0x20, 0x20] hc.1 hc.2
      (pad_left_printable 10 s hs)
      (by intro b hb; simp at hb; rw [hb]; unfold printable; omega)
      (by rw [pad_left_length 10 s hlen]; simp) (by omega)
    rw [pad_left_length 10 s hlen] at this
    simpa using this
  unfold size_text_and_color
  cases hd : item.is_dir
  · have hf := format_size_fits o env.decimal_point item.size (h hd).1 (h hd).2
    simp only [Bool.false_eq_true, if_false]
    split_ifs
    · exact key _ _ (adds_columns_color L _ (by simp)) hf.1 hf.2
    · exact key _ _ (adds_columns_color L _ (by simp)) hf.1 hf.2
    · exact key _ _ (adds_columns_color L _ (by simp)) hf.1 hf.2
  · simp only [if_true]
    exact key _ _ (adds_columns_color L _ (by simp)) (by decide) (by unfold printable; decide)

theorem time_cell_adds (L : Locale) (hL : L.single_width) (env : Env) (item : FileItem)
    (h : ∀ text, env.strftime item.mtime = some text →
      (cstr text).length ≤ 12 ∧ ∀ b ∈ cstr text, printable b) :
    adds_columns L (snprintf 128 ((if env.now - item.mtime < 60 * 60 * 24 * 2 then
          COLOR_GREEN ++ COLOR_BOLD else COLOR_DIM ++ COLOR_GRAY)
        ++ pad_right 12 (format_time env item.mtime 32) ++ COLOR_RESET ++ [0x20, 0x20])) 14 := by
  have hf := format_time_fits env item.mtime h
  have key : ∀ (col : List Nat), adds_columns L col 0 ∧ col.length ≤ 10 →
      adds_columns L (snprintf 128 (col ++ pad_right 12 (format_time env item.mtime 32)
        ++ COLOR_RESET ++ [0x20, 0x20])) 14 := by
    intro col hc
    have := cell_snprintf_adds L hL 128 col (pad_right 12 (format_time env item.mtime 32))
      [0x20, 0x20] hc.1 hc.2 (pad_right_printable 12 _ hf.2)
      (by intro b hb; simp at hb; rw [hb]; unfold printable; omega)
      (by rw [pad_right_length 12 _ hf.1]; simp) (by omega)
    rw [pad_right_length 12 _ hf.1] at this
    simpa using this
  split_ifs
  · exact key _ (adds_columns_color L _ (by simp))
  · exact key _ (adds_columns_color L _ (by simp))

/-- The strings appended up to the `icon + name` block add up to the width of
the fields, when the fields fit. -/
theorem long_field_pieces_adds (env : Env) (o : Options) (item : FileItem)
    (hL : env.locale.single_width) (hfit : fields_fit env o item) :
    adds_columns env.locale (long_field_pieces env o item).flatten (long_fields_width o) := by
  obtain ⟨hi, hn, ho, hsz, htm⟩ := hfit
  have hI : adds_columns env.locale
      (if o.show_inode then
        [snprintf 64 (COLOR_MAGENTA ++ pad_right 8 (fmt_u item.inode) ++ COLOR_RESET ++ [0x20])]
      else []).flatten (if o.show_inode then 9 else 0) := by
    cases h : o.show_inode
    · simpa using adds_columns_nil env.locale
    · simpa using cell8_adds env.locale hL 64 (by omega) COLOR_MAGENTA (fmt_u item.inode)
        (by simp) (fmt_u_length _ 8 (by decide) (hi h)) (fmt_u_printable _)
  have hIds : adds_columns env.locale
      (if o.numeric_ids then
        [snprintf 128 (COLOR_CYAN ++ pad_right 8 (fmt_u item.uid) ++ COLOR_RESET ++ [0x20])]
        ++ (if !o.omit_group then
              [snprintf 128 (COLOR_CYAN ++ pad_right 8 (fmt_u item.gid) ++ COLOR_RESET
                ++ [0x20])]
            else [])
      else
        [snprintf 128 (COLOR_CYAN ++ pad_right 8 (owner_text env item.uid) ++ COLOR_RESET
          ++ [0x20])]
        ++ (if !o.omit_group then
              [snprintf 128 (COLOR_CYAN ++ pad_right 8 (group_text env item.gid) ++ COLOR_RESET
                ++ [0x20])]
            else [])).flatten (9 + (if o.omit_group then 0 else 9)) := by
    cases h1 : o.numeric_ids
    · have hu := owner_text_fits env item.uid (ho h1).1
      have cu := cell8_adds env.locale hL 128 (by omega) COLOR_CYAN _ (by simp) hu.1 hu.2
      cases h2 : o.omit_group
      · have hg := group_text_fits env item.gid ((ho h1).2 h2)
        have cg := cell8_adds env.locale hL 128 (by omega) COLOR_CYAN _ (by simp) hg.1 hg.2
        simpa using adds_columns_append _ _ _ _ _ cu cg
      · simpa using cu
    · have cu := cell8_adds env.locale hL 128 (by omega) COLOR_CYAN (fmt_u item.uid) (by simp)
        (fmt_u_length _ 8 (by decide) (hn h1).1) (fmt_u_printable _)
      cases h2 : o.omit_group
      · have cg := cell8_adds env.locale hL 128 (by omega) COLOR_CYAN (fmt_u item.gid) (by simp)
          (fmt_u_length _ 8 (by decide) ((hn h1).2 h2)) (fmt_u_printable _)
        simpa using adds_columns_append _ _ _ _ _ cu cg
      · simpa using cu
  have hP := perm_type_adds env.locale hL item.mode
  have hQ := perm_ones_adds env.locale hL item.mode (List.range 9)
  have hS : adds_columns env.locale [0x20] 1 := by
    simpa using adds_columns_printable env.locale hL [0x20] (by unfold printable; decide)
  have hZ := size_cell_adds env.locale hL env o item hsz
  have hT := time_cell_adds env.locale hL env item htm
  have all := adds_columns_append _ _ _ _ _ (adds_columns_append _ _ _ _ _
    (adds_columns_append _ _ _ _ _ (adds_columns_append _ _ _ _ _
    (adds_columns_append _ _ _ _ _ (adds_columns_append _ _ _ _ _ hI hP) hQ) hS) hIds) hZ) hT
  have hw : (if o.show_inode = true then (9 : Int) else 0) + 1 + ((List.range 9).length : Int)
      + 1 + (9 + if o.omit_group = true then 0 else 9) + 12 + 14 = long_fields_width o := by
    unfold long_fields_width
    simp only [List.length_range]
    push_cast
    ring
  rw [hw] at all
  unfold long_field_pieces
  simp only [List.flatten_append, List.flatten_cons, List.flatten_nil, List.append_nil]
  exact all

/-- The header cells in front of `NAME` add up to the same width. -/
theorem long_header_fields_adds (L : Locale) (hL : L.single_width) (o : Options) :
    adds_columns L (long_header_fields o).1 (long_fields_width o)
    ∧ (long_header_fields o).2 + 26 = 1 + long_fields_width o := by
  have yb := (adds_columns_color L (COLOR_YELLOW ++ COLOR_BOLD) (by simp)).1
  have cell : ∀ (s sp : List Nat), (∀ b ∈ s, printable b) → (∀ b ∈ sp, printable b) →
      adds_columns L (COLOR_YELLOW ++ COLOR_BOLD ++ s ++ COLOR_RESET ++ sp)
        ((s.length : Int) + sp.length) :=
    fun s sp hs hsp => cell_adds L hL _ s sp yb hs hsp
  have c1 := cell (pad_right 8 [0x49, 0x4E, 0x4F, 0x44, 0x45]) [0x20]
    (by unfold printable; decide) (by unfold printable; decide)
  have c2 := cell (pad_right 10 [0x50, 0x45, 0x52, 0x4D, 0x53]) [0x20]
    (by unfold printable; decide) (by unfold printable; decide)
  have c3 := cell (pad_right 8 [0x55, 0x49, 0x44]) [0x20]
    (by unfold printable; decide) (by unfold printable; decide)
  have c4 := cell (pad_right 8 [0x47, 0x49, 0x44]) [0x20]
    (by unfold printable; decide) (by unfold printable; decide)
  have c5 := cell (pad_right 8 [0x4F, 0x57, 0x4E, 0x45, 0x52]) [0x20]
    (by unfold printable; decide) (by unfold printable; decide)
  have c6 := cell (pad_right 8 [0x47, 0x52, 0x4F, 0x55, 0x50]) [0x20]
    (by unfold printable; decide) (by unfold printable; decide)
  have c7 := cell (pad_left 10 [0x53, 0x49, 0x5A, 0x45]) [0x20, 0x20]
    (by unfold printable; decide) (by unfold printable; decide)
  have c8 := cell (pad_right 12 [0x4D, 0x4F, 0x44, 0x49, 0x46, 0x49, 0x45, 0x44]) [0x20, 0x20]
    (by unfold printable; decide) (by unfold printable; decide)
  have l8 : ∀ s : List Nat, s.length ≤ 8 → ((pad_right 8 s).length : Int) = 8 :=
    fun s h => by rw [pad_right_length 8 s h]; rfl
  rw [l8 _ (by decide)] at c1 c3 c4 c5 c6
  rw [show ((pad_right 10 [0x50, 0x45, 0x52, 0x4D, 0x53]).length : Int) = 10 from rfl] at c2
  rw [show ((pad_left 10 [0x53, 0x49, 0x5A, 0x45]).length : Int) = 10 from rfl] at c7
  rw [show ((pad_right 12 [0x4D, 0x4F, 0x44, 0x49, 0x46, 0x49, 0x45, 0x44]).length : Int) = 12
    from rfl] at c8
  have ap := adds_columns_append L
  unfold long_header_fields long_fields_width
  cases o.show_inode <;> cases o.numeric_ids <;> cases o.omit_group <;>
    simp only [Bool.false_eq_true, if_false, if_true, Bool.not_false, Bool.not_true,
      List.nil_append] <;>
    refine ⟨?_, by norm_num⟩
  · simpa [List.append_assoc] using ap _ _ _ _ (ap _ _ _ _ (ap _ _ _ _ (ap _ _ _ _ c2 c5) c6) c7) c8
  · simpa [List.append_assoc] using ap _ _ _ _ (ap _ _ _ _ (ap _ _ _ _ c2 c5) c7) c8
  · simpa [List.append_assoc] using ap _ _ _ _ (ap _ _ _ _ (ap _ _ _ _ (ap _ _ _ _ c2 c3) c4) c7) c8
  · simpa [List.append_assoc] using ap _ _ _ _ (ap _ _ _ _ (ap _ _ _ _ c2 c3) c7) c8
  · simpa [List.append_assoc] using
      ap _ _ _ _ (ap _ _ _ _ (ap _ _ _ _ (ap _ _ _ _ (ap _ _ _ _ c1 c2) c5) c6) c7) c8
  · simpa [List.append_assoc] using
      ap _ _ _ _ (ap _ _ _ _ (ap _ _ _ _ (ap _ _ _ _ c1 c2) c5) c7) c8
  · simpa [List.append_assoc] using
      ap _ _ _ _ (ap _ _ _ _ (ap _ _ _ _ (ap _ _ _ _ (ap _ _ _ _ c1 c2) c3) c4) c7) c8
  · simpa [List.append_assoc] using
      ap _ _ _ _ (ap _ _ _ _ (ap _ _ _ _ (ap _ _ _ _ c1 c2) c3) c7) c8

theorem long_field_pieces_short (env : Env) (o : Options) (item : FileItem) :
    (∀ p ∈ long_field_pieces env o item, p.length ≤ 127)
    ∧ (long_field_pieces env o item).length ≤ 16 := by
  have h1 : ∀ (n : Nat) (t : List Nat), n ≤ 128 → (snprintf n t).length ≤ 127 :=
    fun n t hn => le_trans (snprintf_length_le n t) (by omega)
  have hpo : ∀ i, (perm_one item.mode i).length ≤ 127 := by
    intro i; unfold perm_one; exact h1 32 _ (by omega)
  have hpt : (perm_type item.mode).length ≤ 127 := by
    unfold perm_type; exact h1 128 _ (by omega)
  have A : ∀ (a b : List (List Nat)), (∀ p ∈ a, p.length ≤ 127) → (∀ p ∈ b, p.length ≤ 127) →
      ∀ p ∈ a ++ b, p.length ≤ 127 := by
    intro a b ha hb p hp
    rcases List.mem_append.mp hp with h | h
    · exact ha p h
    · exact hb p h
  have S : ∀ (x : List Nat), x.length ≤ 127 → ∀ p ∈ [x], p.length ≤ 127 := by
    intro x hx p hp
    rw [List.mem_singleton.mp hp]; exact hx
  have N : ∀ p ∈ ([] : List (List Nat)), p.length ≤ 127 := by
    intro p hp; simp at hp
  have I : ∀ (c : Prop) [Decidable c] (a b : List (List Nat)), (∀ p ∈ a, p.length ≤ 127) →
      (∀ p ∈ b, p.length ≤ 127) → ∀ p ∈ (if c then a else b), p.length ≤ 127 := by
    intro c _ a b ha hb
    split_ifs
    · exact ha
    · exact hb
  have M : ∀ p ∈ (List.range 9).map (perm_one item.mode), p.length ≤ 127 := by
    intro p hp
    obtain ⟨i, _, rfl⟩ := List.mem_map.mp hp
    exact hpo i
  unfold long_field_pieces
  constructor
  · refine A _ _ (A _ _ (A _ _ (A _ _ (A _ _ (A _ _ ?_ ?_) ?_) ?_) ?_) ?_) ?_
    · exact I _ _ _ (S _ (h1 _ _ (by omega))) N
    · exact S _ hpt
    · exact M
    · exact S _ (by decide)
    · exact I _ _ _ (A _ _ (S _ (h1 _ _ (by omega))) (I _ _ _ (S _ (h1 _ _ (by omega))) N))
        (A _ _ (S _ (h1 _ _ (by omega))) (I _ _ _ (S _ (h1 _ _ (by omega))) N))
    · exact S _ (h1 _ _ (by omega))
    · exact S _ (h1 _ _ (by omega))
  · cases o.show_inode <;> cases o.numeric_ids <;> cases o.omit_group <;>
      simp [List.length_range]

/-- C13, amended: for a fixed option set, the long-format row text that
precedes the icon and name of a top-level row (empty indentation prefix) has
the same visible width, `long_fields_width`, for every entry whose fields fit
their columns (`fields_fit`: inode and numeric ids of at most 8 digits, owner
and group names of printable ASCII, a size of at most 10 digits, with `-h` a
size below 2^53 and a decimal point of the `LC_NUMERIC` locale that is at most
one byte of printable ASCII, a time text of at most 12 printable ASCII bytes),
and the header cells in front of `NAME` have that width too: the icon and name
start at the same column in every such row and under the `NAME` header. -/
theorem long_fields_align (env : Env) (o : Options) (item : FileItem)
    (hL : env.locale.single_width) (hfit : fields_fit env o item) :
    visible_len_ansi env.locale (long_row_fields env o item []) = long_fields_width o
    ∧ visible_len_ansi env.locale (long_header_fields o).1 = long_fields_width o
    ∧ (long_header_fields o).2 + 26 = 1 + long_fields_width o
    ∧ (∃ name_block, long_row env o item [] = long_row_fields env o item [] ++ name_block) := by
  have hs := long_field_pieces_short env o item
  have hsum := sum_length_le (long_field_pieces env o item) 127 hs.1
  have hcat : long_row_fields env o item [] = (long_field_pieces env o item).flatten := by
    rw [long_row_fields_eq]
    have hstart : row_start [] = [] := by decide
    rw [hstart, foldl_row_cat _ [] (by
      simp only [List.length_nil, zero_add]
      have : 127 * (long_field_pieces env o item).length ≤ 127 * 16 :=
        Nat.mul_le_mul_left _ hs.2
      omega)]
    simp
  have hh := long_header_fields_adds env.locale hL o
  refine ⟨?_, adds_columns_total _ _ _ hh.1, hh.2, ?_⟩
  · rw [hcat]
    exact adds_columns_total _ _ _ (long_field_pieces_adds env o item hL hfit)
  · unfold long_row row_cat strncat
    simp only
    split_ifs <;> exact ⟨_, by simp only [List.append_assoc]; rfl⟩

theorem example_fields_fit :
    fields_fit example_env { show_inode := true, human_readable := true }
      { plain_file [0x61] 5 with size := 2048 } := by
  unfold fields_fit
  refine ⟨?_, ?_, ?_, ?_, ?_⟩
  · intro _; decide
  · intro h; cases h
  · intro _
    constructor
    · intro pw_name h
      have : pw_name = [0x72, 0x6F, 0x6F, 0x74] := by
        simpa [example_env, plain_file] using h.symm
      subst this
      unfold printable
      decide
    · intro _ gr_name h
      simp [example_env] at h
  · intro _
    refine ⟨by decide, ?_⟩
    rw [if_pos rfl]
    refine ⟨by decide, by decide, ?_⟩
    intro b hb
    have : b = 0x2E := by simpa [example_env, cstr] using hb
    subst this
    unfold printable
    decide
  · intro text h
    have : text = [0x4A, 0x61, 0x6E, 0x20, 0x30, 0x31, 0x20, 0x30, 0x30, 0x3A, 0x30, 0x30] := by
      simpa [example_env] using h.symm
    subst this
    unfold printable
    decide

theorem long_fields_align_witness :
    example_env.locale.single_width
    ∧ fields_fit example_env { show_inode := true, human_readable := true }
        { plain_file [0x61] 5 with size := 2048 }
    ∧ visible_len_ansi example_env.locale
        (long_row_fields example_env { show_inode := true, human_readable := true }
          { plain_file [0x61] 5 with size := 2048 } []) = 64
    ∧ visible_len_ansi example_env.locale
        (long_header_fields { show_inode := true, human_readable := true }).1 = 64 :=
  have h := long_fields_align example_env { show_inode := true, human_readable := true }
    { plain_file [0x61] 5 with size := 2048 } utf8_locale_single_width example_fields_fit
  ⟨utf8_locale_single_width, example_fields_fit, h.1, h.2.1⟩

set_option maxRecDepth 8000 in
/-- C13 as stated fails: with the inode column shown, an entry with the
9-digit inode 123456789 has 65 columns in front of its icon, an entry with
inode 0 has 64, and the header has 64 in front of `NAME`: `%-8llu` pads to 8
characters but does not cut a longer number. -/
theorem long_fields_shift_on_long_inode :
    visible_len_ansi example_env.locale (long_row_fields example_env { show_inode := true }
        { plain_file [0x61] 5 with inode := 123456789 } []) = 65
    ∧ visible_len_ansi example_env.locale (long_row_fields example_env { show_inode := true }
        (plain_file [0x61] 5) []) = 64
    ∧ visible_len_ansi example_env.locale (long_header_fields { show_inode := true }).1 = 64 := by
  decide

set_option maxRecDepth 8000 in
/-- The condition on the decimal point is needed: in a UTF-8 locale whose
decimal point is the two-byte U+066B, with `-h`, `%10s` pads the size text
(`2`, the decimal point, `0K`) by its 5 bytes and not by its 4 columns, and
the text in front of the icon is 54 columns for a file of 2048 bytes and 55
for a file of 5 bytes and in the header. -/
theorem long_fields_shift_on_multibyte_decimal_point :
    visible_len_ansi utf8_locale
        (long_row_fields { example_env with decimal_point := [0xD9, 0xAB] }
          { human_readable := true } { plain_file [0x61] 5 with size := 2048 } []) = 54
    ∧ visible_len_ansi utf8_locale
        (long_row_fields { example_env with decimal_point := [0xD9, 0xAB] }
          { human_readable := true } { plain_file [0x61] 5 with size := 5 } []) = 55
    ∧ visible_len_ansi utf8_locale (long_header_fields { human_readable := true }).1 = 55 := by
  decide

/-! ### The exit status -/

/-- The exit status is 1 exactly when the option loop ends in `return 1` or
`getcwd` fails with no target given; in every other run it is 0, whatever
happens to the target. -/
theorem main_status (sys : Sys) (opts : List (Nat × List Nat)) (positional : List (List Nat)) :
    ((main sys opts positional).1 = 1 ↔
      (parse_options {} opts = none ∨ (positional = [] ∧ sys.getcwd = none)))
    ∧ ((main sys opts positional).1 = 0 ∨ (main sys opts positional).1 = 1) := by
  unfold main
  cases hp : parse_options {} opts with
  | none => simp
  | some o =>
    cases positional with
    | nil =>
      cases hg : sys.getcwd with
      | none => simp
      | some cwd => simp
    | cons target rest =>
      simp only
      split_ifs <;> simp

/-- A target that can neither be opened nor `lstat`-ed: nothing is printed and
the exit status is 0. -/
theorem main_unreadable_target (sys : Sys) (opts : List (Nat × List Nat)) (o : Options)
    (target : List Nat) (rest : List (List Nat)) (hp : parse_options {} opts = some o)
    (hstar : 0x2A ∉ cstr target) (hdir : sys.fs.readdir target = none)
    (hstat : sys.fs.lstat (cstr target) = none) :
    main sys opts (target :: rest) = (0, []) := by
  unfold main
  simp only [hp, hstar, if_false]
  have hl : ∀ o2 : Options, load_directory sys.fs o2 target = none := by
    intro o2; simp [load_directory, hdir]
  have hs : load_single_file sys.fs target = none := by
    simp [load_single_file, hstat]
  simp [draw_single_box_listing, hl, hs]

/-- C12, the code at a failing input: in a system where the target `x` can
neither be opened as a directory nor `lstat`-ed, the run prints nothing and
`main` returns 0, not 1.  An unknown flag and a failing `getcwd` do give the
exit status 1. -/
theorem unreadable_target_exits_zero :
    (load_directory empty_sys.fs {} [0x78]).isNone = true
    ∧ (load_single_file empty_sys.fs [0x78]).isNone = true
    ∧ main empty_sys [] [[0x78]] = (0, [])
    ∧ main empty_sys [(0x3F, [])] [[0x78]] = (1, [])
    ∧ main { empty_sys with getcwd := none } [] [] = (1, []) := by
  decide

/-! ### The depth option -/

theorem apply_option_depth (o : Options) (arg : List Nat) :
    apply_option o 0x44 arg
      = if atoi arg < 0 then none else some { o with depth := atoi arg } := by
  rfl

theorem parse_options_negative_depth : ∀ (opts : List (Nat × List Nat)) (o : Options)
    (arg : List Nat), (0x44, arg) ∈ opts → atoi arg < 0 → parse_options o opts = none := by
  intro opts
  induction opts with
  | nil => intro o arg h; simp at h
  | cons hd tl ih =>
    intro o arg h hneg
    obtain ⟨opt, optarg⟩ := hd
    rcases List.mem_cons.mp h with e | e
    · have e1 : opt = 0x44 := (Prod.mk.inj e.symm).1
      have e2 : optarg = arg := (Prod.mk.inj e.symm).2
      subst e1 e2
      simp only [parse_options, apply_option_depth, hneg, if_true]
    · simp only [parse_options]
      cases apply_option o opt optarg with
      | none => rfl
      | some o2 => exact ih o2 arg e hneg

theorem parse_digits_all_digits : ∀ (ds : List Nat) (acc : Nat),
    (∀ b ∈ ds, 0x30 ≤ b ∧ b ≤ 0x39) →
    parse_digits ds acc = ds.foldl (fun a b => 10 * a + (b - 0x30)) acc := by
  intro ds
  induction ds with
  | nil => intro acc _; rfl
  | cons b rest ih =>
    intro acc h
    have hb := h b (by simp)
    simp only [parse_digits, hb, and_self, if_true, List.foldl_cons]
    exact ih _ (fun x hx => h x (List.mem_cons_of_mem _ hx))

/-- `atoi` reads a minus sign and the digits of `n` as `-n`, as long as `-n`
is in the range of `int`. -/
theorem atoi_negative (n : Nat) (hn : n ≤ 2147483648) :
    atoi (0x2D :: fmt_u n) = -(n : Int) := by
  have hdig : ∀ b ∈ fmt_u n, 0x30 ≤ b ∧ b ≤ 0x39 := dec_loop_digits (n + 1) n [] (by simp)
  have hno : 0 ∉ (0x2D :: fmt_u n) := by
    intro h
    rcases List.mem_cons.mp h with e | e
    · omega
    · have := hdig 0 e; omega
  have hval := fmt_u_value n
  rw [← parse_digits_all_digits (fmt_u n) 0 hdig] at hval
  cases hf : fmt_u n with
  | nil =>
    rw [hf] at hval
    simp only [parse_digits] at hval
    subst hval
    have : fmt_u 0 = [0x30] := by decide
    rw [this] at hf
    cases hf
  | cons d rest =>
    have hd := hdig d (by rw [hf]; simp)
    rw [hf] at hno hval
    unfold atoi strtol
    rw [cstr_of_no_nul _ hno]
    simp only [skip_space, isspace, hd, hval, decide_eq_true_eq, Bool.or_eq_true,
      Bool.and_eq_true, and_self, if_true, true_or, gt_iff_lt]
    simp only [show ¬ ((0x2D : Nat) = 0x20 ∨ (0x09 : Nat) ≤ 0x2D ∧ (0x2D : Nat) ≤ 0x0D) by decide,
      if_false, hd, hval, and_self, if_true, true_or]
    unfold to_int LONG_MIN LONG_MAX
    split_ifs <;> omega

set_option maxRecDepth 8000 in
/-- C14 as stated fails for non-numeric text: with `-D abc` the depth is
`atoi("abc") = 0`, the run goes on, renders the listing and exits with status
0; `-D 3x` is read as depth 3.  It also fails for negative numbers outside the
range of `int`, which wrap in the conversion to `int`: `-4294967296` is read
as 0 and `-2147483649` as 2147483647, and the run renders and exits with
status 0. -/
theorem non_numeric_depth_is_accepted :
    atoi [0x61, 0x62, 0x63] = 0
    ∧ (parse_options {} [(0x44, [0x61, 0x62, 0x63])]).map (fun o => o.depth) = some 0
    ∧ (main example_sys [(0x44, [0x61, 0x62, 0x63])] [[0x64]]).1 = 0
    ∧ (main example_sys [(0x44, [0x61, 0x62, 0x63])] [[0x64]]).2 ≠ []
    ∧ (parse_options {} [(0x44, [0x33, 0x78])]).map (fun o => o.depth) = some 3
    ∧ atoi [0x2D, 0x34, 0x32, 0x39, 0x34, 0x39, 0x36, 0x37, 0x32, 0x39, 0x36] = 0
    ∧ atoi [0x2D, 0x32, 0x31, 0x34, 0x37, 0x34, 0x38, 0x33, 0x36, 0x34, 0x39] = 2147483647
    ∧ (main example_sys
        [(0x44, [0x2D, 0x34, 0x32, 0x39, 0x34, 0x39, 0x36, 0x37, 0x32, 0x39, 0x36])]
        [[0x64]]).1 = 0
    ∧ (main example_sys
        [(0x44, [0x2D, 0x34, 0x32, 0x39, 0x34, 0x39, 0x36, 0x37, 0x32, 0x39, 0x36])]
        [[0x64]]).2 ≠ [] := by
  decide

/-- C14, amended: for every `-D` / `--depth` argument that `atoi` reads as a
negative `int` (in particular a minus sign followed by the digits of a number
from 1 to 2147483648, the negative numbers in the range of `int`), wherever
the option stands among the options, the run is a fatal configuration error:
`main` returns 1 and nothing is rendered. -/
theorem negative_depth_is_fatal (sys : Sys) (opts : List (Nat × List Nat))
    (positional : List (List Nat)) (arg : List Nat) (h : (0x44, arg) ∈ opts)
    (hneg : atoi arg < 0) :
    main sys opts positional = (1, [])
    ∧ (∀ n : Nat, 0 < n → n ≤ 2147483648 → atoi (0x2D :: fmt_u n) < 0) := by
  constructor
  · unfold main
    simp [parse_options_negative_depth opts {} arg h hneg]
  · intro n hn hle
    rw [atoi_negative n hle]
    omega

theorem negative_depth_is_fatal_witness :
    (0x44, [0x2D, 0x35]) ∈ [(0x6C, []), (0x44, [0x2D, 0x35])]
    ∧ atoi [0x2D, 0x35] < 0
    ∧ main example_sys [(0x6C, []), (0x44, [0x2D, 0x35])] [[0x64]] = (1, []) :=
  ⟨by decide, by decide,
    (negative_depth_is_fatal example_sys [(0x6C, []), (0x44, [0x2D, 0x35])] [[0x64]]
      [0x2D, 0x35] (by decide) (by decide)).1⟩

end Lsx
